import Mathlib

/-!
Verification of the IVR discovery engine (punitarani/ivr-discovery).

This file shallowly embeds the deterministic core of the repository:

* the IVR tree data model (`apps/server/src/models.ts`),
* the transcript-to-graph merger (`apps/server/src/extract.ts`:
  `ensureOption`, `upsertChild`, `createMenuNode`, `createEndNode`,
  `parseOptions`, `splitSentences`, `isPressEvent`, `findFirstGreeting`,
  `buildGraphDeterministic`),
* the traversal planner (`apps/server/src/discover.ts`:
  `isTraversalComplete`, `nextUnvisitedPath`, `collectVisitedAndPendingPaths`),
* the polling loop (`apps/server/src/bland/call.ts`: `pollCallUntilDone`),
* phone identity normalization (`normalizePhoneToE164`, `makeCall` gate),
* the session ledger (`apps/server/src/persist.ts`: `appendCall`),
* the per-iteration error-propagation skeleton of `DiscoverService.run`.

JavaScript objects mutated in place through aliased references (the merge
cursor, the backtrack stack) are represented by addressing nodes with their
digit path from the root and re-resolving the path on each access; this is
faithful because children are only ever appended (never removed or reordered)
so a `find`-by-id lookup resolves to the same node throughout a run.
JavaScript numbers are modelled exactly: node confidences, which the code
clamps to hundredths in `[0,1]` (`Math.max(0, Math.min(1, pct / 100))`)
and only ever compares, maximizes or overwrites, are stored as integer
percentage points in `[0,100]` (the map `x ↦ x / 100` is an order
isomorphism onto the code's values, and every operation the code performs
on confidences commutes with it); call prices are exact rationals (`ℚ`),
and `Number.isFinite` guards are modelled with an explicit non-finite
marker where the distinction matters.  JavaScript string truthiness
(`if (s)`, `a || b`) is modelled explicitly via emptiness tests.
-/

/-- An option of an IVR menu node (`OptionSchema` in `models.ts`):
a digit, a label and a nullable pointer to the child node it leads to. -/
structure IvrOption where
  digit : String
  label : String
  targetNodeId : Option String
deriving DecidableEq, Repr

/-- A node of the IVR tree (`Node` in `models.ts`).  The tree is recursive:
`children` holds the nodes reached via resolved options. -/
inductive Node : Type where
  | mk (id : String) (parentId : Option String) (promptText : String)
       (confidence : ℤ) (options : List IvrOption) (children : List Node)
deriving Repr

/-- The node's id (derived from the digit path from the root). -/
def Node.id : Node → String
  | .mk i _ _ _ _ _ => i

/-- The node's parent id (`null` only for the root). -/
def Node.parentId : Node → Option String
  | .mk _ p _ _ _ _ => p

/-- The node's last-observed prompt text. -/
def Node.promptText : Node → String
  | .mk _ _ t _ _ _ => t

/-- The node's confidence, in integer percentage points of `[0,100]`
(the source stores the same value divided by 100). -/
def Node.confidence : Node → ℤ
  | .mk _ _ _ c _ _ => c

/-- The node's options. -/
def Node.options : Node → List IvrOption
  | .mk _ _ _ _ o _ => o

/-- The node's children. -/
def Node.children : Node → List Node
  | .mk _ _ _ _ _ c => c

/-- Decidable equality for nodes, by recursion on the nested tree. -/
def Node.decEq : (a b : Node) → Decidable (a = b)
  | .mk i₁ p₁ t₁ c₁ o₁ ch₁, .mk i₂ p₂ t₂ c₂ o₂ ch₂ =>
    if h₁ : i₁ = i₂ then
      if h₂ : p₁ = p₂ then
        if h₃ : t₁ = t₂ then
          if h₄ : c₁ = c₂ then
            if h₅ : o₁ = o₂ then
              match decEqList ch₁ ch₂ with
              | .isTrue h₆ => .isTrue (by subst h₁ h₂ h₃ h₄ h₅ h₆; rfl)
              | .isFalse h₆ => .isFalse (by intro h; cases h; exact h₆ rfl)
            else .isFalse (by intro h; cases h; exact h₅ rfl)
          else .isFalse (by intro h; cases h; exact h₄ rfl)
        else .isFalse (by intro h; cases h; exact h₃ rfl)
      else .isFalse (by intro h; cases h; exact h₂ rfl)
    else .isFalse (by intro h; cases h; exact h₁ rfl)
where
  /-- Decidable equality for lists of nodes. -/
  decEqList : (xs ys : List Node) → Decidable (xs = ys)
    | [], [] => .isTrue rfl
    | [], _ :: _ => .isFalse (by intro h; cases h)
    | _ :: _, [] => .isFalse (by intro h; cases h)
    | x :: xs, y :: ys =>
      match Node.decEq x y, decEqList xs ys with
      | .isTrue h₁, .isTrue h₂ => .isTrue (by rw [h₁, h₂])
      | .isFalse h₁, _ => .isFalse (by intro h; cases h; exact h₁ rfl)
      | _, .isFalse h₂ => .isFalse (by intro h; cases h; exact h₂ rfl)

instance : DecidableEq Node := Node.decEq

/-- Replace the node's prompt text. -/
def Node.setPrompt (n : Node) (t : String) : Node :=
  .mk n.id n.parentId t n.confidence n.options n.children

/-- Replace the node's confidence. -/
def Node.setConfidence (n : Node) (c : ℤ) : Node :=
  .mk n.id n.parentId n.promptText c n.options n.children

/-- Replace the node's option list. -/
def Node.setOptions (n : Node) (o : List IvrOption) : Node :=
  .mk n.id n.parentId n.promptText n.confidence o n.children

/-- Replace the node's children list. -/
def Node.setChildren (n : Node) (c : List Node) : Node :=
  .mk n.id n.parentId n.promptText n.confidence n.options c

/-! ### Generic list helpers

`updateFirst` models mutating the object returned by `Array.prototype.find`
(the first match); `updateLast` models mutating the object returned by a
`Map` built from an id-keyed array, where later entries overwrite earlier
ones, so a lookup yields the last match. -/

/-- Apply `f` to the first element satisfying `p`; leave the rest alone. -/
def updateFirst (p : α → Bool) (f : α → α) : List α → List α
  | [] => []
  | x :: xs => if p x then f x :: xs else x :: updateFirst p f xs

/-- Apply `f` to the last element satisfying `p`; leave the rest alone. -/
def updateLast (p : α → Bool) (f : α → α) : List α → List α
  | [] => []
  | x :: xs => if xs.any p then x :: updateLast p f xs
               else if p x then f x :: xs else x :: xs

/-- The last element satisfying `p` (the entry a JS `Map` keyed by a
duplicate key would retain). -/
def findLast (p : α → Bool) (l : List α) : Option α :=
  l.reverse.find? p

/-! ### JavaScript string primitives -/

/-- JS `\s` / `String.prototype.trim` whitespace (the code points relevant
to this code base; full Unicode whitespace behaves identically on the
ASCII transcripts the system manipulates). -/
def jsWhitespace (c : Char) : Bool :=
  c = ' ' || c = '\t' || c = '\n' || c = '\r' ||
  c = '\x0b' || c = '\x0c' || c = Char.ofNat 0xa0 ||
  c = Char.ofNat 0x2028 || c = Char.ofNat 0x2029 || c = Char.ofNat 0xfeff

/-- Line terminators, which the JS regex `.` does not match. -/
def jsLineTerm (c : Char) : Bool :=
  c = '\n' || c = '\r' || c = Char.ofNat 0x2028 || c = Char.ofNat 0x2029

/-- JS `\w` word characters (`[A-Za-z0-9_]`), used for `\b` boundaries. -/
def jsWordChar (c : Char) : Bool :=
  ('a' ≤ c && c ≤ 'z') || ('A' ≤ c && c ≤ 'Z') || ('0' ≤ c && c ≤ '9') || c = '_'

/-- ASCII decimal digit (`[0-9]`). -/
def isDigit09 (c : Char) : Bool := '0' ≤ c && c ≤ '9'

/-- `String.prototype.trim` on a character list. -/
def jsTrimList (l : List Char) : List Char :=
  ((l.dropWhile jsWhitespace).reverse.dropWhile jsWhitespace).reverse

/-- `String.prototype.trim`. -/
def jsTrim (s : String) : String := String.mk (jsTrimList s.toList)

/-- JS `a || b` on strings: `a` if non-empty (truthy), else `b`. -/
def strOr (a b : String) : String := if a = "" then b else a

/-- JS truthiness of a nullable string (`if (x)` with `x : string | null`). -/
def strTruthy : Option String → Bool
  | none => false
  | some s => s ≠ ""

/-- `String.prototype.toLowerCase` (ASCII, per-character). -/
def jsToLower (s : String) : String := String.mk (s.toList.map Char.toLower)

/-- `String.prototype.startsWith`. -/
def jsStartsWith (s pre : String) : Bool := s.toList.take pre.toList.length = pre.toList

/-- Case-insensitive match of the literal `lit` at the head of `l`
(both sides lowercased, as the regex `i` flag does for ASCII);
returns the rest of the input on success. -/
def stripCI (lit : List Char) (l : List Char) : Option (List Char) :=
  match lit, l with
  | [], rest => some rest
  | _ :: _, [] => none
  | a :: as, c :: cs => if a.toLower = c.toLower then stripCI as cs else none

/-- The `\b` word-boundary test after a word character: the next character,
if any, must not be a word character. -/
def boundaryAfterWord (rest : List Char) : Bool :=
  match rest with
  | [] => true
  | c :: _ => !jsWordChar c

/-! ### Sentence splitting and the option-parsing regexes (`extract.ts`)

`parseOptions` in the source works with three JS regexes.  They are embedded
here as explicit matchers with the same semantics on the relevant inputs:
`PRESS_AFTER_LABEL_RE = /^(?<label>.+?)\s*,?\s*(?:press|dial)\s*(?<digit>[0-9])\b/iu`,
`PRESS_BEFORE_LABEL_RE = /\b(?:press|dial)\s*(?<digit>[0-9])\b\s*(?:for|to)\s*(?<label>.+)$/iu`
and the bare fallback `/\b(?:press|dial)\s*([0-9])\b/iu`. -/

/-- `splitSentences` worker: split before a whitespace run that follows one
of `.`, `!`, `?` (the lookbehind split `/(?<=[.!?])\s+/u`).  The first
argument records whether the previous character was such a punctuation
mark, the second accumulates the current segment in reverse. -/
def splitSentencesAux : Bool → List Char → List Char → List (List Char)
  | _, acc, [] => [acc.reverse]
  | prevPunct, acc, c :: cs =>
    if prevPunct && jsWhitespace c then acc.reverse :: splitSentencesSkip cs
    else splitSentencesAux (c = '.' || c = '!' || c = '?') (c :: acc) cs
where
  /-- Consume the rest of the maximal whitespace run, then resume. -/
  splitSentencesSkip : List Char → List (List Char)
    | [] => [[]]
    | c :: cs =>
      if jsWhitespace c then splitSentencesSkip cs
      else splitSentencesAux (c = '.' || c = '!' || c = '?') [c] cs

/-- `splitSentences` from `extract.ts`: split on whitespace after sentence
punctuation, trim each piece, drop empty pieces. -/
def splitSentences (text : String) : List String :=
  ((splitSentencesAux false [] text.toList).map
    (fun l => jsTrim (String.mk l))).filter (fun s => s ≠ "")

/-- Match `\s*,?\s*(?:press|dial)\s*(?<digit>[0-9])\b` at the head of `l`
and return the digit (the part of `PRESS_AFTER_LABEL_RE` after the lazy
label group). -/
def matchPressTail (l : List Char) : Option Char :=
  let r1 := l.dropWhile jsWhitespace
  let r2 := match r1 with
    | ',' :: t => t.dropWhile jsWhitespace
    | _ => r1
  match (stripCI "press".toList r2).orElse (fun _ => stripCI "dial".toList r2) with
  | none => none
  | some r3 =>
    match r3.dropWhile jsWhitespace with
    | d :: rest => if isDigit09 d && boundaryAfterWord rest then some d else none
    | [] => none

/-- `PRESS_AFTER_LABEL_RE` worker: grow the (lazy, non-empty, line-break
free) label one character at a time and test the press tail at each split,
shortest label first, as the reluctant `.+?` does. -/
def pressAfterAux (labelRev : List Char) : List Char → Option (List Char × Char)
  | [] => none
  | c :: cs =>
    match matchPressTail (c :: cs) with
    | some d => some (labelRev.reverse, d)
    | none => if jsLineTerm c then none else pressAfterAux (c :: labelRev) cs

/-- Apply `PRESS_AFTER_LABEL_RE` to a sentence: label text and digit. -/
def pressAfterLabel : List Char → Option (List Char × Char)
  | [] => none
  | c :: cs => if jsLineTerm c then none else pressAfterAux [c] cs

/-- Match `\s*(?<label>.+)$`: the greedy whitespace prefix is given back
only as far as needed for the (non-empty, line-break free) label to reach
the end of the input. -/
def wsRestFrom (l : List Char) : Nat → Option (List Char)
  | 0 => if l ≠ [] && l.all (fun c => !jsLineTerm c) then some l else none
  | i + 1 =>
    let cand := l.drop (i + 1)
    if cand ≠ [] && cand.all (fun c => !jsLineTerm c) then some cand
    else wsRestFrom l i

/-- Match `\s*(?<label>.+)$` at the head of `l`. -/
def matchWsThenRest (l : List Char) : Option (List Char) :=
  wsRestFrom l (l.takeWhile jsWhitespace).length

/-- Match `(?:press|dial)\s*(?<digit>[0-9])\b\s*(?:for|to)\s*(?<label>.+)$`
at the head of `l` (the part of `PRESS_BEFORE_LABEL_RE` after the `\b`). -/
def pressBeforeAt (l : List Char) : Option (Char × List Char) :=
  match (stripCI "press".toList l).orElse (fun _ => stripCI "dial".toList l) with
  | none => none
  | some r1 =>
    match r1.dropWhile jsWhitespace with
    | d :: r2 =>
      if isDigit09 d && boundaryAfterWord r2 then
        let r3 := r2.dropWhile jsWhitespace
        match (stripCI "for".toList r3).bind matchWsThenRest with
        | some lab => some (d, lab)
        | none => ((stripCI "to".toList r3).bind matchWsThenRest).map (fun lab => (d, lab))
      else none
    | [] => none

/-- Leftmost search for `PRESS_BEFORE_LABEL_RE`: the match must start at a
`\b` boundary, i.e. right after a non-word character or at the start. -/
def pressBeforeScan : Bool → List Char → Option (Char × List Char)
  | _, [] => none
  | prevWord, c :: cs =>
    match (if prevWord then none else pressBeforeAt (c :: cs)) with
    | some r => some r
    | none => pressBeforeScan (jsWordChar c) cs

/-- Match the bare `(?:press|dial)\s*([0-9])\b` at the head of `l`;
returns the digit and the input remaining after the digit. -/
def barePressAt (l : List Char) : Option (Char × List Char) :=
  match (stripCI "press".toList l).orElse (fun _ => stripCI "dial".toList l) with
  | none => none
  | some r1 =>
    match r1.dropWhile jsWhitespace with
    | d :: r2 => if isDigit09 d && boundaryAfterWord r2 then some (d, r2) else none
    | [] => none

/-- Leftmost search for the bare press pattern.  Returns the digit, the
input before the match and the input after the digit (used to model
`s.replace(/\b(?:press|dial)\s*[0-9]\b.*/iu, '')`, whose `.*` then eats
the rest of the line). -/
def barePressScan : Bool → List Char → List Char → Option (Char × List Char × List Char)
  | _, _, [] => none
  | prevWord, preRev, c :: cs =>
    match (if prevWord then none else barePressAt (c :: cs)) with
    | some (d, rest) => some (d, preRev.reverse, rest)
    | none => barePressScan (jsWordChar c) (c :: preRev) cs

/-- One sentence of `parseOptions`: try the three patterns in the source's
order and produce the raw `(digit, trimmed label)` pair. -/
def parseSentence (s : String) : Option (String × String) :=
  let l := s.toList
  match pressAfterLabel l with
  | some (lab, d) => some (String.mk [d], jsTrim (String.mk lab))
  | none =>
    match pressBeforeScan false l with
    | some (d, lab) => some (String.mk [d], jsTrim (String.mk lab))
    | none =>
      match barePressScan false [] l with
      | some (d, pre, rest) =>
        some (String.mk [d],
          jsTrim (String.mk (pre ++ rest.dropWhile (fun c => !jsLineTerm c))))
      | none => none

/-- `label.replace(/^if\s+/iu, '')`. -/
def stripLeadingIf (l : List Char) : List Char :=
  match l with
  | a :: b :: rest =>
    if a.toLower = 'i' && b.toLower = 'f' then
      match rest with
      | c :: _ => if jsWhitespace c then rest.dropWhile jsWhitespace else l
      | [] => l
    else l
  | _ => l

/-- `label.replace(/[.]+$/u, '')`. -/
def stripTrailingDots (l : List Char) : List Char :=
  (l.reverse.dropWhile (fun c => c = '.')).reverse

/-- `parseOptions` worker: post-process the label, dedupe on
`digit|label.toLowerCase()` and default empty labels to `Option <digit>`. -/
def parseOptionsAux : List String → List String → List (String × String) → List (String × String)
  | [], _, acc => acc.reverse
  | s :: rest, seen, acc =>
    match parseSentence s with
    | none => parseOptionsAux rest seen acc
    | some (d, lab0) =>
      let lab := String.mk (jsTrimList (stripTrailingDots (stripLeadingIf lab0.toList)))
      let key := d ++ "|" ++ jsToLower lab
      if seen.contains key then parseOptionsAux rest seen acc
      else parseOptionsAux rest (key :: seen) ((d, strOr lab ("Option " ++ d)) :: acc)

/-- `parseOptions` from `extract.ts`. -/
def parseOptions (text : String) : List (String × String) :=
  parseOptionsAux (splitSentences text) [] []

/-! ### Transcript messages and press events -/

/-- A transcript message (`TranscriptMessage` in `bland/transcript.ts`):
a role (`"user"` is the called IVR system, `"assistant"` the calling
agent) and the spoken text. -/
structure TranscriptMessage where
  role : String
  message : String
deriving DecidableEq, Repr

/-- Match `Pressed\s*Button:\s*([0-9])` at the head of `l`. -/
def pressEventAt (l : List Char) : Option Char :=
  (stripCI "pressed".toList l).bind fun r1 =>
    (stripCI "button:".toList (r1.dropWhile jsWhitespace)).bind fun r2 =>
      match r2.dropWhile jsWhitespace with
      | d :: _ => if isDigit09 d then some d else none
      | [] => none

/-- Leftmost search for the pressed-button marker. -/
def pressEventScan : List Char → Option Char
  | [] => none
  | c :: cs =>
    match pressEventAt (c :: cs) with
    | some d => some d
    | none => pressEventScan cs

/-- `isPressEvent` from `extract.ts`: an assistant message matching
`/Pressed\s*Button:\s*([0-9])/i`; returns the pressed digit. -/
def isPressEvent (m : TranscriptMessage) : Option String :=
  if m.role = "assistant" then
    (pressEventScan m.message.toList).map (fun d => String.mk [d])
  else none

/-- `findFirstGreeting` from `extract.ts`: the first user message,
trimmed, defaulting to `"Root"`. -/
def findFirstGreeting : List TranscriptMessage → String
  | [] => "Root"
  | m :: rest => if m.role = "user" then jsTrim m.message else findFirstGreeting rest

/-! ### Path-derived node ids and path addressing

A node's id is its digit path joined with `-` (`path.join('-') || 'ROOT'`).
The in-place mutation of the current node through the `current`/`stack`
references of `buildGraphDeterministic` is modelled by re-resolving the
cursor's digit path against the root on each access; `modifyAtIds` rewrites
the node found by following the chain of child ids, exactly as the source
finds cursor nodes via `children.find(c => c.id === id)`. -/

/-- `path.join('-')`. -/
def joinDash (p : List String) : String := String.intercalate "-" p

/-- `path.join('-') || 'ROOT'` (the empty path is the root sentinel). -/
def pathId (p : List String) : String := strOr (joinDash p) "ROOT"

/-- The chain of ids along a digit path: the id of each non-empty prefix. -/
def pathIdsAux (pref : List String) : List String → List String
  | [] => []
  | d :: ds => pathId (pref ++ [d]) :: pathIdsAux (pref ++ [d]) ds

/-- The chain of ids along a digit path from the root. -/
def pathIds (p : List String) : List String := pathIdsAux [] p

/-- Rewrite the node reached by following the given chain of child ids
(first child whose id matches, at each level); if the chain breaks, the
tree is unchanged, mirroring a `find` that returns `undefined`. -/
def modifyAtIds (f : Node → Node) : Node → List String → Node
  | n, [] => f n
  | n, i :: is =>
    n.setChildren (updateFirst (fun c => c.id = i)
      (fun c => modifyAtIds f c is) n.children)

/-- Resolve a chain of child ids to a node, if present. -/
def resolveIds : Node → List String → Option Node
  | n, [] => some n
  | n, i :: is =>
    match n.children.find? (fun c => c.id = i) with
    | some c => resolveIds c is
    | none => none

/-- Rewrite the node addressed by a digit path. -/
def modifyAt (f : Node → Node) (root : Node) (p : List String) : Node :=
  modifyAtIds f root (pathIds p)

/-- Resolve a digit path to a node, if present. -/
def resolveNode (root : Node) (p : List String) : Option Node :=
  resolveIds root (pathIds p)

/-! ### The deterministic graph merger (`extract.ts`) -/

/-- `ensureOption`: add the `(digit, label)` option with a null target if
no option with exactly that digit and label exists. -/
def ensureOption (node : Node) (digit label : String) : Node :=
  if node.options.any (fun o => o.digit = digit && o.label = label) then node
  else node.setOptions (node.options ++ [⟨digit, label, none⟩])

/-- `createMenuNode`: a fresh node with the confidence percentage clamped
(the source computes `max(0, min(1, pct / 100))`; in percentage points
that is `max 0 (min 100 pct)`). -/
def createMenuNode (id : String) (parentId : Option String)
    (content : String) (confidencePct : ℤ) : Node :=
  .mk id parentId content (max 0 (min 100 confidencePct)) [] []

/-- `createEndNode` (same construction as `createMenuNode` in the source). -/
def createEndNode (id : String) (parentId : Option String)
    (content : String) (confidencePct : ℤ) : Node :=
  .mk id parentId content (max 0 (min 100 confidencePct)) [] []

/-- The option-key `${o.digit}|${o.label}` used by `upsertChild`'s
duplicate check. -/
def optKey (o : IvrOption) : String := o.digit ++ "|" ++ o.label

/-- `upsertChild`: merge `child` into the parent's children.  The lookup
map is built from the id-keyed children array, so a duplicate id resolves
to the *last* entry; prompt is replaced only by non-empty text, confidence
takes the maximum, options are unioned against the existing keys. -/
def upsertChild (parent : Node) (child : Node) : Node :=
  if parent.children.any (fun c => c.id = child.id) then
    parent.setChildren (updateLast (fun c => c.id = child.id)
      (fun existing =>
        let seen := existing.options.map optKey
        ((existing.setPrompt (strOr child.promptText existing.promptText)).setConfidence
            (max existing.confidence child.confidence)).setOptions
          (existing.options ++ child.options.filter (fun o => !(seen.contains (optKey o)))))
      parent.children)
  else parent.setChildren (parent.children ++ [child])

/-- `ensureMenuNode` from `buildGraphDeterministic`: get or create the
child at the given absolute digit path (its id is derived from the path);
an existing child's prompt is overwritten only when a truthy prompt is
passed (the builder always passes `undefined`). -/
def ensureMenuNode (parent : Node) (path : List String) (prompt : Option String) : Node :=
  if parent.children.any (fun c => c.id = pathId path) then
    match prompt with
    | some s =>
      if s ≠ "" then
        parent.setChildren (updateFirst (fun c => c.id = pathId path)
          (fun c => c.setPrompt s) parent.children)
      else parent
    | none => parent
  else
    parent.setChildren (parent.children ++
      [createMenuNode (pathId path) (some parent.id) (prompt.getD "") 95])

/-- `linkOptionTarget`: point the first option with the pressed digit at
the submenu id (no-op when no option carries that digit). -/
def linkOptionTarget (parent : Node) (digit targetId : String) : Node :=
  parent.setOptions (updateFirst (fun o => o.digit = digit)
    (fun o => { o with targetNodeId := some targetId }) parent.options)

/-- The merge cursor of `buildGraphDeterministic`: the current tree, the
current digit path and the backtrack stack of previous digit paths. -/
structure BuildState where
  root : Node
  curPath : List String
  stack : List (List String)
deriving DecidableEq, Repr

/-- One loop iteration of `buildGraphDeterministic` on one transcript
message: press events descend (create/find the submenu, link the pressed
option, push the cursor); user messages with parsed options stamp the
current node's prompt and add the options; user messages without options
create an END child (only below the root) and pop the cursor. -/
def stepMsg (s : BuildState) (msg : TranscriptMessage) : BuildState :=
  match isPressEvent msg with
  | some d =>
    let nextPath := s.curPath ++ [d]
    let submenuId := pathId nextPath
    let root1 := modifyAt
      (fun n => linkOptionTarget (ensureMenuNode n nextPath none) d submenuId)
      s.root s.curPath
    ⟨root1, nextPath, s.curPath :: s.stack⟩
  | none =>
    if msg.role = "user" then
      let opts := parseOptions msg.message
      if opts ≠ [] then
        ⟨modifyAt
          (fun n => opts.foldl (fun n p => ensureOption n p.1 p.2)
            (n.setPrompt (jsTrim msg.message)))
          s.root s.curPath, s.curPath, s.stack⟩
      else
        let root1 :=
          if s.curPath ≠ [] then
            modifyAt
              (fun n => upsertChild n
                (createEndNode (joinDash s.curPath) (some n.id) (jsTrim msg.message) 90))
              s.root s.curPath
          else s.root
        match s.stack with
        | p :: rest => ⟨root1, p, rest⟩
        | [] => ⟨root1, [], []⟩
    else s

/-- `buildGraphDeterministic` from `extract.ts`: fold the transcript over
the merge cursor, starting from the given tree or from a fresh root seeded
with the first greeting. -/
def buildGraphDeterministic (transcript : List TranscriptMessage)
    (currentRoot : Option Node) : Node :=
  let root := match currentRoot with
    | some r => r
    | none => .mk "ROOT" none (findFirstGreeting transcript) 95 [] []
  (transcript.foldl stepMsg ⟨root, [], []⟩).root

/-! ### The traversal planner (`discover.ts`)

The three planner helpers (`isTraversalComplete`, `nextUnvisitedPath`,
`collectVisitedAndPendingPaths`) are `while`-loops over an explicit LIFO
stack.  Such a loop is a pre-order depth-first traversal: popping a node,
acting on it and pushing some of its children is equivalent to acting on
the node and recursing into those children in pop order.  They are embedded
as the corresponding structural recursions, with the pop order preserved
(`isTraversalComplete` and `collectVisitedAndPendingPaths` push children in
array order and therefore visit them in reverse; `nextUnvisitedPath` pushes
in reverse so as to visit lower digits first). -/

/-- `Number.parseInt(s, 10)`: leading whitespace, an optional sign and the
longest digit prefix; `none` models `NaN`. -/
def jsParseInt (s : String) : Option Int :=
  let l := s.toList.dropWhile jsWhitespace
  let signAndRest : Int × List Char :=
    match l with
    | '-' :: t => (-1, t)
    | '+' :: t => (1, t)
    | _ => (1, l)
  let ds := signAndRest.2.takeWhile isDigit09
  if ds.isEmpty then none
  else some (signAndRest.1 * ds.foldl (fun acc c => acc * 10 + (c.toNat - '0'.toNat : Int)) 0)

/-- `String.prototype.localeCompare` restricted to the single-character
digit strings this code sorts: code-point comparison (the default-locale
collation agrees with code-point order on such strings). -/
def localeCmp (a b : String) : Int := if a = b then 0 else if a < b then -1 else 1

/-- The sort comparator of `nextUnvisitedPath`: numeric digits ascending,
`NaN` digits after numeric ones, `NaN` ties by `localeCompare`. -/
def optionCmp (a b : IvrOption) : Int :=
  match jsParseInt a.digit, jsParseInt b.digit with
  | none, none => localeCmp a.digit b.digit
  | none, some _ => 1
  | some _, none => -1
  | some x, some y => x - y

/-- Stable insertion, keeping `x` before elements it ties with. -/
def stableInsert (le : α → α → Bool) (x : α) : List α → List α
  | [] => [x]
  | y :: ys => if le x y then x :: y :: ys else y :: stableInsert le x ys

/-- A stable sort.  `Array.prototype.sort` is specified to be stable, and a
stable sort of a list under a total preorder is unique, so this computes
what the source's sort does for the comparator above. -/
def stableSort (le : α → α → Bool) (l : List α) : List α :=
  l.foldr (stableInsert le) []

/-- `[...node.options].sort(...)` in `nextUnvisitedPath`. -/
def sortOptionsByDigit (os : List IvrOption) : List IvrOption :=
  stableSort (fun a b => optionCmp a b ≤ 0) os

mutual
/-- `isTraversalComplete` at one node: the source returns `false` when the
node has options and one of them has a falsy `targetNodeId`, and otherwise
keeps walking every child. -/
def completeNode : Node → Bool
  | .mk _ _ _ _ os cs =>
    (!(os.length > 0 && os.any (fun o => !(strTruthy o.targetNodeId)))) && completeForest cs

/-- `isTraversalComplete` over a list of children. -/
def completeForest : List Node → Bool
  | [] => true
  | c :: cs => completeNode c && completeForest cs
end

/-- `DiscoverService.isTraversalComplete`. -/
def isTraversalComplete (root : Node) : Bool := completeNode root

mutual
/-- `nextUnvisitedPath`'s depth-first search from one node: sort the
options, return the extended path of the first pending (falsy-target)
option, otherwise try the linked children in sorted option order (the
source pushes them in reverse so that lower digits are popped first). -/
def nextUnvisitedFrom (node : Node) (path : List String) : Option (List String) :=
  match (sortOptionsByDigit node.options).find? (fun o => !(strTruthy o.targetNodeId)) with
  | some o => some (path ++ [o.digit])
  | none => nextOptLoop node path (sortOptionsByDigit node.options)
termination_by (sizeOf node, 1, 0)

/-- Walk the sorted options of `node`, descending into the first child
whose id carries each linked option's target. -/
def nextOptLoop (node : Node) (path : List String) : List IvrOption → Option (List String)
  | [] => none
  | o :: os =>
    if strTruthy o.targetNodeId then
      match h : node.children.find? (fun c => some c.id = o.targetNodeId) with
      | some c =>
        match nextUnvisitedFrom c (path ++ [o.digit]) with
        | some r => some r
        | none => nextOptLoop node path os
      | none => nextOptLoop node path os
    else nextOptLoop node path os
termination_by os => (sizeOf node, 0, os.length)
decreasing_by
  all_goals
    first
    | decreasing_tactic
    | (have hmem : c ∈ node.children := List.mem_of_find?_eq_some h
       have hlt : sizeOf c < sizeOf node.children := List.sizeOf_lt_of_mem hmem
       have hsz : sizeOf node.children < sizeOf node := by
         cases node with
         | mk i p t conf os cs => simp [Node.children] <;> omega
       have hcn : sizeOf c < sizeOf node := by omega
       decreasing_tactic)
end

/-- `DiscoverService.nextUnvisitedPath`: empty when there is no tree or
no pending option anywhere. -/
def nextUnvisitedPath (root : Option Node) : List String :=
  match root with
  | none => []
  | some r => (nextUnvisitedFrom r []).getD []

/-- One pass of `collectVisitedAndPendingPaths`'s option loop at a node:
the visited paths, pending paths and stack pushes it produces, in option
order.  A truthy target contributes a visited path and, when the first
child carrying the target id exists, a push; a falsy target contributes a
pending path. -/
def collectOwn (node : Node) (path : List String) :
    List IvrOption → List (List String) × List (List String)
  | [] => ([], [])
  | o :: os =>
    let rest := collectOwn node path os
    if strTruthy o.targetNodeId then ((path ++ [o.digit]) :: rest.1, rest.2)
    else (rest.1, (path ++ [o.digit]) :: rest.2)

mutual
/-- `collectVisitedAndPendingPaths`'s depth-first walk from one node: emit
this node's option paths, then walk the pushed children; the source pushes
them in option order onto a LIFO stack, so they are visited in reverse. -/
def collectFrom (node : Node) (path : List String) :
    List (List String) × List (List String) :=
  let own := collectOwn node path node.options
  let kids := collectKids node path node.options.reverse
  (own.1 ++ kids.1, own.2 ++ kids.2)
termination_by (sizeOf node, 1, 0)

/-- Walk the children pushed for the given options (already reversed into
pop order), concatenating the visited/pending paths of their subtrees. -/
def collectKids (node : Node) (path : List String) :
    List IvrOption → List (List String) × List (List String)
  | [] => ([], [])
  | o :: os =>
    if strTruthy o.targetNodeId then
      match h : node.children.find? (fun c => some c.id = o.targetNodeId) with
      | some c =>
        let sub := collectFrom c (path ++ [o.digit])
        let rest := collectKids node path os
        (sub.1 ++ rest.1, sub.2 ++ rest.2)
      | none => collectKids node path os
    else collectKids node path os
termination_by os => (sizeOf node, 0, os.length)
decreasing_by
  all_goals
    first
    | decreasing_tactic
    | (have hmem : c ∈ node.children := List.mem_of_find?_eq_some h
       have hlt : sizeOf c < sizeOf node.children := List.sizeOf_lt_of_mem hmem
       have hsz : sizeOf node.children < sizeOf node := by
         cases node with
         | mk i p t conf os cs => simp [Node.children] <;> omega
       have hcn : sizeOf c < sizeOf node := by omega
       decreasing_tactic)
end

/-- `DiscoverService.collectVisitedAndPendingPaths`. -/
def collectVisitedAndPendingPaths (root : Option Node) :
    List (List String) × List (List String) :=
  match root with
  | none => ([], [])
  | some r => collectFrom r []

/-! ### Polling with backoff (`bland/call.ts`, `pollCallUntilDone`)

The loop sleeps between polls; time is modelled as the elapsed
milliseconds `now` (queries are instantaneous, each sleep advances the
clock by the slept wait).  The `query` argument abstracts
`getCallDetails`: the `k`-th call either fails transiently (`'error' in
details`) or yields a nullable status string. -/

/-- One queried outcome of `getCallDetails`. -/
inductive PollOutcome where
  | failure
  | status (s : Option String)
deriving DecidableEq, Repr

/-- The result of `pollCallUntilDone`: terminal call details or the
`{ error: 'Polling timed out', timeout: true }` record. -/
inductive PollResult where
  | terminal (s : Option String)
  | timedOut
deriving DecidableEq, Repr

/-- `String(details.status || '').toLowerCase()` is terminal. -/
def isTerminalStatus (s : Option String) : Bool :=
  let st := jsToLower (strOr (s.getD "") "")
  st = "completed" || st = "failed" || st = "canceled"

/-- The poll loop body.  `now` is the elapsed time, `wait` the current
backoff state (invariant: at least 1000, established by the entry point
and preserved by both updates).  Returns the result together with the
trace of `(wasTransientFailure, waitSlept)` pairs, one per non-terminal
poll. -/
def pollGo (query : Nat → PollOutcome) (intervalMs timeoutMs : Nat) :
    (k now wait : Nat) → 1000 ≤ wait → PollResult × List (Bool × Nat)
  | k, now, wait, hw =>
    if h : now < timeoutMs then
      match query k with
      | .failure =>
        let w := min (wait * 2) 20000
        have hw' : 1000 ≤ w := by omega
        let r := pollGo query intervalMs timeoutMs (k + 1) (now + w) w hw'
        (r.1, (true, w) :: r.2)
      | .status s =>
        if isTerminalStatus s then (.terminal s, [])
        else
          let w := max 1000 intervalMs
          have hw' : 1000 ≤ w := le_max_left _ _
          let r := pollGo query intervalMs timeoutMs (k + 1) (now + w) w hw'
          (r.1, (false, w) :: r.2)
    else (.timedOut, [])
termination_by _ now _ _ => timeoutMs - now
decreasing_by all_goals omega

/-- `pollCallUntilDone` with its defaults resolved by the caller:
starts at `wait = Math.max(1000, intervalMs)` and gives up once the
elapsed time reaches `timeoutMs`. -/
def pollCallUntilDone (query : Nat → PollOutcome) (intervalMs timeoutMs : Nat) :
    PollResult × List (Bool × Nat) :=
  pollGo query intervalMs timeoutMs 0 0 (max 1000 intervalMs) (le_max_left _ _)

/-! ### Phone identity normalization (`normalizePhoneToE164`, `makeCall`) -/

/-- The digit characters of `s` concatenated:
`(s.match(/\d+/g) || []).join('')`. -/
def digitsOnly (s : String) : String :=
  String.mk (s.toList.filter isDigit09)

/-- `normalizePhoneToE164`: keep any `+`-prefixed input verbatim, accept
11 digits starting with `1` or bare 10-digit numbers, reject the rest. -/
def normalizePhoneToE164 (input : String) : Option String :=
  let trimmed := jsTrim input
  if jsStartsWith trimmed "+" then some trimmed
  else
    let ds := digitsOnly trimmed
    if ds.length = 11 && jsStartsWith ds "1" then some ("+" ++ ds)
    else if ds.length = 10 then some ("+1" ++ ds)
    else none

/-- The outcome of `makeCall` up to (but not including) the network call:
either the invalid-identity error response returned before any request is
sent, or the normalized number the request would be placed with. -/
inductive CallGate where
  | rejected (errorMessage : String)
  | placed (phoneNumber : String)
deriving DecidableEq, Repr

/-- The pre-network part of `makeCall`: normalization happens first and a
failure returns the error response without side effects. -/
def makeCallGate (phoneNumber : String) : CallGate :=
  match normalizePhoneToE164 phoneNumber with
  | none => .rejected
      "Invalid phone number. Use E.164 format like +1XXXXXXXXXX (US 10-digit numbers are accepted)."
  | some normalized => .placed normalized

/-- The spec's canonical identity format, stated from its words: an
international `+`-prefixed number, i.e. `+` followed only by digits as in
`+1XXXXXXXXXX` (used to compare the spec's acceptance condition with the
code's). -/
def specCanonicalForm (s : String) : Bool :=
  jsStartsWith s "+" && (s.toList.drop 1).all isDigit09 && s.length > 1

/-! ### The session cost ledger (`persist.ts`, `appendCall`) -/

/-- A JavaScript `number | null | undefined` field: a finite number
(exact), a non-finite number (`NaN`, `±Infinity`), or absent
(`null`/`undefined`, failing the `typeof === 'number'` test). -/
inductive JsNum where
  | num (q : ℚ)
  | nonfinite
  | missing
deriving DecidableEq, Repr

/-- `typeof x === 'number' && Number.isFinite(x) ? x : 0`. -/
def finOr0 : JsNum → ℚ
  | .num q => q
  | _ => 0

/-- The cost-relevant projection of a `PersistedSession`: its `totalCost`
field and the `price` fields of its `calls` array. -/
structure SessionLedger where
  totalCost : JsNum
  prices : List JsNum
deriving DecidableEq, Repr

/-- The `prevTotal` of `appendCall`: the stored `totalCost` when finite,
else recomputed as the sum of the stored finite prices. -/
def prevTotal (s : SessionLedger) : ℚ :=
  match s.totalCost with
  | .num q => q
  | _ => (s.prices.map finOr0).sum

/-- `appendCall` from `persist.ts`, projected to the cost ledger: the
effective price is the record's price when finite else `0`; the new total
is `prevTotal + price` (exact rational addition always yields a finite
number, so the source's final `Number.isFinite(newTotal)` guard always
takes the first branch here). -/
def appendCall (s : SessionLedger) (price : JsNum) : SessionLedger :=
  { totalCost := .num (prevTotal s + finOr0 price), prices := s.prices ++ [price] }

/-! ### One iteration of `DiscoverService.run` (error propagation)

The claim-relevant control flow of the loop body in `discover.ts`: call
placement, polling and transcript fetch each return an `{ error }` result
that aborts the run; the deterministic merge always succeeds; the optional
LLM extraction inside `extractAndMergeGraph` is wrapped in `try { ... }
catch { /* ignore */ }`; the later `await summarizeAndPlanNext(...)` is
*not* wrapped, so a rejection there escapes `run` as a thrown error. -/

/-- A `makeCall` response (`MakeCallResponseSchema`). -/
structure MakeCallResponse where
  status : String
  callId : Option String
  errorMessage : Option String
deriving DecidableEq, Repr

/-- The observable outcome of one loop iteration of `DiscoverService.run`:
a structured `{ error }` return, an uncaught exception propagating out of
`run`, or the merged tree carried into the next iteration. -/
inductive IterOutcome where
  | errorResult (e : String)
  | thrown (e : String)
  | ok (root : Node)
deriving DecidableEq, Repr

/-- One iteration of the `run` loop, with the fallible collaborators as
explicit outcomes: `poll`/`transcript` model `pollCallUntilDone` and
`getCallTranscript` (their `{ error }` returns), `llmExtract` models
`extractNodesWithLLM` (caught: its failure is ignored and the
deterministic tree is kept) and `plan` models `summarizeAndPlanNext`
(not caught: its failure is thrown out of the iteration). -/
def runIteration (mk : MakeCallResponse) (poll : Except String Unit)
    (transcript : Except String (List TranscriptMessage))
    (llmExtract : Except String Unit) (plan : Except String Unit)
    (root : Option Node) : IterOutcome :=
  if mk.status ≠ "success" || mk.callId = none then
    .errorResult (strOr ((mk.errorMessage).getD "") "Call initiation failed")
  else
    match poll with
    | .error e => .errorResult e
    | .ok _ =>
      match transcript with
      | .error e => .errorResult e
      | .ok msgs =>
        let newRoot := buildGraphDeterministic msgs root
        match llmExtract with
        | .error _ => -- caught by extractAndMergeGraph and ignored
          match plan with
          | .error e => .thrown e
          | .ok _ => .ok newRoot
        | .ok _ =>
          match plan with
          | .error e => .thrown e
          | .ok _ => .ok newRoot

/-! ### Derived notions used by the verification -/

mutual
/-- The data-model invariant at a node: every option whose `targetNodeId`
is non-null points at the id of some entry of `children`. -/
def invariantNode : Node → Bool
  | .mk _ _ _ _ os cs =>
    os.all (fun o =>
      match o.targetNodeId with
      | none => true
      | some t => cs.any (fun c => c.id = t)) && invariantForest cs

/-- The invariant over a children list. -/
def invariantForest : List Node → Bool
  | [] => true
  | c :: cs => invariantNode c && invariantForest cs
end

mutual
/-- Every option anywhere in the tree has a truthy (non-null, non-empty)
target — what `isTraversalComplete`'s walk actually checks. -/
def allLinkedNode : Node → Bool
  | .mk _ _ _ _ os cs => os.all (fun o => strTruthy o.targetNodeId) && allLinkedForest cs

/-- `allLinkedNode` over a children list. -/
def allLinkedForest : List Node → Bool
  | [] => true
  | c :: cs => allLinkedNode c && allLinkedForest cs
end

mutual
/-- Every option anywhere in the tree has a non-null target (the
completeness condition exactly as the claim states it). -/
def allNonNullNode : Node → Bool
  | .mk _ _ _ _ os cs => os.all (fun o => o.targetNodeId ≠ none) && allNonNullForest cs

/-- `allNonNullNode` over a children list. -/
def allNonNullForest : List Node → Bool
  | [] => true
  | c :: cs => allNonNullNode c && allNonNullForest cs
end

/-- Pairwise-distinct keys. -/
def nodupKeys : List String → Bool
  | [] => true
  | x :: xs => !(xs.contains x) && nodupKeys xs

mutual
/-- No node of the tree carries two options with the same digit. -/
def distinctDigitsNode : Node → Bool
  | .mk _ _ _ _ os cs => nodupKeys (os.map (fun o => o.digit)) && distinctDigitsForest cs

/-- `distinctDigitsNode` over a children list. -/
def distinctDigitsForest : List Node → Bool
  | [] => true
  | c :: cs => distinctDigitsNode c && distinctDigitsForest cs
end

/-- The pairs `(node, digit path)` a planner walk can reach from the root
by following truthy option targets into the first child carrying the
target id — the pairs visited by both `nextUnvisitedPath` and
`collectVisitedAndPendingPaths`. -/
inductive ReachesPair (root : Node) : Node → List String → Prop where
  | root : ReachesPair root root []
  | step {n : Node} {p : List String} {o : IvrOption} {c : Node} :
      ReachesPair root n p → o ∈ n.options → strTruthy o.targetNodeId →
      n.children.find? (fun c' => some c'.id = o.targetNodeId) = some c →
      ReachesPair root c (p ++ [o.digit])

/-- The merge-cursor state after the first `k` messages. -/
def buildStateAfter (T : Node) (U : List TranscriptMessage) (k : Nat) : BuildState :=
  (U.take k).foldl stepMsg ⟨T, [], []⟩

/-- The shape invariant of the merge cursor: the backtrack stack holds
exactly the proper prefixes of the current path, deepest first. -/
inductive StackShape : List String → List (List String) → Prop where
  | nil : StackShape [] []
  | push {cur : List String} {st : List (List String)} (d : String) :
      StackShape cur st → StackShape (cur ++ [d]) (cur :: st)

/-- The cursor/stack part of one `buildGraphDeterministic` iteration; it
never reads the tree. -/
def cursorStep (cs : List String × List (List String)) (msg : TranscriptMessage) :
    List String × List (List String) :=
  match isPressEvent msg with
  | some d => (cs.1 ++ [d], cs.1 :: cs.2)
  | none =>
    if msg.role = "user" then
      if parseOptions msg.message ≠ [] then cs
      else
        match cs.2 with
        | p :: rest => (p, rest)
        | [] => ([], [])
    else cs

/-- The tree part of one `buildGraphDeterministic` iteration at cursor
path `cur`. -/
def treeStep (cur : List String) (msg : TranscriptMessage) (root : Node) : Node :=
  match isPressEvent msg with
  | some d =>
    modifyAt
      (fun n => linkOptionTarget (ensureMenuNode n (cur ++ [d]) none) d (pathId (cur ++ [d])))
      root cur
  | none =>
    if msg.role = "user" then
      if parseOptions msg.message ≠ [] then
        modifyAt
          (fun n => (parseOptions msg.message).foldl (fun n p => ensureOption n p.1 p.2)
            (n.setPrompt (jsTrim msg.message)))
          root cur
      else if cur ≠ [] then
        modifyAt
          (fun n => upsertChild n
            (createEndNode (joinDash cur) (some n.id) (jsTrim msg.message) 90))
          root cur
      else root
    else root

/-- Link stability of a merge run: every press event finds, at press time,
an option with the pressed digit on the node the cursor stands on (so the
link write happens during the first run rather than only on a re-run). -/
def linkStableAux : BuildState → List TranscriptMessage → Bool
  | _, [] => true
  | s, m :: rest =>
    (match isPressEvent m with
     | some d =>
       match resolveNode s.root s.curPath with
       | some n => n.options.any (fun o => o.digit = d)
       | none => false
     | none => true) && linkStableAux (stepMsg s m) rest

/-- Link stability of `buildGraphDeterministic transcript (some T)`. -/
def linkStable (T : Node) (U : List TranscriptMessage) : Bool :=
  linkStableAux ⟨T, [], []⟩ U

/-- An address in the tree: the node at a digit path, or the END child a
terminal at that cursor path writes to (the last child carrying the
path's own joined id, as `upsertChild`'s map lookup resolves it). -/
inductive Addr where
  | node (p : List String)
  | endc (p : List String)
deriving DecidableEq, Repr

/-- Resolve the END child written by a terminal at cursor path `p`. -/
def resolveEnd (root : Node) (p : List String) : Option Node :=
  (resolveNode root p).bind (fun n => findLast (fun c => c.id = joinDash p) n.children)

/-- Resolve an address. -/
def resolveAddr (root : Node) : Addr → Option Node
  | .node p => resolveNode root p
  | .endc p => resolveEnd root p

/-- The prompt text at an address, when it resolves. -/
def promptAt (root : Node) (a : Addr) : Option String :=
  (resolveAddr root a).map Node.promptText

/-- Overwrite the prompt text at an address (identity when the address
does not resolve). -/
def setPromptAt (a : Addr) (t : String) (root : Node) : Node :=
  match a with
  | .node p => modifyAt (fun n => n.setPrompt t) root p
  | .endc p =>
    modifyAt
      (fun n => n.setChildren
        (updateLast (fun c => c.id = joinDash p) (fun c => c.setPrompt t) n.children))
      root p

/-- Whether one message, processed at cursor path `cur`, overwrites the
prompt at address `a` (menu prompts rewrite the cursor node; non-empty
terminals rewrite the END child below a non-root cursor).  This is a
function of the message and cursor only — never of the tree. -/
def writesPromptStep (cur : List String) (msg : TranscriptMessage) (a : Addr) : Bool :=
  match isPressEvent msg with
  | some _ => false
  | none =>
    if msg.role = "user" then
      if parseOptions msg.message ≠ [] then decide (a = Addr.node cur)
      else decide (a = Addr.endc cur) && !(decide (cur = [])) &&
        !(decide (jsTrim msg.message = ""))
    else false

/-- Whether any message of the run overwrites the prompt at `a`. -/
def writesPrompt : List String × List (List String) → List TranscriptMessage → Addr → Bool
  | _, [], _ => false
  | cs, m :: rest, a => writesPromptStep cs.1 m a || writesPrompt (cursorStep cs m) rest a

/-- How one option can evolve over a run, at a node addressed by digit
path `p`: digit and label are immutable, and the target can only be
overwritten with the derived id of the digit's submenu (what
`linkOptionTarget` writes there). -/
def optEvolveElem (p : List String) (o o' : IvrOption) : Prop :=
  o'.digit = o.digit ∧ o'.label = o.label ∧
  (o'.targetNodeId = o.targetNodeId ∨ o'.targetNodeId = some (pathId (p ++ [o.digit])))

/-- How an option list can evolve over a run: the old options evolve
pointwise in place, and new options may be appended after them. -/
inductive OptListEv (p : List String) : List IvrOption → List IvrOption → Prop where
  | nil (ext : List IvrOption) : OptListEv p [] ext
  | cons {o o' : IvrOption} {old new : List IvrOption} :
      optEvolveElem p o o' → OptListEv p old new → OptListEv p (o :: old) (o' :: new)

/-- Monotone evolution of a tree along a merge run: every resolvable
address stays resolvable with the same id, node addresses evolve their
options per `OptListEv` and keep every child id, and confidences never
decrease. -/
def Evolve (T T' : Node) : Prop :=
  (∀ p n, resolveNode T p = some n →
    ∃ n', resolveNode T' p = some n' ∧ n'.id = n.id ∧
      OptListEv p n.options n'.options ∧ n.confidence ≤ n'.confidence ∧
      (∀ x, n.children.any (fun c => c.id = x) = true →
        n'.children.any (fun c => c.id = x) = true)) ∧
  (∀ p e, resolveEnd T p = some e →
    ∃ e', resolveEnd T' p = some e' ∧ e'.id = e.id ∧ e.confidence ≤ e'.confidence ∧
      e'.parentId = e.parentId ∧ e'.options = e.options ∧ e'.children = e.children)

/-- Resolvability of the cursor and of every stacked path. -/
def pathsOK (T : Node) (cur : List String) (st : List (List String)) : Prop :=
  (resolveNode T cur).isSome ∧ ∀ p ∈ st, (resolveNode T p).isSome

/-! ### Concrete fixtures used in counterexamples and witnesses -/

/-- The planner-claim tree: pending paths `["1"]` and `["2","1"]`, visited
path `["2"]`. -/
def plannerExTree : Node :=
  .mk "ROOT" none "Main menu" 95
    [⟨"1", "sales", none⟩, ⟨"2", "support", some "2"⟩]
    [.mk "2" (some "ROOT") "Support menu" 95 [⟨"1", "agent", none⟩] []]

/-- Two options with the same digit `1` but different labels: the first is
resolved, the second pending (the state the merger produces when a menu
announces the digit twice and it is pressed once, since only the first
option with a digit is ever linked). -/
def dupDigitTree : Node :=
  .mk "ROOT" none "Main menu" 95
    [⟨"1", "sales", some "1"⟩, ⟨"1", "billing", none⟩]
    [.mk "1" (some "ROOT") "Sales menu" 95 [] []]

/-- A tree whose only option has the non-null but empty-string target. -/
def emptyTargetTree : Node :=
  .mk "ROOT" none "Main menu" 95 [⟨"1", "sales", some ""⟩] []

/-- A fully linked two-level tree. -/
def linkedTree : Node :=
  .mk "ROOT" none "Main menu" 95 [⟨"1", "sales", some "1"⟩]
    [.mk "1" (some "ROOT") "Sales menu" 95 [] []]

/-- A tree pending only at depth two. -/
def deepPendingTree : Node :=
  .mk "ROOT" none "Main menu" 95 [⟨"1", "sales", some "1"⟩]
    [.mk "1" (some "ROOT") "Sales menu" 95 [⟨"2", "quotes", none⟩] []]

/-- A bare starting root. -/
def plainRoot : Node := .mk "ROOT" none "Hello" 95 [] []

/-- The idempotence counterexample transcript: the agent presses `1`
before any menu prompt announced an option `1`, hears a terminal, and only
then does the root menu announce option `1`. -/
def pressBeforeMenuU : List TranscriptMessage :=
  [⟨"assistant", "Pressed Button: 1"⟩,
   ⟨"user", "Goodbye"⟩,
   ⟨"user", "For sales, press 1."⟩]

/-- A link-stable transcript: the root menu announces its options before
the agent presses, the pressed branch announces a submenu, and a terminal
closes it. -/
def linkStableU : List TranscriptMessage :=
  [⟨"user", "For sales, press 1. For support, press 2."⟩,
   ⟨"assistant", "Pressed Button: 1"⟩,
   ⟨"user", "Sales team. For quotes, press 1."⟩,
   ⟨"assistant", "Pressed Button: 1"⟩,
   ⟨"user", "Our quotes are online. Goodbye."⟩]

/-- A query stream: three transient failures, one non-terminal success,
then a terminal status. -/
def pollQueryEx : Nat → PollOutcome := fun k =>
  if k < 3 then .failure
  else if k = 3 then .status (some "queued")
  else .status (some "completed")

/-- A query stream that never reaches a terminal status. -/
def pollQueryStuck : Nat → PollOutcome := fun k =>
  if k % 2 = 0 then .failure else .status (some "in-progress")

/-- The backoff discipline of a poll trace, given the incoming wait state:
a transient failure doubles the previous wait up to the 20000 ms ceiling,
a successful non-terminal poll resets it to the base wait. -/
def traceGood (base : Nat) : Nat → List (Bool × Nat) → Prop
  | _, [] => True
  | wait, e :: rest =>
    (if e.1 then e.2 = min (wait * 2) 20000 else e.2 = base) ∧ traceGood base e.2 rest

/-! ### Idempotence of the merger: supporting notions -/

/-- Every later message of the run that overwrites the prompt at `a`
writes the same trimmed text `v`. -/
def writesAgree : List String × List (List String) → List TranscriptMessage → Addr → String → Bool
  | _, [], _, _ => true
  | cs, m :: rest, a, v =>
    (!(writesPromptStep cs.1 m a) || (jsTrim m.message = v)) &&
    writesAgree (cursorStep cs m) rest a v

/-- What a press at path `p` with digit `d` leaves behind, stated of the
final tree: the node at `p` owns a child carrying the derived submenu id,
and its first option with digit `d` is linked to exactly that id.  A
re-run's press step is the identity on such a tree. -/
def PressFact (W : Node) (p : List String) (d : String) : Prop :=
  ∃ m o, resolveNode W p = some m ∧
    m.children.any (fun c => c.id = pathId (p ++ [d])) = true ∧
    m.options.find? (fun o2 => o2.digit = d) = some o ∧
    o.targetNodeId = some (pathId (p ++ [d]))

/-- What a menu message leaves behind: the node at `p` stores the trimmed
prompt `v` and owns every parsed `(digit, label)` option. -/
def OptsFact (W : Node) (p : List String) (v : String) (ps : List (String × String)) : Prop :=
  ∃ m, resolveNode W p = some m ∧ m.promptText = v ∧
    ∀ dl ∈ ps, m.options.any (fun o => o.digit = dl.1 && o.label = dl.2) = true

/-- What a terminal message leaves behind: the node at `p` owns an END
child (the last child carrying the path's own joined id, as the upsert's
map lookup resolves it) whose confidence is at least 90 and whose prompt
is the trimmed terminal text when that text is non-empty. -/
def EndFact (W : Node) (p : List String) (v : String) : Prop :=
  ∃ m c, resolveNode W p = some m ∧
    findLast (fun c2 => c2.id = joinDash p) m.children = some c ∧
    90 ≤ c.confidence ∧ (v = "" ∨ c.promptText = v)

/-- How a node at digit path `p` away from a mutation's target path is
affected by the mutation: id, options, confidence and prompt are intact,
child-id membership is monotone, and the END-child lookup is intact. -/
def PassThru (p : List String) (n n2 : Node) : Prop :=
  n2.id = n.id ∧ n2.options = n.options ∧ n2.confidence = n.confidence ∧
  n2.promptText = n.promptText ∧
  (∀ y, n.children.any (fun c => c.id = y) = true →
    n2.children.any (fun c => c.id = y) = true) ∧
  (∀ c, findLast (fun c2 => c2.id = joinDash p) n.children = some c →
    findLast (fun c2 => c2.id = joinDash p) n2.children = some c)

/-- The structural half of `OptsFact`: the node at `p` owns every parsed
`(digit, label)` option (its prompt is unconstrained — later menu
messages at the same path may overwrite it with different text). -/
def OptsSkel (W : Node) (p : List String) (ps : List (String × String)) : Prop :=
  ∃ m, resolveNode W p = some m ∧
    ∀ dl ∈ ps, m.options.any (fun o => o.digit = dl.1 && o.label = dl.2) = true

/-- The structural half of `EndFact`: the node at `p` owns an END child
of confidence at least 90 (its prompt is unconstrained). -/
def EndSkel (W : Node) (p : List String) : Prop :=
  ∃ m c, resolveNode W p = some m ∧
    findLast (fun c2 => c2.id = joinDash p) m.children = some c ∧
    90 ≤ c.confidence

/-- The digit path an address lives at. -/
def Addr.path : Addr → List String
  | .node p => p
  | .endc p => p

/-- Resolvability of an address, strengthened at END addresses with the
confidence floor every merged END child satisfies. -/
def AddrOK (W : Node) : Addr → Prop
  | .node p => ∃ m, resolveNode W p = some m
  | .endc p => EndSkel W p

/-- All path segments are non-empty (true of every cursor path, whose
segments are pressed digits). -/
def segsNE (p : List String) : Prop := ∀ s ∈ p, s ≠ ""

/-- The run-state soundness carried through a link-stable run: cursor and
stack resolve, and their segments are non-empty digits. -/
def cursorOK (T : Node) (cur : List String) (st : List (List String)) : Prop :=
  pathsOK T cur st ∧ segsNE cur ∧ ∀ p ∈ st, segsNE p

/-- Non-empty segments of the cursor and of every stacked path. -/
def segsOK (cur : List String) (st : List (List String)) : Prop :=
  segsNE cur ∧ ∀ p ∈ st, segsNE p

/-! ## Theorems -/

/-! ### Generic helper lemmas -/

@[simp] theorem node_id_mk (i : String) (p : Option String) (t : String) (c : ℤ)
    (os : List IvrOption) (cs : List Node) : (Node.mk i p t c os cs).id = i := rfl

@[simp] theorem node_parentId_mk (i : String) (p : Option String) (t : String) (c : ℤ)
    (os : List IvrOption) (cs : List Node) : (Node.mk i p t c os cs).parentId = p := rfl

@[simp] theorem node_promptText_mk (i : String) (p : Option String) (t : String) (c : ℤ)
    (os : List IvrOption) (cs : List Node) : (Node.mk i p t c os cs).promptText = t := rfl

@[simp] theorem node_confidence_mk (i : String) (p : Option String) (t : String) (c : ℤ)
    (os : List IvrOption) (cs : List Node) : (Node.mk i p t c os cs).confidence = c := rfl

@[simp] theorem node_options_mk (i : String) (p : Option String) (t : String) (c : ℤ)
    (os : List IvrOption) (cs : List Node) : (Node.mk i p t c os cs).options = os := rfl

@[simp] theorem node_children_mk (i : String) (p : Option String) (t : String) (c : ℤ)
    (os : List IvrOption) (cs : List Node) : (Node.mk i p t c os cs).children = cs := rfl

@[simp] theorem node_setPrompt_mk (i : String) (p : Option String) (t s : String) (c : ℤ)
    (os : List IvrOption) (cs : List Node) :
    (Node.mk i p t c os cs).setPrompt s = .mk i p s c os cs := rfl

@[simp] theorem node_setConfidence_mk (i : String) (p : Option String) (t : String)
    (c c' : ℤ) (os : List IvrOption) (cs : List Node) :
    (Node.mk i p t c os cs).setConfidence c' = .mk i p t c' os cs := rfl

@[simp] theorem node_setOptions_mk (i : String) (p : Option String) (t : String) (c : ℤ)
    (os os' : List IvrOption) (cs : List Node) :
    (Node.mk i p t c os cs).setOptions os' = .mk i p t c os' cs := rfl

@[simp] theorem node_setChildren_mk (i : String) (p : Option String) (t : String) (c : ℤ)
    (os : List IvrOption) (cs cs' : List Node) :
    (Node.mk i p t c os cs).setChildren cs' = .mk i p t c os cs' := rfl

theorem updateFirst_of_none {p : α → Bool} {f : α → α} :
    ∀ {l : List α}, l.find? p = none → updateFirst p f l = l := by
  intro l h
  rw [List.find?_eq_none] at h
  induction l with
  | nil => rfl
  | cons x xs ih =>
    have hx : p x = false := Bool.eq_false_iff.mpr (h x (List.mem_cons_self x xs))
    simp [updateFirst, hx]
    exact ih (fun y hy => h y (List.mem_cons_of_mem x hy))

theorem updateFirst_self {p : α → Bool} {f : α → α} :
    ∀ {l : List α} {a : α}, l.find? p = some a → f a = a → updateFirst p f l = l := by
  intro l a h hf
  induction l with
  | nil => simp [List.find?] at h
  | cons x xs ih =>
    rw [List.find?_cons] at h
    cases hx : p x with
    | true =>
      simp [hx] at h
      simp [updateFirst, hx]
      rw [h, hf]
    | false =>
      simp [hx] at h
      simp [updateFirst, hx, ih h]

theorem not_any_eq_all {p : α → Bool} :
    ∀ (l : List α), (!(l.any fun a => !p a)) = l.all p := by
  intro l
  induction l with
  | nil => rfl
  | cons x xs ih => simp [List.any_cons, List.all_cons, Bool.not_or, ih]

/-! ### C5 — option parsing of the two-sentence menu prompt -/

/-- C5 counterexample: the parser does not return the labels the claim
states; the "label … press D" pattern captures the whole leading clause,
including the word `For`, so the labels are `For sales` and `For support`,
not `sales` and `support`. -/
theorem c5_parse_counterexample :
    parseOptions "For sales, press 1. For support, press 2." ≠
      [("1", "sales"), ("2", "support")] := by decide

/-- C5 (amended): the option parser applied to
`"For sales, press 1. For support, press 2."` returns exactly
`[("1", "For sales"), ("2", "For support")]`, in that order — the digits
and the order are as claimed, but each label keeps the leading `For `
because `PRESS_AFTER_LABEL_RE` anchors the label at the sentence start and
only the prefix `if ` is ever stripped from it. -/
theorem c5_parse_actual :
    parseOptions "For sales, press 1. For support, press 2." =
      [("1", "For sales"), ("2", "For support")] := by decide

/-! ### C4 — the completeness check -/

/-- C4 counterexample: a tree whose only option has the *non-null* target
`""` — every option has a non-null target, yet `isTraversalComplete`
reports the tree incomplete, because the source tests JavaScript
truthiness (`!o.targetNodeId`), which treats the empty string like
`null`. -/
theorem c4_complete_counterexample :
    allNonNullNode emptyTargetTree = true ∧
      isTraversalComplete emptyTargetTree = false := by decide

mutual
/-- `isTraversalComplete`'s walk at a node agrees with "every option of
every descendant has a truthy target". -/
theorem completeNode_eq_allLinked (n : Node) : completeNode n = allLinkedNode n := by
  cases n with
  | mk i pid t conf os cs =>
    rw [completeNode, allLinkedNode, completeForest_eq_allLinked cs]
    cases os with
    | nil => simp
    | cons o os' => simp [not_any_eq_all]

/-- Forest version of `completeNode_eq_allLinked`. -/
theorem completeForest_eq_allLinked (l : List Node) :
    completeForest l = allLinkedForest l := by
  cases l with
  | nil => rfl
  | cons c cs =>
    rw [completeForest, allLinkedForest, completeNode_eq_allLinked c,
      completeForest_eq_allLinked cs]
end

/-- C4 (amended): the completeness check returns true for a tree iff every
option reachable anywhere in the tree has a *truthy* `targetNodeId` — the
source reads pending as falsy (`null` or the empty string), so a tree all
of whose options carry truthy targets is reported complete and a tree with
any falsy-target option, at any depth, is reported not complete. -/
theorem c4_complete_iff_allLinked (root : Node) :
    isTraversalComplete root = allLinkedNode root :=
  completeNode_eq_allLinked root

/-- C4 witness: the amended theorem at the fully linked tree and at the
deep-pending tree. -/
theorem c4_complete_witness :
    isTraversalComplete linkedTree = allLinkedNode linkedTree ∧
      allLinkedNode linkedTree = true ∧
      isTraversalComplete deepPendingTree = allLinkedNode deepPendingTree ∧
      allLinkedNode deepPendingTree = false :=
  ⟨c4_complete_iff_allLinked linkedTree, by decide,
   c4_complete_iff_allLinked deepPendingTree, by decide⟩

/-! ### C3 — the next-path planner -/

theorem mem_stableInsert {le : α → α → Bool} {x y : α} :
    ∀ {l : List α}, x ∈ stableInsert le y l ↔ x = y ∨ x ∈ l := by
  intro l
  induction l with
  | nil => simp [stableInsert]
  | cons z zs ih =>
    by_cases hle : le y z = true
    · simp [stableInsert, hle, List.mem_cons]
      try tauto
    · simp only [stableInsert, hle, Bool.false_eq_true, if_false, List.mem_cons, ih]
      try tauto

theorem mem_stableSort {le : α → α → Bool} {x : α} :
    ∀ {l : List α}, x ∈ stableSort le l ↔ x ∈ l := by
  intro l
  induction l with
  | nil => simp [stableSort]
  | cons z zs ih =>
    simp only [stableSort, List.foldr_cons, mem_stableInsert, List.mem_cons]
    rw [show List.foldr (stableInsert le) [] zs = stableSort le zs from rfl] at *
    simp [ih]

theorem mem_sortOptions {o : IvrOption} {os : List IvrOption} :
    o ∈ sortOptionsByDigit os ↔ o ∈ os := mem_stableSort

/-- The size of a child found in a node's children list is smaller than
the node's. -/
theorem sizeOf_child_lt {n c : Node} (h : c ∈ n.children) : sizeOf c < sizeOf n := by
  have hlt : sizeOf c < sizeOf n.children := List.sizeOf_lt_of_mem h
  cases n with
  | mk i p t conf os cs =>
    simp only [Node.children] at hlt
    simp only [Node.mk.sizeOf_spec]
    omega

/-- Soundness of the planner's returned path: it is always the path of a
pending option on a reachable pair. -/
theorem nextFrom_sound :
    ∀ (k : Nat) (root n : Node) (p q : List String), sizeOf n ≤ k →
      ReachesPair root n p → nextUnvisitedFrom n p = some q →
      ∃ (n' : Node) (p' : List String) (o : IvrOption),
        ReachesPair root n' p' ∧ o ∈ n'.options ∧
        strTruthy o.targetNodeId = false ∧ q = p' ++ [o.digit] := by
  intro k
  induction k with
  | zero =>
    intro root n p q hsz
    cases n with
    | mk i pid t conf os cs =>
      simp only [Node.mk.sizeOf_spec] at hsz
      omega
  | succ k ih =>
    intro root n p q hsz hreach hrun
    rw [nextUnvisitedFrom] at hrun
    cases hfind : (sortOptionsByDigit n.options).find? (fun o => !(strTruthy o.targetNodeId)) with
    | some o =>
      rw [hfind] at hrun
      have hmem : o ∈ n.options := mem_sortOptions.mp (List.mem_of_find?_eq_some hfind)
      have hpend : strTruthy o.targetNodeId = false := by
        have := List.find?_some hfind
        simpa using this
      exact ⟨n, p, o, hreach, hmem, hpend, by simpa using hrun.symm⟩
    | none =>
      rw [hfind] at hrun
      -- descend through the option loop
      have main : ∀ (os : List IvrOption), (∀ o ∈ os, o ∈ n.options) →
          nextOptLoop n p os = some q →
          ∃ (n' : Node) (p' : List String) (o : IvrOption),
            ReachesPair root n' p' ∧ o ∈ n'.options ∧
            strTruthy o.targetNodeId = false ∧ q = p' ++ [o.digit] := by
        intro os
        induction os with
        | nil => intro _ hh; rw [nextOptLoop] at hh; cases hh
        | cons o os' ihos =>
          intro hsub hh
          rw [nextOptLoop] at hh
          cases htr : strTruthy o.targetNodeId with
          | false => simp [htr] at hh; exact ihos (fun x hx => hsub x (List.mem_cons_of_mem o hx)) hh
          | true =>
            simp only [htr, if_true] at hh
            cases hchild : n.children.find? (fun c' => some c'.id = o.targetNodeId) with
            | none =>
              rw [hchild] at hh
              exact ihos (fun x hx => hsub x (List.mem_cons_of_mem o hx)) hh
            | some c =>
              rw [hchild] at hh
              have hh2 : (match nextUnvisitedFrom c (p ++ [o.digit]) with
                  | some r => some r
                  | none => nextOptLoop n p os') = some q := hh
              have hcr : ReachesPair root c (p ++ [o.digit]) :=
                ReachesPair.step hreach (hsub o (List.mem_cons_self o os')) htr hchild
              have hcsz : sizeOf c ≤ k := by
                have := sizeOf_child_lt (List.mem_of_find?_eq_some hchild)
                omega
              cases hrec : nextUnvisitedFrom c (p ++ [o.digit]) with
              | some r =>
                rw [hrec] at hh2
                cases hh2
                exact ih root c (p ++ [o.digit]) q hcsz hcr hrec
              | none =>
                rw [hrec] at hh2
                exact ihos (fun x hx => hsub x (List.mem_cons_of_mem o hx)) hh2
      exact main (sortOptionsByDigit n.options) (fun o ho => mem_sortOptions.mp ho) hrun

theorem snoc_inj {xs ys : List α} {x y : α} (h : xs ++ [x] = ys ++ [y]) :
    xs = ys ∧ x = y := by
  have hr := congrArg List.reverse h
  simp only [List.reverse_append, List.reverse_cons, List.reverse_nil,
    List.nil_append, List.singleton_append, List.cons.injEq] at hr
  exact ⟨by simpa using congrArg List.reverse hr.2, hr.1⟩

theorem collectOwn_pending {n : Node} {p : List String} {o : IvrOption} :
    ∀ {os : List IvrOption}, o ∈ os → strTruthy o.targetNodeId = false →
      (p ++ [o.digit]) ∈ (collectOwn n p os).2 := by
  intro os hmem hpend
  induction os with
  | nil => cases hmem
  | cons z zs ih =>
    rw [collectOwn]
    rcases List.mem_cons.mp hmem with rfl | hz
    · simp [hpend]
    · cases htr : strTruthy z.targetNodeId <;> simp [htr, ih hz]

theorem collectOwn_visited {n : Node} {p : List String} {o : IvrOption} :
    ∀ {os : List IvrOption}, o ∈ os → strTruthy o.targetNodeId = true →
      (p ++ [o.digit]) ∈ (collectOwn n p os).1 := by
  intro os hmem htru
  induction os with
  | nil => cases hmem
  | cons z zs ih =>
    rw [collectOwn]
    rcases List.mem_cons.mp hmem with rfl | hz
    · simp [htru]
    · cases htr : strTruthy z.targetNodeId <;> simp [htr, ih hz]

theorem collectOwn_inv {n : Node} {p : List String} {q : List String} :
    ∀ {os : List IvrOption},
      (q ∈ (collectOwn n p os).1 →
        ∃ o ∈ os, strTruthy o.targetNodeId = true ∧ q = p ++ [o.digit]) ∧
      (q ∈ (collectOwn n p os).2 →
        ∃ o ∈ os, strTruthy o.targetNodeId = false ∧ q = p ++ [o.digit]) := by
  intro os
  induction os with
  | nil => simp [collectOwn]
  | cons z zs ih =>
    rw [collectOwn]
    cases htr : strTruthy z.targetNodeId with
    | true =>
      constructor
      · intro hq
        rcases List.mem_cons.mp hq with rfl | hq'
        · exact ⟨z, List.mem_cons_self z zs, htr, rfl⟩
        · obtain ⟨o, ho, h1, h2⟩ := ih.1 hq'
          exact ⟨o, List.mem_cons_of_mem z ho, h1, h2⟩
      · intro hq
        obtain ⟨o, ho, h1, h2⟩ := ih.2 hq
        exact ⟨o, List.mem_cons_of_mem z ho, h1, h2⟩
    | false =>
      constructor
      · intro hq
        obtain ⟨o, ho, h1, h2⟩ := ih.1 hq
        exact ⟨o, List.mem_cons_of_mem z ho, h1, h2⟩
      · intro hq
        rcases List.mem_cons.mp hq with rfl | hq'
        · exact ⟨z, List.mem_cons_self z zs, htr, rfl⟩
        · obtain ⟨o, ho, h1, h2⟩ := ih.2 hq'
          exact ⟨o, List.mem_cons_of_mem z ho, h1, h2⟩

theorem mem_collectKids {n : Node} {p : List String} {o : IvrOption} {c : Node}
    {x : List String}
    (htru : strTruthy o.targetNodeId = true)
    (hfind : n.children.find? (fun c' => some c'.id = o.targetNodeId) = some c) :
    ∀ {os : List IvrOption}, o ∈ os →
      (x ∈ (collectFrom c (p ++ [o.digit])).1 → x ∈ (collectKids n p os).1) ∧
      (x ∈ (collectFrom c (p ++ [o.digit])).2 → x ∈ (collectKids n p os).2) := by
  intro os hmem
  induction os with
  | nil => cases hmem
  | cons z zs ih =>
    rcases List.mem_cons.mp hmem with rfl | hz
    · rw [collectKids]
      simp only [htru, if_true]
      rw [hfind]
      constructor <;> intro hx <;> exact List.mem_append_left _ hx
    · rw [collectKids]
      cases htr : strTruthy z.targetNodeId with
      | false => simpa [htr] using ih hz
      | true =>
        simp only [htr, if_true]
        cases hf : n.children.find? (fun c' => some c'.id = z.targetNodeId) with
        | none => simpa using ih hz
        | some c' =>
          constructor <;> intro hx
          · exact List.mem_append_right _ ((ih hz).1 hx)
          · exact List.mem_append_right _ ((ih hz).2 hx)

theorem collectKids_inv {n : Node} {p : List String} {q : List String} :
    ∀ {os : List IvrOption} {s : Bool},
      (q ∈ (if s then (collectKids n p os).1 else (collectKids n p os).2)) →
      ∃ o ∈ os, ∃ c, strTruthy o.targetNodeId = true ∧
        n.children.find? (fun c' => some c'.id = o.targetNodeId) = some c ∧
        (q ∈ (if s then (collectFrom c (p ++ [o.digit])).1
              else (collectFrom c (p ++ [o.digit])).2)) := by
  intro os
  induction os with
  | nil => intro s h; rw [collectKids] at h; cases s <;> simp at h
  | cons z zs ih =>
    intro s h
    rw [collectKids] at h
    cases htr : strTruthy z.targetNodeId with
    | false =>
      rw [htr] at h
      simp only [Bool.false_eq_true, if_false] at h
      obtain ⟨o, ho, rest⟩ := ih h
      exact ⟨o, List.mem_cons_of_mem z ho, rest⟩
    | true =>
      rw [htr] at h
      simp only [if_true] at h
      cases hf : n.children.find? (fun c' => some c'.id = z.targetNodeId) with
      | none =>
        rw [hf] at h
        obtain ⟨o, ho, rest⟩ := ih h
        exact ⟨o, List.mem_cons_of_mem z ho, rest⟩
      | some c =>
        rw [hf] at h
        cases s with
        | true =>
          simp only [if_true] at h
          rcases List.mem_append.mp h with hsub | hrest
          · exact ⟨z, List.mem_cons_self z zs, c, htr, hf, by simpa using hsub⟩
          · obtain ⟨o, ho, rest⟩ := ih (s := true) (by simpa using hrest)
            exact ⟨o, List.mem_cons_of_mem z ho, rest⟩
        | false =>
          simp only [Bool.false_eq_true, if_false] at h
          rcases List.mem_append.mp h with hsub | hrest
          · exact ⟨z, List.mem_cons_self z zs, c, htr, hf, by simpa using hsub⟩
          · obtain ⟨o, ho, rest⟩ := ih (s := false) (by simpa using hrest)
            exact ⟨o, List.mem_cons_of_mem z ho, rest⟩

theorem reach_collect_sub {root : Node} :
    ∀ {n : Node} {p : List String}, ReachesPair root n p →
      ∀ x, (x ∈ (collectFrom n p).1 → x ∈ (collectFrom root []).1) ∧
        (x ∈ (collectFrom n p).2 → x ∈ (collectFrom root []).2) := by
  intro n p hreach
  induction hreach with
  | root => intro x; exact ⟨id, id⟩
  | step hr hmem htru hfind ih =>
    intro x
    rename_i n' p' o c
    have hrev : o ∈ n'.options.reverse := List.mem_reverse.mpr hmem
    have hkids := mem_collectKids (n := n') (p := p') (x := x) htru hfind hrev
    constructor <;> intro hx
    · have : x ∈ (collectFrom n' p').1 := by
        rw [collectFrom]
        exact List.mem_append_right _ (hkids.1 hx)
      exact (ih x).1 this
    · have : x ∈ (collectFrom n' p').2 := by
        rw [collectFrom]
        exact List.mem_append_right _ (hkids.2 hx)
      exact (ih x).2 this

theorem nodup_opt_eq :
    ∀ {os : List IvrOption}, nodupKeys (os.map (fun o => o.digit)) = true →
      ∀ {o1 o2 : IvrOption}, o1 ∈ os → o2 ∈ os → o1.digit = o2.digit → o1 = o2 := by
  intro os
  induction os with
  | nil => intro _ o1 o2 h1; cases h1
  | cons z zs ih =>
    intro hnd o1 o2 h1 h2 hdig
    rw [List.map_cons, nodupKeys] at hnd
    have hnc := hnd
    rcases List.mem_cons.mp h1 with rfl | h1' <;> rcases List.mem_cons.mp h2 with rfl | h2'
    · rfl
    · exfalso
      have hmm : o1.digit ∈ List.map (fun o => o.digit) zs := by
        rw [hdig]; exact List.mem_map_of_mem _ h2'
      have hct : (List.map (fun o => o.digit) zs).contains o1.digit = true :=
        List.elem_eq_true_of_mem hmm
      rw [hct] at hnc
      simp at hnc
    · exfalso
      have hmm : o2.digit ∈ List.map (fun o => o.digit) zs := by
        rw [← hdig]; exact List.mem_map_of_mem _ h1'
      have hct : (List.map (fun o => o.digit) zs).contains o2.digit = true :=
        List.elem_eq_true_of_mem hmm
      rw [hct] at hnc
      simp at hnc
    · have hnd2 : nodupKeys (List.map (fun o => o.digit) zs) = true := by
        simp only [Bool.and_eq_true] at hnd
        exact hnd.2
      exact ih hnd2 h1' h2' hdig

theorem distinctForest_mem {c : Node} :
    ∀ {cs : List Node}, distinctDigitsForest cs = true → c ∈ cs →
      distinctDigitsNode c = true := by
  intro cs hf hmem
  induction cs with
  | nil => cases hmem
  | cons z zs ih =>
    rw [distinctDigitsForest] at hf
    simp only [Bool.and_eq_true] at hf
    rcases List.mem_cons.mp hmem with rfl | h'
    · exact hf.1
    · exact ih hf.2 h'

theorem reach_distinct {root : Node} (hd : distinctDigitsNode root = true) :
    ∀ {n : Node} {p : List String}, ReachesPair root n p → distinctDigitsNode n = true := by
  intro n p hreach
  induction hreach with
  | root => exact hd
  | step hr hmem htru hfind ih =>
    rename_i n' p' o c
    have hcm : c ∈ n'.children := List.mem_of_find?_eq_some hfind
    cases n' with
    | mk i pid t conf os cs =>
      rw [distinctDigitsNode] at ih
      simp only [Bool.and_eq_true] at ih
      exact distinctForest_mem ih.2 hcm

theorem reach_inv {root n : Node} {p : List String} (h : ReachesPair root n p) :
    (p = [] ∧ n = root) ∨
    (∃ (m : Node) (p' : List String) (o : IvrOption) (c : Node),
      ReachesPair root m p' ∧ o ∈ m.options ∧ strTruthy o.targetNodeId = true ∧
      m.children.find? (fun c' => some c'.id = o.targetNodeId) = some c ∧
      n = c ∧ p = p' ++ [o.digit]) := by
  cases h with
  | root => exact .inl ⟨rfl, rfl⟩
  | step hr hm ht hf => exact .inr ⟨_, _, _, _, hr, hm, ht, hf, rfl, rfl⟩

theorem reach_unique {root : Node} (hd : distinctDigitsNode root = true) :
    ∀ {n1 : Node} {p : List String}, ReachesPair root n1 p →
      ∀ {n2 : Node}, ReachesPair root n2 p → n1 = n2 := by
  intro n1 p h1
  induction h1 with
  | root =>
    intro n2 h2
    rcases reach_inv h2 with ⟨_, rfl⟩ | ⟨m, p', o, c, _, _, _, _, _, habs⟩
    · rfl
    · exact absurd habs (by simp)
  | step hr1 hmem1 htru1 hfind1 ih =>
    rename_i m1 p1 o1 c1
    intro n2 h2
    rcases reach_inv h2 with ⟨habs, _⟩ | ⟨m2, p2, o2, c2, hr2, hmem2, htru2, hfind2, rfl, heq⟩
    · exact absurd habs (by simp)
    · obtain ⟨hp, hdig⟩ := snoc_inj heq
      subst hp
      have hm : m1 = m2 := ih hr2
      rw [← hm] at hmem2 hfind2
      have hoo : o2 = o1 := by
        have hdist := reach_distinct hd hr1
        cases m1 with
        | mk i pid t conf os cs =>
          rw [distinctDigitsNode] at hdist
          simp only [Bool.and_eq_true] at hdist
          exact nodup_opt_eq hdist.1 hmem2 hmem1 hdig.symm
      subst hoo
      rw [hfind1] at hfind2
      exact Option.some.inj hfind2

theorem collect_visited_sound :
    ∀ (k : Nat) (root n : Node) (p : List String), sizeOf n ≤ k →
      ReachesPair root n p → ∀ q, q ∈ (collectFrom n p).1 →
      ∃ (n' : Node) (p' : List String) (o : IvrOption),
        ReachesPair root n' p' ∧ o ∈ n'.options ∧
        strTruthy o.targetNodeId = true ∧ q = p' ++ [o.digit] := by
  intro k
  induction k with
  | zero =>
    intro root n p hsz
    cases n with
    | mk i pid t conf os cs =>
      simp only [Node.mk.sizeOf_spec] at hsz
      omega
  | succ k ih =>
    intro root n p hsz hreach q hq
    rw [collectFrom] at hq
    rcases List.mem_append.mp hq with hown | hkids
    · obtain ⟨o, ho, htru, heq⟩ := (collectOwn_inv (n := n) (p := p)).1 hown
      exact ⟨n, p, o, hreach, ho, htru, heq⟩
    · obtain ⟨o, ho, c, htru, hfind, hsub⟩ :=
        collectKids_inv (n := n) (p := p) (s := true) hkids
      have homem : o ∈ n.options := List.mem_reverse.mp ho
      have hcr : ReachesPair root c (p ++ [o.digit]) :=
        ReachesPair.step hreach homem htru hfind
      have hcsz : sizeOf c ≤ k := by
        have := sizeOf_child_lt (List.mem_of_find?_eq_some hfind)
        omega
      exact ih root c (p ++ [o.digit]) hcsz hcr q (by simpa using hsub)

theorem collectKids_nil (n : Node) (p : List String) : collectKids n p [] = ([], []) := by
  rw [collectKids]

theorem collectKids_cons_false {z : IvrOption} (n : Node) (p : List String)
    (zs : List IvrOption) (htr : strTruthy z.targetNodeId = false) :
    collectKids n p (z :: zs) = collectKids n p zs := by
  rw [collectKids]
  simp [htr]

theorem collectKids_cons_none {n : Node} {z : IvrOption} (p : List String)
    (zs : List IvrOption) (htr : strTruthy z.targetNodeId = true)
    (hf : n.children.find? (fun c' => some c'.id = z.targetNodeId) = none) :
    collectKids n p (z :: zs) = collectKids n p zs := by
  rw [collectKids]
  simp only [htr, if_true]
  rw [hf]

theorem collectKids_cons_some {n : Node} {z : IvrOption} {c : Node} (p : List String)
    (zs : List IvrOption) (htr : strTruthy z.targetNodeId = true)
    (hf : n.children.find? (fun c' => some c'.id = z.targetNodeId) = some c) :
    collectKids n p (z :: zs) =
      ((collectFrom c (p ++ [z.digit])).1 ++ (collectKids n p zs).1,
       (collectFrom c (p ++ [z.digit])).2 ++ (collectKids n p zs).2) := by
  rw [collectKids]
  simp only [htr, if_true]
  rw [hf]

/-- C3 counterexample: on a tree where one node carries two options with
the same digit (`1` resolved, `1` pending — a state the merger produces,
since only the first option with a digit is ever linked), the planner
returns `["1"]`, which *is* a member of the derived visited path set, so
"a path already present in visited is never returned" fails as stated. -/
theorem c3_planner_counterexample :
    nextUnvisitedPath (some dupDigitTree) = ["1"] ∧
      ["1"] ∈ (collectVisitedAndPendingPaths (some dupDigitTree)).1 := by
  constructor
  · simp +decide [nextUnvisitedPath, nextUnvisitedFrom, nextOptLoop, dupDigitTree,
      sortOptionsByDigit, stableSort, stableInsert, optionCmp, jsParseInt, strTruthy]
  · simp +decide [collectVisitedAndPendingPaths, collectFrom, collectKids, collectOwn,
      dupDigitTree, strTruthy]

/-- C3 (amended): the planner is a pure function of the tree (determinism
is by construction), and a non-empty returned path is always a member of
the derived pending path set — the option the planner selects at the end
of the path is pending; when no node carries two options with the same
digit (so a path determines its option), the returned path is never a
member of the derived visited path set.  In the claim's example tree
(pending `{["1"],["2","1"]}`, visited `{["2"]}`) it returns `["1"]`. -/
theorem c3_planner_pending_no_repeat (root : Node) (q : List String)
    (hrun : nextUnvisitedPath (some root) = q) (hne : q ≠ []) :
    q ∈ (collectVisitedAndPendingPaths (some root)).2 ∧
      (distinctDigitsNode root = true →
        q ∉ (collectVisitedAndPendingPaths (some root)).1) := by
  have hsome : nextUnvisitedFrom root [] = some q := by
    rw [nextUnvisitedPath] at hrun
    cases hopt : nextUnvisitedFrom root [] with
    | none => rw [hopt] at hrun; simp at hrun; exact absurd hrun.symm (fun h => hne h.symm)
    | some r => rw [hopt] at hrun; simp at hrun; rw [hrun]
  obtain ⟨n, p, o, hreach, hmem, hpend, rfl⟩ :=
    nextFrom_sound (sizeOf root) root root [] q (le_refl _) ReachesPair.root hsome
  constructor
  · have hown : (p ++ [o.digit]) ∈ (collectOwn n p n.options).2 :=
      collectOwn_pending hmem hpend
    have hfrom : (p ++ [o.digit]) ∈ (collectFrom n p).2 := by
      rw [collectFrom]
      exact List.mem_append_left _ hown
    rw [collectVisitedAndPendingPaths]
    exact (reach_collect_sub hreach _).2 hfrom
  · intro hd hvis
    rw [collectVisitedAndPendingPaths] at hvis
    obtain ⟨n', p', o', hreach', hmem', htru', heq⟩ :=
      collect_visited_sound (sizeOf root) root root [] (le_refl _) ReachesPair.root _ hvis
    obtain ⟨hp, hdig⟩ := snoc_inj heq.symm
    subst hp
    have hn : n = n' := reach_unique hd hreach hreach'
    subst hn
    have ho : o' = o := by
      have hdist := reach_distinct hd hreach
      cases n with
      | mk i pid t conf os cs =>
        rw [distinctDigitsNode] at hdist
        simp only [Bool.and_eq_true] at hdist
        exact nodup_opt_eq hdist.1 hmem' hmem hdig
    rw [ho] at htru'
    rw [htru'] at hpend
    cases hpend

/-- C3 witness: on the claim's example tree the pending path set is
`[["1"], ["2","1"]]`, the visited set is `[["2"]]`, and the planner —
via the amended theorem — returns `["1"]`, a pending path that is not in
the visited set. -/
theorem c3_planner_witness :
    nextUnvisitedPath (some plannerExTree) = ["1"] ∧
      (collectVisitedAndPendingPaths (some plannerExTree)).2 = [["1"], ["2", "1"]] ∧
      (collectVisitedAndPendingPaths (some plannerExTree)).1 = [["2"]] ∧
      ["1"] ∈ (collectVisitedAndPendingPaths (some plannerExTree)).2 ∧
      ["1"] ∉ (collectVisitedAndPendingPaths (some plannerExTree)).1 := by
  have h1 : nextUnvisitedPath (some plannerExTree) = ["1"] := by
    simp +decide [nextUnvisitedPath, nextUnvisitedFrom, nextOptLoop, plannerExTree,
      sortOptionsByDigit, stableSort, stableInsert, optionCmp, jsParseInt, strTruthy]
  have h2 := c3_planner_pending_no_repeat plannerExTree ["1"] h1 (by decide)
  refine ⟨h1, ?_, ?_, h2.1, h2.2 (by decide)⟩
  · simp +decide [collectVisitedAndPendingPaths, collectFrom, collectOwn,
      collectKids_cons_some, collectKids_cons_false, collectKids_nil,
      plannerExTree, strTruthy, Node.options, Node.children]
  · simp +decide [collectVisitedAndPendingPaths, collectFrom, collectOwn,
      collectKids_cons_some, collectKids_cons_false, collectKids_nil,
      plannerExTree, strTruthy, Node.options, Node.children]

/-! ### C7 — polling backoff, reset and timeout -/

theorem pollGo_trace (query : Nat → PollOutcome) (intervalMs timeoutMs : Nat) :
    ∀ (fuel k now wait : Nat) (hw : 1000 ≤ wait), timeoutMs - now ≤ fuel →
      traceGood (max 1000 intervalMs) wait
        ((pollGo query intervalMs timeoutMs k now wait hw).2) := by
  intro fuel
  induction fuel with
  | zero =>
    intro k now wait hw hf
    rw [pollGo]
    have hnow : ¬(now < timeoutMs) := by omega
    simp only [hnow, dif_neg, not_false_iff]
    exact trivial
  | succ fuel ih =>
    intro k now wait hw hf
    rw [pollGo]
    by_cases hnow : now < timeoutMs
    · simp only [hnow, dif_pos]
      cases hq : query k with
      | failure =>
        refine ⟨rfl, ?_⟩
        exact ih (k + 1) (now + min (wait * 2) 20000) _ _ (by omega)
      | status s =>
        by_cases hterm : isTerminalStatus s = true
        · simp only [hterm, if_true]
          exact trivial
        · simp only [hterm, if_false]
          refine ⟨rfl, ?_⟩
          exact ih (k + 1) (now + max 1000 intervalMs) _ _ (by omega)
    · simp only [hnow, dif_neg, not_false_iff]
      exact trivial

theorem traceGood_props (base : Nat) :
    ∀ (tr : List (Bool × Nat)) (wait : Nat), traceGood base wait tr →
      (∀ i w, tr.get? i = some (true, w) → w ≤ 20000) ∧
      (∀ i w1 w2, tr.get? i = some (true, w1) → tr.get? (i + 1) = some (true, w2) →
        w1 ≤ w2) ∧
      (∀ i w, tr.get? i = some (false, w) → w = base) := by
  intro tr
  induction tr with
  | nil => intro wait _; refine ⟨?_, ?_, ?_⟩ <;> intro i <;> intros <;> simp_all [List.get?]
  | cons e rest ih =>
    intro wait hg
    rw [traceGood] at hg
    obtain ⟨he, hrest⟩ := hg
    obtain ⟨hcap, hnd, hbase⟩ := ih e.2 hrest
    refine ⟨?_, ?_, ?_⟩
    · intro i w hi
      cases i with
      | zero =>
        simp only [List.get?] at hi
        cases hi
        simp only [if_true] at he
        omega
      | succ j => exact hcap j w hi
    · intro i w1 w2 h1 h2
      cases i with
      | zero =>
        simp only [List.get?] at h1
        cases h1
        simp only [if_true] at he
        have hw2 : w2 = min (w1 * 2) 20000 := by
          cases rest with
          | nil => simp [List.get?] at h2
          | cons e2 rest2 =>
            simp only [List.get?] at h2
            rw [traceGood] at hrest
            cases h2
            simpa using hrest.1
        omega
      | succ j => exact hnd j w1 w2 h1 h2
    · intro i w hi
      cases i with
      | zero =>
        simp only [List.get?] at hi
        cases hi
        simpa using he
      | succ j => exact hbase j w hi

theorem pollGo_noTerminal (query : Nat → PollOutcome) (intervalMs timeoutMs : Nat)
    (hq : ∀ k s, query k = .status s → isTerminalStatus s = false) :
    ∀ (fuel k now wait : Nat) (hw : 1000 ≤ wait), timeoutMs - now ≤ fuel →
      (pollGo query intervalMs timeoutMs k now wait hw).1 = .timedOut := by
  intro fuel
  induction fuel with
  | zero =>
    intro k now wait hw hf
    rw [pollGo]
    have hnow : ¬(now < timeoutMs) := by omega
    simp [hnow]
  | succ fuel ih =>
    intro k now wait hw hf
    rw [pollGo]
    by_cases hnow : now < timeoutMs
    · simp only [hnow, dif_pos]
      cases hqk : query k with
      | failure => exact ih (k + 1) (now + min (wait * 2) 20000) _ _ (by omega)
      | status s =>
        have := hq k s hqk
        simp only [this, Bool.false_eq_true, if_false]
        exact ih (k + 1) (now + max 1000 intervalMs) _ _ (by omega)
    · simp [hnow]

/-- C7: along any run of `pollCallUntilDone`, (a) every wait slept after a
transient query failure is at most the 20000 ms ceiling, (b) across two
consecutive transient failures the wait never decreases (it doubles up to
the ceiling), (c) the wait slept after a successful non-terminal poll is
reset to the loop's base wait `max 1000 intervalMs` (the same value the
loop starts from), and (d) if no queried status is ever terminal
(`completed`/`failed`/`canceled`), the loop returns the timeout error. -/
theorem c7_poll_backoff_reset_timeout (query : Nat → PollOutcome)
    (intervalMs timeoutMs : Nat) :
    (∀ i w, (pollCallUntilDone query intervalMs timeoutMs).2.get? i = some (true, w) →
      w ≤ 20000) ∧
    (∀ i w1 w2,
      (pollCallUntilDone query intervalMs timeoutMs).2.get? i = some (true, w1) →
      (pollCallUntilDone query intervalMs timeoutMs).2.get? (i + 1) = some (true, w2) →
      w1 ≤ w2) ∧
    (∀ i w, (pollCallUntilDone query intervalMs timeoutMs).2.get? i = some (false, w) →
      w = max 1000 intervalMs) ∧
    ((∀ k s, query k = .status s → isTerminalStatus s = false) →
      (pollCallUntilDone query intervalMs timeoutMs).1 = .timedOut) := by
  have hg := pollGo_trace query intervalMs timeoutMs (timeoutMs - 0) 0 0
    (max 1000 intervalMs) (le_max_left _ _) (le_refl _)
  obtain ⟨hcap, hnd, hbase⟩ := traceGood_props (max 1000 intervalMs) _ _ hg
  refine ⟨hcap, hnd, hbase, ?_⟩
  intro hq
  exact pollGo_noTerminal query intervalMs timeoutMs hq (timeoutMs - 0) 0 0
    (max 1000 intervalMs) (le_max_left _ _) (le_refl _)

/-- C7 witness: three consecutive transient failures double the wait
(2000, 4000, 8000 ms), a successful non-terminal poll resets it to the
1000 ms base, and the next poll's terminal status ends the loop; and the
main theorem, applied to a stream with no terminal status, yields the
timeout error. -/
theorem c7_poll_witness :
    pollCallUntilDone pollQueryEx 1000 60000 =
      (.terminal (some "completed"),
        [(true, 2000), (true, 4000), (true, 8000), (false, 1000)]) ∧
    (pollCallUntilDone pollQueryStuck 1000 5000).1 = .timedOut := by
  constructor
  · simp +decide [pollCallUntilDone, pollGo, pollQueryEx, isTerminalStatus, strOr]
  · refine (c7_poll_backoff_reset_timeout pollQueryStuck 1000 5000).2.2.2 ?_
    intro k s h
    rw [pollQueryStuck] at h
    by_cases hk : k % 2 = 0
    · simp [hk] at h
    · simp [hk] at h
      rw [← h]
      decide

/-! ### C8 — phone identity normalization -/

/-- C8 counterexample: `"+abc"` is not in canonical international form
(`+` followed by digits), its digits form neither a 10-digit nor an
11-digit number — by the claim it must fail with the invalid-identity
error — yet `normalizePhoneToE164` returns it verbatim because the code
accepts *any* `+`-prefixed string, and `makeCall` proceeds toward the
network call with it. -/
theorem c8_identity_counterexample :
    specCanonicalForm "+abc" = false ∧
      (digitsOnly (jsTrim "+abc")).length ≠ 10 ∧
      (digitsOnly (jsTrim "+abc")).length ≠ 11 ∧
      makeCallGate "+abc" = .placed "+abc" := by decide

/-- C8 (amended): normalization succeeds exactly for inputs whose trimmed
form starts with `+` (returned verbatim, canonical or not), or whose
digits form a 10-digit number, or an 11-digit number with leading `1`;
every other input makes `makeCall` return the invalid-identity error
response before any network side effect. -/
theorem c8_identity_gate (input : String) :
    ((jsStartsWith (jsTrim input) "+" = true ∨
      (digitsOnly (jsTrim input)).length = 10 ∨
      ((digitsOnly (jsTrim input)).length = 11 ∧
        jsStartsWith (digitsOnly (jsTrim input)) "1" = true)) →
      ∃ n, makeCallGate input = .placed n) ∧
    (jsStartsWith (jsTrim input) "+" = false →
      (digitsOnly (jsTrim input)).length ≠ 10 →
      ¬((digitsOnly (jsTrim input)).length = 11 ∧
        jsStartsWith (digitsOnly (jsTrim input)) "1" = true) →
      makeCallGate input = .rejected
        "Invalid phone number. Use E.164 format like +1XXXXXXXXXX (US 10-digit numbers are accepted).") := by
  constructor
  · intro h
    rw [makeCallGate, normalizePhoneToE164]
    by_cases h1 : jsStartsWith (jsTrim input) "+" = true
    · simp only [h1, if_true]
      exact ⟨jsTrim input, rfl⟩
    · simp only [h1, if_false]
      rcases h with hplus | h10 | ⟨h11, hone⟩
      · exact absurd hplus h1
      · have h11f : ((digitsOnly (jsTrim input)).length = 11 &&
            jsStartsWith (digitsOnly (jsTrim input)) "1") = false := by
          rw [h10]; simp
        simp only [h11f, Bool.false_eq_true, if_false, h10, if_pos]
        exact ⟨"+1" ++ digitsOnly (jsTrim input), by simp⟩
      · have h11t : ((digitsOnly (jsTrim input)).length = 11 &&
            jsStartsWith (digitsOnly (jsTrim input)) "1") = true := by
          rw [h11, hone]; simp
        simp only [h11t, if_true]
        exact ⟨"+" ++ digitsOnly (jsTrim input), rfl⟩
  · intro h1 h10 h11
    rw [makeCallGate, normalizePhoneToE164]
    have h11f : ((digitsOnly (jsTrim input)).length = 11 &&
        jsStartsWith (digitsOnly (jsTrim input)) "1") = false := by
      cases hlen : decide ((digitsOnly (jsTrim input)).length = 11) with
      | false => simp at hlen; simp [hlen]
      | true =>
        simp at hlen
        cases hsw : jsStartsWith (digitsOnly (jsTrim input)) "1" with
        | false => simp [hsw]
        | true => exact absurd ⟨hlen, hsw⟩ h11
    simp [h1, h11f, h10]

/-- C8 witness: the amended theorem applied to a bare 10-digit number
(accepted and canonicalized) and to a 7-digit number (rejected before any
network side effect). -/
theorem c8_identity_witness :
    makeCallGate "(555) 123-4567" = .placed "+15551234567" ∧
      makeCallGate "5551234" = .rejected
        "Invalid phone number. Use E.164 format like +1XXXXXXXXXX (US 10-digit numbers are accepted)." := by
  constructor
  · decide
  · exact (c8_identity_gate "5551234").2 (by decide) (by decide) (by decide)

/-! ### C9 — the session cost ledger -/

/-- C9 counterexample: appending a call record with the finite *negative*
price `-1` to a session whose `totalCost` is `5` decreases the total to
`4`, so "monotonically non-decreasing over every appended record" fails as
stated. -/
theorem c9_totalcost_counterexample :
    (appendCall ⟨.num 5, []⟩ (.num (-1))).totalCost = .num 4 ∧ (4 : ℚ) < 5 := by
  constructor
  · show JsNum.num ((5 : ℚ) + (-1)) = .num 4
    norm_num
  · norm_num

/-- C9 (amended): appending a record always sets `totalCost` to the
previous total (the stored finite `totalCost`, else the recomputed sum of
stored finite prices) plus the record's price when that price is a finite
number, treating a missing or non-finite price as zero; the running total
is non-decreasing whenever the effective price is non-negative — in
particular for every record whose price is missing, non-finite or a
non-negative number — but a finite negative price decreases it. -/
theorem c9_totalcost_sum_monotone (s : SessionLedger) (price : JsNum) :
    (appendCall s price).totalCost = .num (prevTotal s + finOr0 price) ∧
      (0 ≤ finOr0 price → ∀ q : ℚ, s.totalCost = .num q →
        q ≤ prevTotal s + finOr0 price) := by
  refine ⟨rfl, ?_⟩
  intro hp q hq
  have : prevTotal s = q := by rw [prevTotal, hq]
  rw [this]
  linarith

/-- C9 witness: the amended theorem at a session with stored total `5` and
an appended price `2`. -/
theorem c9_totalcost_witness :
    (appendCall ⟨.num 5, []⟩ (.num 2)).totalCost = .num (prevTotal ⟨.num 5, []⟩ + finOr0 (.num 2)) ∧
      (5 : ℚ) ≤ prevTotal ⟨.num 5, []⟩ + finOr0 (.num 2) := by
  have h := c9_totalcost_sum_monotone ⟨.num 5, []⟩ (.num 2)
  exact ⟨h.1, h.2 (by norm_num [finOr0]) 5 rfl⟩

/-! ### C6 — LLM collaborator failures in the discovery iteration -/

/-- C6: in one iteration of `DiscoverService.run` with successful call
placement, polling and transcript fetch, a failure of the optional
text-extraction collaborator (`extractNodesWithLLM`) is caught and the
deterministic tree is returned unchanged — but a failure of the planning
collaborator (`summarizeAndPlanNext`) is *not* caught: the `await` at
`discover.ts:136` has no surrounding try/catch, so the rejection escapes
`run` as the iteration's outcome instead of the merged tree, contradicting
the claim. -/
theorem c6_plan_failure_escapes (callId : String) (msgs : List TranscriptMessage)
    (llm : Except String Unit) (e : String) (root : Option Node) :
    runIteration ⟨"success", some callId, none⟩ (.ok ()) (.ok msgs) llm (.error e) root =
      .thrown e ∧
    runIteration ⟨"success", some callId, none⟩ (.ok ()) (.ok msgs) llm (.ok ()) root =
      .ok (buildGraphDeterministic msgs root) := by
  cases llm <;> simp [runIteration]

/-- C6 witness: the failing input evaluated — the plan collaborator
rejecting with "plan failed" after a successful merge makes the iteration
outcome that thrown error, not the merged tree, while the extraction
collaborator's failure alone is absorbed. -/
theorem c6_plan_failure_witness :
    runIteration ⟨"success", some "call-1", none⟩ (.ok ()) (.ok pressBeforeMenuU)
        (.error "llm down") (.error "plan failed") (some plainRoot) =
      .thrown "plan failed" ∧
    runIteration ⟨"success", some "call-1", none⟩ (.ok ()) (.ok pressBeforeMenuU)
        (.error "llm down") (.ok ()) (some plainRoot) =
      .ok (buildGraphDeterministic pressBeforeMenuU (some plainRoot)) :=
  c6_plan_failure_escapes "call-1" pressBeforeMenuU (.error "llm down") "plan failed"
    (some plainRoot)

/-! ### C10 — terminals at the root cursor -/

/-- One merge iteration factors into the tree part and the cursor part;
the cursor part never reads the tree. -/
theorem stepMsg_eq (s : BuildState) (m : TranscriptMessage) :
    stepMsg s m = ⟨treeStep s.curPath m s.root,
      (cursorStep (s.curPath, s.stack) m).1, (cursorStep (s.curPath, s.stack) m).2⟩ := by
  cases s with
  | mk r cur st =>
    rw [stepMsg, treeStep, cursorStep]
    cases hpress : isPressEvent m with
    | some d => rfl
    | none =>
      by_cases hrole : m.role = "user"
      · by_cases hopts : parseOptions m.message ≠ []
        · simp [hrole, hopts]
        · simp only [hrole, if_true, hopts, if_false]
          cases st <;> rfl
      · simp [hrole]

theorem stackShape_inv {cur : List String} {st : List (List String)}
    (h : StackShape cur st) :
    (cur = [] ∧ st = []) ∨
      (∃ p d rest, cur = p ++ [d] ∧ st = p :: rest ∧ StackShape p rest) := by
  cases h with
  | nil => exact .inl ⟨rfl, rfl⟩
  | push d h' => exact .inr ⟨_, d, _, rfl, rfl, h'⟩

/-- The cursor invariant is preserved by each merge step. -/
theorem stackShape_step {cur : List String} {st : List (List String)}
    (h : StackShape cur st) (m : TranscriptMessage) :
    StackShape (cursorStep (cur, st) m).1 (cursorStep (cur, st) m).2 := by
  rw [cursorStep]
  cases isPressEvent m with
  | some d => exact StackShape.push d h
  | none =>
    by_cases hrole : m.role = "user"
    · simp only [hrole, if_true]
      by_cases hopts : parseOptions m.message ≠ []
      · rw [if_pos hopts]; exact h
      · simp only [hopts, if_false]
        cases hst : st with
        | nil => exact StackShape.nil
        | cons p rest =>
          rcases stackShape_inv h with ⟨_, habs⟩ | ⟨p', d, rest', hc, hs, h'⟩
          · rw [hst] at habs; cases habs
          · rw [hst] at hs
            cases hs
            exact h'
    · simp only [hrole, if_false]
      exact h

/-- Along any run from the initial cursor, the stack holds exactly the
proper prefixes of the current path. -/
theorem stackShape_run (T : Node) :
    ∀ (U : List TranscriptMessage) (s : BuildState), StackShape s.curPath s.stack →
      StackShape (U.foldl stepMsg s).curPath (U.foldl stepMsg s).stack := by
  intro U
  induction U with
  | nil => intro s h; exact h
  | cons m rest ih =>
    intro s h
    rw [List.foldl_cons]
    apply ih
    rw [stepMsg_eq]
    exact stackShape_step h m

theorem buildStateAfter_succ {T : Node} {U : List TranscriptMessage} {k : Nat}
    {msg : TranscriptMessage} (hmsg : U.get? k = some msg) :
    buildStateAfter T U (k + 1) = stepMsg (buildStateAfter T U k) msg := by
  rw [buildStateAfter, buildStateAfter, List.take_succ]
  have : U[k]? = some msg := by simpa using hmsg
  rw [this]
  simp [List.foldl_append]

/-- C10: when the merge cursor stands at the root (empty digit path) the
backtrack stack is necessarily empty, and processing a spoken line that
yields no parsed options leaves the whole tree untouched (no terminal
child is created — the source's END-node branch is guarded by
`current.path.length > 0` — and the root's options and children are
unchanged) with the cursor remaining at the root. -/
theorem c10_root_terminal_noop (T : Node) (U : List TranscriptMessage) (k : Nat)
    (msg : TranscriptMessage)
    (hcur : (buildStateAfter T U k).curPath = [])
    (hmsg : U.get? k = some msg)
    (hrole : msg.role = "user")
    (hopts : parseOptions msg.message = []) :
    (buildStateAfter T U k).stack = [] ∧
      buildStateAfter T U (k + 1) =
        ⟨(buildStateAfter T U k).root, [], []⟩ := by
  have hshape : StackShape (buildStateAfter T U k).curPath (buildStateAfter T U k).stack := by
    rw [buildStateAfter]
    exact stackShape_run T _ ⟨T, [], []⟩ StackShape.nil
  rw [hcur] at hshape
  have hst : (buildStateAfter T U k).stack = [] := by
    rcases stackShape_inv hshape with ⟨_, h⟩ | ⟨p, d, rest, habs, _⟩
    · exact h
    · exact absurd habs.symm (by simp)
  refine ⟨hst, ?_⟩
  rw [buildStateAfter_succ hmsg, stepMsg_eq]
  have hpress : isPressEvent msg = none := by
    rw [isPressEvent, hrole]
    simp
  rw [treeStep, cursorStep, hpress]
  simp only [hrole, if_true, hopts, hcur, hst]
  simp

/-- C10 witness: in the counterexample transcript prefixed by nothing, the
message `"Goodbye"` arrives at cursor depth 1 — but after it pops back to
the root, a further optionless line at the root (appended here) leaves the
tree unchanged. -/
theorem c10_root_terminal_witness :
    ((buildStateAfter plainRoot [⟨"user", "Hello and welcome"⟩] 0).stack = [] ∧
      buildStateAfter plainRoot [⟨"user", "Hello and welcome"⟩] 1 =
        ⟨(buildStateAfter plainRoot [⟨"user", "Hello and welcome"⟩] 0).root, [], []⟩) ∧
    (buildStateAfter plainRoot [⟨"user", "Hello and welcome"⟩] 1).root = plainRoot :=
  ⟨c10_root_terminal_noop plainRoot [⟨"user", "Hello and welcome"⟩] 0
      ⟨"user", "Hello and welcome"⟩ (by decide) (by decide) (by decide) (by decide),
    by decide⟩

/-! ### C2 — the option-target/child-id invariant -/

theorem invariantNode_mk (i : String) (pid : Option String) (t : String) (conf : ℤ)
    (os : List IvrOption) (cs : List Node) :
    invariantNode (.mk i pid t conf os cs) =
      (os.all (fun o =>
        match o.targetNodeId with
        | none => true
        | some tg => cs.any (fun c => c.id = tg)) && invariantForest cs) := by
  rw [invariantNode]

theorem invariantForest_append :
    ∀ (l₁ l₂ : List Node), invariantForest (l₁ ++ l₂) =
      (invariantForest l₁ && invariantForest l₂) := by
  intro l₁ l₂
  induction l₁ with
  | nil => simp [invariantForest]
  | cons c cs ih =>
    simp only [List.cons_append, invariantForest]
    rw [show cs.append l₂ = cs ++ l₂ from rfl, ih, Bool.and_assoc]

theorem invariantForest_all :
    ∀ {l : List Node}, invariantForest l = true ↔ ∀ c ∈ l, invariantNode c = true := by
  intro l
  induction l with
  | nil => simp [invariantForest]
  | cons c cs ih =>
    rw [invariantForest]
    simp only [Bool.and_eq_true, ih, List.mem_cons]
    constructor
    · rintro ⟨h1, h2⟩ x (rfl | hx)
      · exact h1
      · exact h2 x hx
    · intro h
      exact ⟨h c (.inl rfl), fun x hx => h x (.inr hx)⟩

theorem updateFirst_id_any {g : Node → Node} (hid : ∀ x, (g x).id = x.id)
    {q : Node → Bool} :
    ∀ (l : List Node) (t : String),
      (updateFirst q g l).any (fun c => c.id = t) = l.any (fun c => c.id = t) := by
  intro l t
  induction l with
  | nil => rfl
  | cons x xs ih =>
    rw [updateFirst]
    by_cases hq : q x = true
    · simp [hq, List.any_cons, hid x]
    · simp only [hq, Bool.false_eq_true, if_false, List.any_cons, ih]

theorem updateLast_id_any {g : Node → Node} (hid : ∀ x, (g x).id = x.id)
    {q : Node → Bool} :
    ∀ (l : List Node) (t : String),
      (updateLast q g l).any (fun c => c.id = t) = l.any (fun c => c.id = t) := by
  intro l t
  induction l with
  | nil => rfl
  | cons x xs ih =>
    rw [updateLast]
    by_cases ha : xs.any q = true
    · simp only [ha, if_true, List.any_cons, ih]
    · simp only [ha, Bool.false_eq_true, if_false]
      by_cases hq : q x = true
      · simp [hq, List.any_cons, hid x]
      · simp [hq]

theorem updateFirst_forest_inv {g : Node → Node}
    (hg : ∀ x, invariantNode x = true → invariantNode (g x) = true) {q : Node → Bool} :
    ∀ {l : List Node}, invariantForest l = true →
      invariantForest (updateFirst q g l) = true := by
  intro l hl
  induction l with
  | nil => exact hl
  | cons x xs ih =>
    rw [invariantForest] at hl
    simp only [Bool.and_eq_true] at hl
    rw [updateFirst]
    by_cases hq : q x = true
    · simp only [hq, if_true, invariantForest, Bool.and_eq_true]
      exact ⟨hg x hl.1, hl.2⟩
    · simp only [hq, Bool.false_eq_true, if_false, invariantForest, Bool.and_eq_true]
      exact ⟨hl.1, ih hl.2⟩

theorem updateLast_forest_inv {g : Node → Node}
    (hg : ∀ x, invariantNode x = true → invariantNode (g x) = true) {q : Node → Bool} :
    ∀ {l : List Node}, invariantForest l = true →
      invariantForest (updateLast q g l) = true := by
  intro l hl
  induction l with
  | nil => exact hl
  | cons x xs ih =>
    rw [invariantForest] at hl
    simp only [Bool.and_eq_true] at hl
    rw [updateLast]
    by_cases ha : xs.any q = true
    · simp only [ha, if_true, invariantForest, Bool.and_eq_true]
      exact ⟨hl.1, ih hl.2⟩
    · simp only [ha, Bool.false_eq_true, if_false]
      by_cases hq : q x = true
      · simp only [hq, if_true, invariantForest, Bool.and_eq_true]
        exact ⟨hg x hl.1, hl.2⟩
      · simp only [hq, Bool.false_eq_true, if_false, invariantForest, Bool.and_eq_true]
        exact ⟨hl.1, hl.2⟩

theorem all_ext {p q : α → Bool} :
    ∀ {l : List α}, (∀ a ∈ l, p a = q a) → l.all p = l.all q := by
  intro l h
  induction l with
  | nil => rfl
  | cons x xs ih =>
    simp only [List.all_cons, h x (List.mem_cons_self x xs)]
    rw [ih (fun a ha => h a (List.mem_cons_of_mem x ha))]

theorem all_imp {p q : α → Bool} :
    ∀ {l : List α}, (∀ a ∈ l, p a = true → q a = true) → l.all p = true →
      l.all q = true := by
  intro l h hall
  induction l with
  | nil => rfl
  | cons x xs ih =>
    simp only [List.all_cons, Bool.and_eq_true] at hall ⊢
    exact ⟨h x (List.mem_cons_self x xs) hall.1,
      ih (fun a ha => h a (List.mem_cons_of_mem x ha)) hall.2⟩

theorem updateFirst_all {p q : α → Bool} {g : α → α}
    (hg : ∀ x, p x = true → p (g x) = true) :
    ∀ {l : List α}, l.all p = true → (updateFirst q g l).all p = true := by
  intro l hl
  induction l with
  | nil => exact hl
  | cons x xs ih =>
    simp only [List.all_cons, Bool.and_eq_true] at hl
    rw [updateFirst]
    by_cases hq : q x = true
    · simp only [hq, if_true, List.all_cons, Bool.and_eq_true]
      exact ⟨hg x hl.1, hl.2⟩
    · simp only [hq, Bool.false_eq_true, if_false, List.all_cons, Bool.and_eq_true]
      exact ⟨hl.1, ih hl.2⟩

theorem ensureOption_id (n : Node) (d l : String) : (ensureOption n d l).id = n.id := by
  rw [ensureOption]
  by_cases h : n.options.any (fun o => o.digit = d && o.label = l) = true
  · simp [h]
  · simp only [h, Bool.false_eq_true, if_false]
    cases n <;> rfl

theorem linkOptionTarget_id (n : Node) (d v : String) :
    (linkOptionTarget n d v).id = n.id := by
  rw [linkOptionTarget]; cases n <;> rfl

theorem linkOptionTarget_children (n : Node) (d v : String) :
    (linkOptionTarget n d v).children = n.children := by
  rw [linkOptionTarget]; cases n <;> rfl

theorem ensureMenuNode_id (n : Node) (path : List String) (pr : Option String) :
    (ensureMenuNode n path pr).id = n.id := by
  rw [ensureMenuNode.eq_def]
  by_cases h : n.children.any (fun c => c.id = pathId path) = true
  · simp only [h, if_true]
    cases pr with
    | none => rfl
    | some s =>
      dsimp only
      by_cases hs : s ≠ ""
      · rw [if_pos hs]; cases n <;> rfl
      · rw [if_neg hs]
  · simp only [h, Bool.false_eq_true, if_false]
    cases n <;> rfl

theorem upsertChild_id (n c : Node) : (upsertChild n c).id = n.id := by
  rw [upsertChild]
  by_cases h : n.children.any (fun c' => c'.id = c.id) = true
  · simp only [h, if_true]; cases n <;> rfl
  · simp only [h, Bool.false_eq_true, if_false]; cases n <;> rfl

theorem setPrompt_id (n : Node) (s : String) : (n.setPrompt s).id = n.id := by
  cases n <;> rfl

theorem inv_setPrompt (n : Node) (s : String) :
    invariantNode (n.setPrompt s) = invariantNode n := by
  cases n <;> rfl

theorem inv_ensureOption (n : Node) (d l : String) (h : invariantNode n = true) :
    invariantNode (ensureOption n d l) = true := by
  rw [ensureOption]
  by_cases hp : n.options.any (fun o => o.digit = d && o.label = l) = true
  · simp only [hp, if_true]; exact h
  · simp only [hp, Bool.false_eq_true, if_false]
    cases n with
    | mk i pid t conf os cs =>
      simp only [node_options_mk, node_children_mk, node_setOptions_mk]
      rw [invariantNode_mk] at h ⊢
      simp only [Bool.and_eq_true] at h ⊢
      refine ⟨?_, h.2⟩
      rw [List.all_append]
      simp only [Bool.and_eq_true]
      exact ⟨h.1, by simp⟩

theorem inv_linkOptionTarget (n : Node) (d v : String)
    (hv : n.children.any (fun c => c.id = v) = true) (h : invariantNode n = true) :
    invariantNode (linkOptionTarget n d v) = true := by
  rw [linkOptionTarget]
  cases n with
  | mk i pid t conf os cs =>
    rw [Node.setOptions, invariantNode_mk]
    rw [invariantNode_mk] at h
    simp only [Node.options, Node.children] at *
    simp only [Bool.and_eq_true] at h ⊢
    refine ⟨?_, h.2⟩
    apply updateFirst_all _ h.1
    intro x _
    simpa using hv

theorem ensureMenuNode_children_any (n : Node) (path : List String) (pr : Option String) :
    (ensureMenuNode n path pr).children.any (fun c => c.id = pathId path) = true := by
  rw [ensureMenuNode.eq_def]
  by_cases h : n.children.any (fun c => c.id = pathId path) = true
  · simp only [h, if_true]
    cases pr with
    | none => exact h
    | some s =>
      dsimp only
      by_cases hs : s ≠ ""
      · rw [if_pos hs]
        cases n with
        | mk i pid t conf os cs =>
          rw [Node.setChildren]
          simp only [Node.children] at *
          rw [updateFirst_id_any (fun x => setPrompt_id x s)]
          exact h
      · rw [if_neg hs]; exact h
  · simp only [h, Bool.false_eq_true, if_false]
    cases n with
    | mk i pid t conf os cs =>
      rw [Node.setChildren]
      simp only [Node.children] at *
      rw [List.any_append]
      simp [createMenuNode]

theorem inv_ensureMenuNode (n : Node) (path : List String) (pr : Option String)
    (h : invariantNode n = true) : invariantNode (ensureMenuNode n path pr) = true := by
  rw [ensureMenuNode.eq_def]
  by_cases hp : n.children.any (fun c => c.id = pathId path) = true
  · simp only [hp, if_true]
    cases pr with
    | none => exact h
    | some s =>
      dsimp only
      by_cases hs : s ≠ ""
      · rw [if_pos hs]
        cases n with
        | mk i pid t conf os cs =>
          rw [Node.setChildren, invariantNode_mk]
          rw [invariantNode_mk] at h
          simp only [Node.children] at *
          simp only [Bool.and_eq_true] at h ⊢
          constructor
          · refine all_imp ?_ h.1
            intro o _ ho
            cases hot : o.targetNodeId with
            | none => rfl
            | some tg =>
              rw [hot] at ho
              dsimp only at ho ⊢
              rw [updateFirst_id_any (fun x => setPrompt_id x s)]
              exact ho
          · apply updateFirst_forest_inv _ h.2
            intro x hx
            rw [inv_setPrompt]
            exact hx
      · rw [if_neg hs]; exact h
  · simp only [hp, Bool.false_eq_true, if_false]
    cases n with
    | mk i pid t conf os cs =>
      rw [Node.setChildren, invariantNode_mk]
      rw [invariantNode_mk] at h
      simp only [Node.children] at *
      simp only [Bool.and_eq_true] at h ⊢
      constructor
      · apply all_imp _ h.1
        intro o _ ho
        cases hot : o.targetNodeId with
        | none => rfl
        | some tg =>
          rw [hot] at ho
          dsimp only at ho ⊢
          rw [List.any_append]
          simp only [ho, Bool.true_or]
      · rw [invariantForest_append]
        simp only [Bool.and_eq_true]
        refine ⟨h.2, ?_⟩
        simp [invariantForest, createMenuNode, invariantNode_mk]

/-! ### C2: the link invariant is preserved by the merger -/

theorem modifyAtIds_id {f : Node → Node} (hid : ∀ x, (f x).id = x.id) :
    ∀ (is : List String) (n : Node), (modifyAtIds f n is).id = n.id := by
  intro is n
  cases is with
  | nil => exact hid n
  | cons i is => cases n <;> rfl

theorem inv_modifyAtIds {f : Node → Node} (hid : ∀ x, (f x).id = x.id)
    (hf : ∀ x, invariantNode x = true → invariantNode (f x) = true) :
    ∀ (is : List String) (n : Node), invariantNode n = true →
      invariantNode (modifyAtIds f n is) = true := by
  intro is
  induction is with
  | nil => intro n h; exact hf n h
  | cons i is ih =>
    intro n h
    rw [modifyAtIds]
    cases n with
    | mk a pid t conf os cs =>
      simp only [node_children_mk, node_setChildren_mk]
      rw [invariantNode_mk] at h ⊢
      simp only [Bool.and_eq_true] at h ⊢
      constructor
      · refine all_imp ?_ h.1
        intro o _ ho
        cases hot : o.targetNodeId with
        | none => rfl
        | some tg =>
          rw [hot] at ho
          dsimp only at ho ⊢
          rw [updateFirst_id_any (fun x => modifyAtIds_id hid is x)]
          exact ho
      · exact updateFirst_forest_inv (fun x hx => ih x hx) h.2

theorem inv_modifyAt {f : Node → Node} (hid : ∀ x, (f x).id = x.id)
    (hf : ∀ x, invariantNode x = true → invariantNode (f x) = true)
    (root : Node) (p : List String) (h : invariantNode root = true) :
    invariantNode (modifyAt f root p) = true := by
  rw [modifyAt]
  exact inv_modifyAtIds hid hf _ root h

theorem ensureOption_foldl_id :
    ∀ (ps : List (String × String)) (n : Node),
      (ps.foldl (fun n p => ensureOption n p.1 p.2) n).id = n.id := by
  intro ps
  induction ps with
  | nil => intro n; rfl
  | cons p ps ih =>
    intro n
    rw [List.foldl_cons, ih, ensureOption_id]

theorem inv_ensureOption_foldl :
    ∀ (ps : List (String × String)) (n : Node), invariantNode n = true →
      invariantNode (ps.foldl (fun n p => ensureOption n p.1 p.2) n) = true := by
  intro ps
  induction ps with
  | nil => intro n h; exact h
  | cons p ps ih =>
    intro n h
    rw [List.foldl_cons]
    exact ih _ (inv_ensureOption n p.1 p.2 h)

theorem inv_upsertChild_end (n : Node) (i : String) (pid : Option String)
    (content : String) (conf : ℤ) (h : invariantNode n = true) :
    invariantNode (upsertChild n (createEndNode i pid content conf)) = true := by
  rw [upsertChild]
  by_cases hc : n.children.any (fun c => c.id = (createEndNode i pid content conf).id) = true
  · simp only [hc, if_true]
    cases n with
    | mk a pid2 t conf2 os cs =>
      simp only [node_children_mk, node_setChildren_mk]
      rw [invariantNode_mk] at h ⊢
      simp only [Bool.and_eq_true] at h ⊢
      constructor
      · refine all_imp ?_ h.1
        intro o _ ho
        cases hot : o.targetNodeId with
        | none => rfl
        | some tg =>
          rw [hot] at ho
          dsimp only at ho ⊢
          rw [updateLast_id_any ?_]
          · exact ho
          · intro x
            cases x <;> rfl
      · refine updateLast_forest_inv ?_ h.2
        intro x hx
        cases x with
        | mk b pid3 t3 conf3 os3 cs3 =>
          simp only [createEndNode, node_options_mk, node_promptText_mk,
            node_confidence_mk, node_setPrompt_mk, node_setConfidence_mk,
            node_setOptions_mk, List.filter_nil, List.append_nil]
          rw [invariantNode_mk] at hx ⊢
          exact hx
  · simp only [hc, Bool.false_eq_true, if_false]
    cases n with
    | mk a pid2 t conf2 os cs =>
      simp only [node_children_mk, node_setChildren_mk]
      rw [invariantNode_mk] at h ⊢
      simp only [Bool.and_eq_true] at h ⊢
      constructor
      · refine all_imp ?_ h.1
        intro o _ ho
        cases hot : o.targetNodeId with
        | none => rfl
        | some tg =>
          rw [hot] at ho
          dsimp only at ho ⊢
          rw [List.any_append]
          simp only [ho, Bool.true_or]
      · rw [invariantForest_append]
        simp only [Bool.and_eq_true]
        refine ⟨h.2, ?_⟩
        simp [invariantForest, createEndNode, invariantNode_mk]

theorem inv_treeStep (cur : List String) (msg : TranscriptMessage) (root : Node)
    (h : invariantNode root = true) : invariantNode (treeStep cur msg root) = true := by
  rw [treeStep]
  cases hpe : isPressEvent msg with
  | some d =>
    dsimp only
    refine inv_modifyAt ?_ ?_ root cur h
    · intro x
      rw [linkOptionTarget_id, ensureMenuNode_id]
    · intro x hx
      exact inv_linkOptionTarget _ _ _ (ensureMenuNode_children_any x _ none)
        (inv_ensureMenuNode x _ none hx)
  | none =>
    dsimp only
    by_cases hrole : msg.role = "user"
    · rw [if_pos hrole]
      by_cases hopts : parseOptions msg.message ≠ []
      · rw [if_pos hopts]
        refine inv_modifyAt ?_ ?_ root cur h
        · intro x
          rw [ensureOption_foldl_id, setPrompt_id]
        · intro x hx
          refine inv_ensureOption_foldl _ _ ?_
          rw [inv_setPrompt]
          exact hx
      · rw [if_neg hopts]
        by_cases hcur : cur ≠ []
        · rw [if_pos hcur]
          refine inv_modifyAt ?_ ?_ root cur h
          · intro x
            exact upsertChild_id x _
          · intro x hx
            exact inv_upsertChild_end x _ _ _ _ hx
        · rw [if_neg hcur]
          exact h
    · rw [if_neg hrole]
      exact h

theorem inv_foldl_stepMsg :
    ∀ (U : List TranscriptMessage) (s : BuildState), invariantNode s.root = true →
      invariantNode (U.foldl stepMsg s).root = true := by
  intro U
  induction U with
  | nil => intro s h; exact h
  | cons m ms ih =>
    intro s h
    rw [List.foldl_cons]
    apply ih
    rw [stepMsg_eq]
    exact inv_treeStep s.curPath m s.root h

/-- **C2** (invariants): for every transcript and every starting tree
satisfying the link invariant (every non-null `targetNodeId` of an option
equals the id of some entry of the owning node's `children`), the tree
produced by `buildGraphDeterministic` satisfies it as well; a fresh root
satisfies it vacuously, so every tree the merger produces does.  Options
with a null target carry no constraint (they are the pending ones). -/
theorem c2_merger_link_invariant (U : List TranscriptMessage) (T : Option Node)
    (h : ∀ t, T = some t → invariantNode t = true) :
    invariantNode (buildGraphDeterministic U T) = true := by
  rw [buildGraphDeterministic.eq_def]
  cases T with
  | some t => exact inv_foldl_stepMsg U ⟨t, [], []⟩ (h t rfl)
  | none =>
    refine inv_foldl_stepMsg U ⟨_, [], []⟩ ?_
    rw [invariantNode_mk]
    rfl

theorem c2_merger_link_invariant_witness :
    (∀ t, some plainRoot = some t → invariantNode t = true) ∧
    invariantNode (buildGraphDeterministic pressBeforeMenuU (some plainRoot)) = true :=
  ⟨fun t ht => by cases ht; rfl,
   c2_merger_link_invariant pressBeforeMenuU (some plainRoot) (fun t ht => by cases ht; rfl)⟩

/-! ### C1 groundwork: id-string shape lemmas -/

theorem intercalate_go_append (s acc d : String) :
    ∀ (as : List String), String.intercalate.go acc s (as ++ [d]) =
      String.intercalate.go acc s as ++ s ++ d := by
  intro as
  induction as generalizing acc with
  | nil => rfl
  | cons a asr ih =>
    rw [List.cons_append, String.intercalate.go, String.intercalate.go, ih]

theorem joinDash_snoc (p : List String) (d : String) :
    joinDash (p ++ [d]) = if p = [] then d else joinDash p ++ "-" ++ d := by
  cases p with
  | nil => rfl
  | cons a asr =>
    simp only [List.cons_ne_nil, if_false, List.cons_append]
    exact intercalate_go_append "-" a d asr

theorem string_append_left_cancel {a b c : String} (h : a ++ b = a ++ c) : b = c := by
  have h2 : (a ++ b).data = (a ++ c).data := by rw [h]
  simp only [String.data_append] at h2
  exact String.ext (List.append_cancel_left h2)

theorem strOr_of_ne {a : String} (b : String) (h : a ≠ "") : strOr a b = a := by
  rw [strOr, if_neg h]

theorem append_dash_ne_empty (a d : String) : a ++ "-" ++ d ≠ "" := by
  intro h
  have h2 := congrArg String.length h
  simp only [String.length_append] at h2
  have h3 : String.length "-" = 1 := rfl
  have h4 : String.length "" = 0 := rfl
  omega

theorem pathId_snoc_ne_joinDash (p : List String) (d : String) :
    pathId (p ++ [d]) ≠ joinDash p := by
  rw [pathId, joinDash_snoc]
  cases p with
  | nil =>
    simp only [if_true]
    by_cases hd : d = ""
    · subst hd
      intro h
      exact absurd h (by decide)
    · rw [strOr_of_ne _ hd]
      intro h
      exact hd h
  | cons a asr =>
    simp only [List.cons_ne_nil, if_false]
    rw [strOr_of_ne _ (append_dash_ne_empty _ _)]
    intro h
    have h2 := congrArg String.length h
    simp only [String.length_append] at h2
    have h3 : String.length "-" = 1 := rfl
    omega

theorem pathId_snoc_inj {p : List String} {d j : String} (hdj : d ≠ j)
    (hd : d ≠ "") (hj : j ≠ "") : pathId (p ++ [d]) ≠ pathId (p ++ [j]) := by
  rw [pathId, pathId, joinDash_snoc, joinDash_snoc]
  cases p with
  | nil =>
    simp only [if_true]
    rw [strOr_of_ne _ hd, strOr_of_ne _ hj]
    exact hdj
  | cons a asr =>
    simp only [List.cons_ne_nil, if_false]
    rw [strOr_of_ne _ (append_dash_ne_empty _ _), strOr_of_ne _ (append_dash_ne_empty _ _)]
    intro h
    exact hdj (string_append_left_cancel h)

theorem isPressEvent_ne_empty {m : TranscriptMessage} {d : String}
    (h : isPressEvent m = some d) : d ≠ "" := by
  rw [isPressEvent] at h
  by_cases hr : m.role = "assistant"
  · rw [if_pos hr] at h
    cases hscan : pressEventScan m.message.toList with
    | none => rw [hscan] at h; cases h
    | some c =>
      rw [hscan] at h
      simp only [Option.map] at h
      injection h with h2
      intro he
      rw [← h2] at he
      exact absurd (congrArg String.data he) (by simp)
  · rw [if_neg hr] at h
    cases h

/-! ### C1 groundwork: list update/find lemmas -/

theorem find?_append_eq (q : α → Bool) :
    ∀ (l t : List α), (l ++ t).find? q =
      match l.find? q with
      | some c => some c
      | none => t.find? q := by
  intro l t
  induction l with
  | nil => rfl
  | cons x xs ih =>
    by_cases hx : q x = true
    · rw [List.cons_append, List.find?_cons_of_pos _ hx, List.find?_cons_of_pos _ hx]
    · rw [List.cons_append, List.find?_cons_of_neg _ hx, List.find?_cons_of_neg _ hx, ih]

theorem find?_append_some {q : α → Bool} {l : List α} {c : α}
    (h : l.find? q = some c) (t : List α) : (l ++ t).find? q = some c := by
  rw [find?_append_eq, h]

theorem find?_updateFirst_self {q : α → Bool} {g : α → α}
    (hq : ∀ x, q x = true → q (g x) = true) :
    ∀ {l : List α} {c : α}, l.find? q = some c →
      (updateFirst q g l).find? q = some (g c) := by
  intro l
  induction l with
  | nil => intro c h; cases h
  | cons x xs ih =>
    intro c h
    by_cases hx : q x = true
    · rw [List.find?_cons_of_pos _ hx] at h
      injection h with h2
      subst h2
      rw [updateFirst, if_pos hx, List.find?_cons_of_pos _ (hq x hx)]
    · rw [List.find?_cons_of_neg _ hx] at h
      rw [updateFirst, if_neg hx, List.find?_cons_of_neg _ hx]
      exact ih h

theorem find?_updateFirst_disj {q p2 : α → Bool} {g : α → α}
    (h1 : ∀ x, q x = true → p2 x = false) (h2 : ∀ x, q x = true → p2 (g x) = false) :
    ∀ (l : List α), (updateFirst q g l).find? p2 = l.find? p2 := by
  intro l
  induction l with
  | nil => rfl
  | cons x xs ih =>
    by_cases hx : q x = true
    · rw [updateFirst, if_pos hx,
        List.find?_cons_of_neg _ (by rw [h2 x hx]; exact Bool.false_ne_true),
        List.find?_cons_of_neg _ (by rw [h1 x hx]; exact Bool.false_ne_true)]
    · rw [updateFirst, if_neg hx]
      by_cases hp : p2 x = true
      · rw [List.find?_cons_of_pos _ hp, List.find?_cons_of_pos _ hp]
      · rw [List.find?_cons_of_neg _ hp, List.find?_cons_of_neg _ hp, ih]

theorem findLast_nil (q : α → Bool) : findLast q ([] : List α) = none := rfl

theorem findLast_cons (q : α → Bool) (x : α) (xs : List α) :
    findLast q (x :: xs) =
      match findLast q xs with
      | some c => some c
      | none => if q x then some x else none := by
  rw [findLast, findLast, List.reverse_cons, find?_append_eq]
  cases xs.reverse.find? q with
  | some c => rfl
  | none =>
    by_cases hx : q x = true
    · rw [List.find?_cons_of_pos _ hx, if_pos hx]
    · rw [List.find?_cons_of_neg _ hx, if_neg hx]
      rfl

theorem findLast_append_single (q : α → Bool) (l : List α) (x : α) :
    findLast q (l ++ [x]) = if q x then some x else findLast q l := by
  rw [findLast, findLast, List.reverse_append, List.reverse_singleton, List.singleton_append]
  by_cases hx : q x = true
  · rw [List.find?_cons_of_pos _ hx, if_pos hx]
  · rw [List.find?_cons_of_neg _ hx, if_neg hx]

theorem any_eq_findLast_isSome (q : α → Bool) :
    ∀ (l : List α), l.any q = (findLast q l).isSome := by
  intro l
  induction l with
  | nil => rfl
  | cons x xs ih =>
    rw [List.any_cons, findLast_cons]
    cases hfl : findLast q xs with
    | some c => rw [ih, hfl]; simp
    | none =>
      rw [ih, hfl]
      by_cases hx : q x = true
      · simp [hx]
      · simp [hx]

theorem any_of_findLast {q : α → Bool} {l : List α} {c : α}
    (h : findLast q l = some c) : l.any q = true := by
  rw [any_eq_findLast_isSome, h]
  rfl

theorem findLast_updateFirst_disj {q p2 : α → Bool} {g : α → α}
    (h1 : ∀ x, q x = true → p2 x = false) (h2 : ∀ x, q x = true → p2 (g x) = false) :
    ∀ (l : List α), findLast p2 (updateFirst q g l) = findLast p2 l := by
  intro l
  induction l with
  | nil => rfl
  | cons x xs ih =>
    by_cases hx : q x = true
    · rw [updateFirst, if_pos hx, findLast_cons, findLast_cons]
      cases findLast p2 xs with
      | some c => rfl
      | none =>
        rw [if_neg (by rw [h2 x hx]; exact Bool.false_ne_true),
          if_neg (by rw [h1 x hx]; exact Bool.false_ne_true)]
    · rw [updateFirst, if_neg hx, findLast_cons, findLast_cons, ih]

theorem findLast_updateLast_self {q : α → Bool} {g : α → α}
    (hq : ∀ x, q x = true → q (g x) = true) :
    ∀ {l : List α} {c : α}, findLast q l = some c →
      findLast q (updateLast q g l) = some (g c) := by
  intro l
  induction l with
  | nil => intro c h; cases h
  | cons x xs ih =>
    intro c h
    by_cases ha : xs.any q = true
    · rw [updateLast, if_pos ha, findLast_cons]
      rw [findLast_cons] at h
      rw [any_eq_findLast_isSome] at ha
      cases hfl : findLast q xs with
      | none => rw [hfl] at ha; cases ha
      | some c2 =>
        rw [hfl] at h
        injection h with h2
        subst h2
        rw [ih hfl]
    · rw [updateLast, if_neg ha]
      rw [findLast_cons] at h
      have hnone : findLast q xs = none := by
        cases hfl : findLast q xs with
        | none => rfl
        | some c2 => rw [any_eq_findLast_isSome, hfl] at ha; exact absurd rfl ha
      rw [hnone] at h
      by_cases hx : q x = true
      · rw [if_pos hx] at h
        injection h with h2
        subst h2
        rw [if_pos hx, findLast_cons, hnone, if_pos (hq x hx)]
      · rw [if_neg hx] at h
        cases h

theorem updateFirst_identity {q : α → Bool} {g : α → α} :
    ∀ {l : List α}, (∀ c, l.find? q = some c → g c = c) → updateFirst q g l = l := by
  intro l
  induction l with
  | nil => intro h; rfl
  | cons x xs ih =>
    intro h
    by_cases hx : q x = true
    · rw [updateFirst, if_pos hx, h x (List.find?_cons_of_pos _ hx)]
    · rw [updateFirst, if_neg hx,
        ih (fun c hc => h c (by rw [List.find?_cons_of_neg _ hx]; exact hc))]

theorem updateLast_identity {q : α → Bool} {g : α → α} :
    ∀ {l : List α}, (∀ c, findLast q l = some c → g c = c) → updateLast q g l = l := by
  intro l
  induction l with
  | nil => intro h; rfl
  | cons x xs ih =>
    intro h
    by_cases ha : xs.any q = true
    · rw [updateLast, if_pos ha]
      have hih : updateLast q g xs = xs := by
        apply ih
        intro c hc
        apply h
        rw [findLast_cons, hc]
      rw [hih]
    · rw [updateLast, if_neg ha]
      have hnone : findLast q xs = none := by
        cases hfl : findLast q xs with
        | none => rfl
        | some c2 => rw [any_eq_findLast_isSome, hfl] at ha; exact absurd rfl ha
      by_cases hx : q x = true
      · rw [if_pos hx, h x (by rw [findLast_cons, hnone, if_pos hx])]
      · rw [if_neg hx]

theorem setChildren_self (n : Node) : n.setChildren n.children = n := by
  cases n <;> rfl

theorem setOptions_self (n : Node) : n.setOptions n.options = n := by
  cases n <;> rfl

theorem setPrompt_self {n : Node} {v : String} (h : n.promptText = v) :
    n.setPrompt v = n := by
  cases n with
  | mk i pid t conf os cs =>
    rw [node_promptText_mk] at h
    rw [node_setPrompt_mk, h]

/-! ### C1 groundwork: path resolution lemmas -/

theorem children_setChildren (n : Node) (l : List Node) : (n.setChildren l).children = l := by
  cases n <;> rfl

theorem pathIdsAux_append :
    ∀ (xs : List String) (pref ys : List String),
      pathIdsAux pref (xs ++ ys) = pathIdsAux pref xs ++ pathIdsAux (pref ++ xs) ys := by
  intro xs
  induction xs with
  | nil => intro pref ys; rw [List.nil_append, List.append_nil]; rfl
  | cons x xs ih =>
    intro pref ys
    rw [List.cons_append, pathIdsAux, pathIdsAux, ih, List.cons_append]
    rw [show pref ++ x :: xs = pref ++ [x] ++ xs by simp]

theorem resolveIds_append :
    ∀ (xs ys : List String) (n : Node),
      resolveIds n (xs ++ ys) = (resolveIds n xs).bind (fun c => resolveIds c ys) := by
  intro xs
  induction xs with
  | nil => intro ys n; rfl
  | cons i xs ih =>
    intro ys n
    rw [List.cons_append, resolveIds, resolveIds]
    cases n.children.find? (fun c => c.id = i) with
    | some c => exact ih ys c
    | none => rfl

theorem resolveIds_single (n : Node) (i : String) :
    resolveIds n [i] = n.children.find? (fun c => c.id = i) := by
  rw [resolveIds]
  cases n.children.find? (fun c => c.id = i) with
  | some c => rfl
  | none => rfl

theorem resolveNode_snoc (W : Node) (p : List String) (d : String) :
    resolveNode W (p ++ [d]) =
      (resolveNode W p).bind (fun n => n.children.find? (fun c => c.id = pathId (p ++ [d]))) := by
  rw [resolveNode, resolveNode, pathIds, pathIds, pathIdsAux_append, resolveIds_append]
  rw [List.nil_append]
  cases resolveIds W (pathIdsAux [] p) with
  | none => rfl
  | some n =>
    show resolveIds n (pathIdsAux p [d]) =
      n.children.find? (fun c => c.id = pathId (p ++ [d]))
    rw [pathIdsAux, pathIdsAux, resolveIds_single]

theorem modifyAtIds_identity {f : Node → Node} :
    ∀ (is : List String) (n : Node), (∀ m, resolveIds n is = some m → f m = m) →
      modifyAtIds f n is = n := by
  intro is
  induction is with
  | nil => intro n h; exact h n rfl
  | cons i is ih =>
    intro n h
    rw [modifyAtIds]
    have hup : updateFirst (fun c => c.id = i) (fun c => modifyAtIds f c is) n.children =
        n.children := by
      apply updateFirst_identity
      intro c hc
      apply ih
      intro m hm
      apply h
      rw [resolveIds, hc]
      exact hm
    rw [hup, setChildren_self]

theorem modifyAt_identity {f : Node → Node} {W : Node} {p : List String}
    (h : ∀ m, resolveNode W p = some m → f m = m) : modifyAt f W p = W := by
  rw [modifyAt]
  exact modifyAtIds_identity _ _ h

theorem passThru_refl (p : List String) (n : Node) : PassThru p n n :=
  ⟨rfl, rfl, rfl, rfl, fun _ h => h, fun _ h => h⟩

/-! ### C1 groundwork: the transport lemma

How a mutation `modifyAt f · modQ` affects resolution at an arbitrary
digit path: at the mutation's own path the resolved node becomes `f` of
the old one, and at every other path the resolved node passes through
(`PassThru`), provided `f` preserves the node id and never disturbs the
lookup of a digit-shaped child id. -/

theorem master_transport {f : Node → Node} {modQ : List String}
    (hgA : ∀ x, (f x).id = x.id)
    (hgB : ∀ i x c, i ≠ joinDash modQ →
      x.children.find? (fun c2 => c2.id = i) = some c →
      (f x).children.find? (fun c2 => c2.id = i) = some c) :
    ∀ (restMod : List String) (pref : List String) (restQ : List String) (n m : Node),
      pref ++ restMod = modQ →
      (∀ s ∈ restMod, s ≠ "") → (∀ s ∈ restQ, s ≠ "") →
      resolveIds n (pathIdsAux pref restQ) = some m →
      ∃ m2, resolveIds (modifyAtIds f n (pathIdsAux pref restMod)) (pathIdsAux pref restQ) =
          some m2 ∧
        ((restQ = restMod ∧ m2 = f m) ∨ PassThru (pref ++ restQ) m m2) := by
  intro restMod
  induction restMod with
  | nil =>
    intro pref restQ n m hmod hne hneQ h
    rw [List.append_nil] at hmod
    subst hmod
    cases restQ with
    | nil =>
      have h2 : some n = some m := h
      have h3 : n = m := Option.some.inj h2
      subst h3
      exact ⟨f n, rfl, .inl ⟨rfl, rfl⟩⟩
    | cons d ds =>
      rw [pathIdsAux, resolveIds] at h
      cases hfind : n.children.find? (fun c => c.id = pathId (pref ++ [d])) with
      | none => rw [hfind] at h; cases h
      | some c =>
        rw [hfind] at h
        refine ⟨m, ?_, .inr (passThru_refl _ _)⟩
        show resolveIds (f n) (pathIdsAux pref (d :: ds)) = _
        rw [pathIdsAux, resolveIds,
          hgB _ n c (pathId_snoc_ne_joinDash pref d) hfind]
        exact h
  | cons j js ih =>
    intro pref restQ n m hmod hne hneQ h
    rw [pathIdsAux, modifyAtIds]
    cases restQ with
    | nil =>
      have h2 : some n = some m := h
      have h3 : n = m := Option.some.inj h2
      subst h3
      refine ⟨_, rfl, .inr ?_⟩
      cases n with
      | mk a pid t conf os cs =>
        refine ⟨rfl, rfl, rfl, rfl, ?_, ?_⟩
        · intro y hy
          rw [children_setChildren]
          rw [node_children_mk] at hy ⊢
          rw [updateFirst_id_any (fun x => modifyAtIds_id hgA _ x)]
          exact hy
        · intro c hc
          rw [children_setChildren]
          rw [node_children_mk] at hc ⊢
          rw [List.append_nil] at hc ⊢
          have hj := pathId_snoc_ne_joinDash pref j
          rw [findLast_updateFirst_disj ?h1 ?h2]
          · exact hc
          case h1 =>
            intro x hx
            rw [decide_eq_true_eq] at hx
            apply decide_eq_false
            rw [hx]
            exact hj
          case h2 =>
            intro x hx
            rw [decide_eq_true_eq] at hx
            apply decide_eq_false
            rw [modifyAtIds_id hgA _ x, hx]
            exact hj
    | cons d ds =>
      by_cases hdj : d = j
      · subst hdj
        rw [pathIdsAux, resolveIds] at h
        cases hfind : n.children.find? (fun c => c.id = pathId (pref ++ [d])) with
        | none => rw [hfind] at h; cases h
        | some c =>
          rw [hfind] at h
          have hsucc : (pref ++ [d]) ++ js = modQ := by
            rw [← hmod]; simp
          have hself := find?_updateFirst_self (q := fun c2 => c2.id = pathId (pref ++ [d]))
            (g := fun c2 => modifyAtIds f c2 (pathIdsAux (pref ++ [d]) js)) ?hq hfind
          case hq =>
            intro x hx
            rw [decide_eq_true_eq] at hx
            rw [decide_eq_true_eq, modifyAtIds_id hgA _ x]
            exact hx
          obtain ⟨m2, hres, hdisj⟩ := ih (pref ++ [d]) ds c m hsucc
            (fun s hs => hne s (List.mem_cons_of_mem _ hs))
            (fun s hs => hneQ s (List.mem_cons_of_mem _ hs)) h
          refine ⟨m2, ?_, ?_⟩
          · rw [pathIdsAux, resolveIds, children_setChildren, hself]
            exact hres
          · cases hdisj with
            | inl hl => exact .inl ⟨by rw [hl.1], hl.2⟩
            | inr hr =>
              refine .inr ?_
              rw [show pref ++ d :: ds = (pref ++ [d]) ++ ds by simp]
              exact hr
      · rw [pathIdsAux, resolveIds] at h
        cases hfind : n.children.find? (fun c => c.id = pathId (pref ++ [d])) with
        | none => rw [hfind] at h; cases h
        | some c =>
          rw [hfind] at h
          have hne2 : pathId (pref ++ [d]) ≠ pathId (pref ++ [j]) :=
            pathId_snoc_inj hdj (hneQ d (List.mem_cons_self _ _)) (hne j (List.mem_cons_self _ _))
          refine ⟨m, ?_, .inr (passThru_refl _ _)⟩
          rw [pathIdsAux, resolveIds, children_setChildren]
          rw [find?_updateFirst_disj ?h1 ?h2, hfind]
          · exact h
          case h1 =>
            intro x hx
            rw [decide_eq_true_eq] at hx
            apply decide_eq_false
            rw [hx]
            exact fun he => hne2 he.symm
          case h2 =>
            intro x hx
            rw [decide_eq_true_eq] at hx
            apply decide_eq_false
            rw [modifyAtIds_id hgA _ x, hx]
            exact fun he => hne2 he.symm

/-! ### C1 groundwork: per-operation child-lookup stability -/

theorem find?_updateLast_disj {q p2 : α → Bool} {g : α → α}
    (h1 : ∀ x, q x = true → p2 x = false) (h2 : ∀ x, q x = true → p2 (g x) = false) :
    ∀ (l : List α), (updateLast q g l).find? p2 = l.find? p2 := by
  intro l
  induction l with
  | nil => rfl
  | cons x xs ih =>
    by_cases ha : xs.any q = true
    · rw [updateLast, if_pos ha]
      by_cases hp : p2 x = true
      · rw [List.find?_cons_of_pos _ hp, List.find?_cons_of_pos _ hp]
      · rw [List.find?_cons_of_neg _ hp, List.find?_cons_of_neg _ hp, ih]
    · rw [updateLast, if_neg ha]
      by_cases hx : q x = true
      · rw [if_pos hx,
          List.find?_cons_of_neg _ (by rw [h2 x hx]; exact Bool.false_ne_true),
          List.find?_cons_of_neg _ (by rw [h1 x hx]; exact Bool.false_ne_true)]
      · rw [if_neg hx]

theorem setPrompt_children (n : Node) (s : String) : (n.setPrompt s).children = n.children := by
  cases n <;> rfl

theorem setOptions_children (n : Node) (os : List IvrOption) :
    (n.setOptions os).children = n.children := by
  cases n <;> rfl

theorem ensureOption_children (n : Node) (d l : String) :
    (ensureOption n d l).children = n.children := by
  rw [ensureOption]
  by_cases h : n.options.any (fun o => o.digit = d && o.label = l) = true
  · rw [if_pos h]
  · rw [if_neg h, setOptions_children]

theorem foldl_ensureOption_children :
    ∀ (ps : List (String × String)) (n : Node),
      (ps.foldl (fun n p => ensureOption n p.1 p.2) n).children = n.children := by
  intro ps
  induction ps with
  | nil => intro n; rfl
  | cons p ps ih => intro n; rw [List.foldl_cons, ih, ensureOption_children]

theorem opts_find_pres (msgText : String) (x c : Node) (i : String)
    (h : x.children.find? (fun c2 => c2.id = i) = some c) :
    ((parseOptions msgText).foldl (fun n p => ensureOption n p.1 p.2)
      (x.setPrompt (jsTrim msgText))).children.find? (fun c2 => c2.id = i) = some c := by
  rw [foldl_ensureOption_children, setPrompt_children]
  exact h

theorem ensureMenuNode_find_pres (x : Node) (path : List String) (i : String) (c : Node)
    (h : x.children.find? (fun c2 => c2.id = i) = some c) :
    (ensureMenuNode x path none).children.find? (fun c2 => c2.id = i) = some c := by
  rw [ensureMenuNode.eq_def]
  by_cases hp : x.children.any (fun c2 => c2.id = pathId path) = true
  · rw [if_pos hp]
    exact h
  · rw [if_neg hp, children_setChildren, find?_append_some h]

theorem press_find_pres (q : List String) (d : String) (x c : Node) (i : String)
    (h : x.children.find? (fun c2 => c2.id = i) = some c) :
    (linkOptionTarget (ensureMenuNode x (q ++ [d]) none) d
      (pathId (q ++ [d]))).children.find? (fun c2 => c2.id = i) = some c := by
  rw [linkOptionTarget_children]
  exact ensureMenuNode_find_pres x _ i c h

theorem createEndNode_id (i : String) (pid : Option String) (t : String) (conf : ℤ) :
    (createEndNode i pid t conf).id = i := rfl

theorem createMenuNode_id (i : String) (pid : Option String) (t : String) (conf : ℤ) :
    (createMenuNode i pid t conf).id = i := rfl

theorem end_find_pres (q : List String) (v : String) (x c : Node) (i : String)
    (hne : i ≠ joinDash q)
    (h : x.children.find? (fun c2 => c2.id = i) = some c) :
    (upsertChild x (createEndNode (joinDash q) (some x.id) v 90)).children.find?
      (fun c2 => c2.id = i) = some c := by
  rw [upsertChild]
  by_cases hc : x.children.any
      (fun c2 => c2.id = (createEndNode (joinDash q) (some x.id) v 90).id) = true
  · rw [if_pos hc, children_setChildren]
    rw [find?_updateLast_disj ?h1 ?h2]
    · exact h
    case h1 =>
      intro y hy
      rw [decide_eq_true_eq, createEndNode_id] at hy
      apply decide_eq_false
      rw [hy]
      exact fun he => hne he.symm
    case h2 =>
      intro y hy
      rw [decide_eq_true_eq, createEndNode_id] at hy
      apply decide_eq_false
      intro he
      apply hne
      cases y with
      | mk a2 pid2 t2 conf2 os2 cs2 =>
        have he2 : a2 = i := he
        have hy2 : a2 = joinDash q := hy
        rw [← he2]
        exact hy2
  · rw [if_neg hc, children_setChildren]
    exact find?_append_some h _

/-! ### C1 groundwork: transport at the step level -/

theorem transport_resolveNode {f : Node → Node} {modQ : List String}
    (hgA : ∀ x, (f x).id = x.id)
    (hgB : ∀ i x c, i ≠ joinDash modQ →
      x.children.find? (fun c2 => c2.id = i) = some c →
      (f x).children.find? (fun c2 => c2.id = i) = some c)
    {p : List String} (hne : segsNE modQ) (hneQ : segsNE p) {W m : Node}
    (h : resolveNode W p = some m) :
    ∃ m2, resolveNode (modifyAt f W modQ) p = some m2 ∧
      ((p = modQ ∧ m2 = f m) ∨ PassThru p m m2) := by
  rw [resolveNode, pathIds] at h
  rw [modifyAt, resolveNode, pathIds]
  obtain ⟨m2, hres, hd⟩ :=
    master_transport hgA hgB modQ [] p W m (List.nil_append _) hne hneQ h
  refine ⟨m2, hres, ?_⟩
  cases hd with
  | inl hl => exact .inl hl
  | inr hr => exact .inr (by rw [List.nil_append] at hr; exact hr)

theorem treeStep_press_eq {msg : TranscriptMessage} {d : String} (cur : List String) (W : Node)
    (hpe : isPressEvent msg = some d) :
    treeStep cur msg W = modifyAt
      (fun n => linkOptionTarget (ensureMenuNode n (cur ++ [d]) none) d (pathId (cur ++ [d])))
      W cur := by
  rw [treeStep, hpe]

theorem treeStep_opts_eq {msg : TranscriptMessage} (cur : List String) (W : Node)
    (hpe : isPressEvent msg = none) (hrole : msg.role = "user")
    (hopts : parseOptions msg.message ≠ []) :
    treeStep cur msg W = modifyAt
      (fun n => (parseOptions msg.message).foldl (fun n p => ensureOption n p.1 p.2)
        (n.setPrompt (jsTrim msg.message)))
      W cur := by
  rw [treeStep, hpe]
  dsimp only
  rw [if_pos hrole, if_pos hopts]

theorem treeStep_end_eq {msg : TranscriptMessage} (cur : List String) (W : Node)
    (hpe : isPressEvent msg = none) (hrole : msg.role = "user")
    (hopts : parseOptions msg.message = []) (hcur : cur ≠ []) :
    treeStep cur msg W = modifyAt
      (fun n => upsertChild n (createEndNode (joinDash cur) (some n.id) (jsTrim msg.message) 90))
      W cur := by
  rw [treeStep, hpe]
  dsimp only
  rw [if_pos hrole, if_neg (fun hh => hh hopts), if_pos hcur]

theorem treeStep_end_root_eq {msg : TranscriptMessage} (cur : List String) (W : Node)
    (hpe : isPressEvent msg = none) (hrole : msg.role = "user")
    (hopts : parseOptions msg.message = []) (hcur : cur = []) :
    treeStep cur msg W = W := by
  rw [treeStep, hpe]
  dsimp only
  rw [if_pos hrole, if_neg (fun hh => hh hopts), if_neg (fun hh => hh hcur)]

theorem treeStep_skip_eq {msg : TranscriptMessage} (cur : List String) (W : Node)
    (hpe : isPressEvent msg = none) (hrole : ¬(msg.role = "user")) :
    treeStep cur msg W = W := by
  rw [treeStep, hpe]
  dsimp only
  rw [if_neg hrole]

/-! ### C1 groundwork: field stability of the step operations -/

theorem options_setChildren (n : Node) (l : List Node) : (n.setChildren l).options = n.options := by
  cases n <;> rfl

theorem options_setOptions (n : Node) (os : List IvrOption) : (n.setOptions os).options = os := by
  cases n <;> rfl

theorem setPrompt_options (n : Node) (s : String) : (n.setPrompt s).options = n.options := by
  cases n <;> rfl

theorem promptText_setOptions (n : Node) (os : List IvrOption) :
    (n.setOptions os).promptText = n.promptText := by
  cases n <;> rfl

theorem promptText_setChildren (n : Node) (l : List Node) :
    (n.setChildren l).promptText = n.promptText := by
  cases n <;> rfl

theorem promptText_setPrompt (n : Node) (s : String) : (n.setPrompt s).promptText = s := by
  cases n <;> rfl

theorem ensureMenuNode_options (n : Node) (path : List String) :
    (ensureMenuNode n path none).options = n.options := by
  rw [ensureMenuNode.eq_def]
  by_cases hp : n.children.any (fun c => c.id = pathId path) = true
  · rw [if_pos hp]
  · rw [if_neg hp, options_setChildren]

theorem ensureMenuNode_prompt (n : Node) (path : List String) :
    (ensureMenuNode n path none).promptText = n.promptText := by
  rw [ensureMenuNode.eq_def]
  by_cases hp : n.children.any (fun c => c.id = pathId path) = true
  · rw [if_pos hp]
  · rw [if_neg hp, promptText_setChildren]

theorem ensureMenuNode_any_mono (n : Node) (path : List String) (y : String)
    (h : n.children.any (fun c => c.id = y) = true) :
    (ensureMenuNode n path none).children.any (fun c => c.id = y) = true := by
  rw [ensureMenuNode.eq_def]
  by_cases hp : n.children.any (fun c => c.id = pathId path) = true
  · rw [if_pos hp]; exact h
  · rw [if_neg hp, children_setChildren, List.any_append, h, Bool.true_or]

theorem ensureMenuNode_findLast_end (n : Node) (p : List String) (d : String)
    {c : Node} (h : findLast (fun c2 => c2.id = joinDash p) n.children = some c) :
    findLast (fun c2 => c2.id = joinDash p) (ensureMenuNode n (p ++ [d]) none).children =
      some c := by
  rw [ensureMenuNode.eq_def]
  by_cases hp : n.children.any (fun c2 => c2.id = pathId (p ++ [d])) = true
  · rw [if_pos hp]; exact h
  · rw [if_neg hp, children_setChildren, findLast_append_single,
      if_neg (by
        rw [createMenuNode_id]
        simp only [decide_eq_true_eq]
        exact pathId_snoc_ne_joinDash p d)]
    exact h

theorem linkOptionTarget_prompt (n : Node) (d tid : String) :
    (linkOptionTarget n d tid).promptText = n.promptText := by
  rw [linkOptionTarget, promptText_setOptions]

theorem linkOptionTarget_options_eq (n : Node) (d tid : String) :
    (linkOptionTarget n d tid).options = updateFirst (fun o => o.digit = d)
      (fun o => { o with targetNodeId := some tid }) n.options := by
  rw [linkOptionTarget, options_setOptions]

theorem ensureOption_prompt (n : Node) (d l : String) :
    (ensureOption n d l).promptText = n.promptText := by
  rw [ensureOption]
  by_cases h : n.options.any (fun o => o.digit = d && o.label = l) = true
  · rw [if_pos h]
  · rw [if_neg h, promptText_setOptions]

theorem foldl_ensureOption_prompt :
    ∀ (ps : List (String × String)) (n : Node),
      (ps.foldl (fun n p => ensureOption n p.1 p.2) n).promptText = n.promptText := by
  intro ps
  induction ps with
  | nil => intro n; rfl
  | cons p ps ih => intro n; rw [List.foldl_cons, ih, ensureOption_prompt]

theorem ensureOption_find_pres {q : IvrOption → Bool} {o : IvrOption} (n : Node)
    (d l : String) (h : n.options.find? q = some o) :
    (ensureOption n d l).options.find? q = some o := by
  rw [ensureOption]
  by_cases hp : n.options.any (fun o2 => o2.digit = d && o2.label = l) = true
  · rw [if_pos hp]; exact h
  · rw [if_neg hp, options_setOptions]
    exact find?_append_some h _

theorem foldl_ensureOption_find_pres {q : IvrOption → Bool} {o : IvrOption} :
    ∀ (ps : List (String × String)) (n : Node), n.options.find? q = some o →
      ((ps.foldl (fun n p => ensureOption n p.1 p.2) n).options.find? q = some o) := by
  intro ps
  induction ps with
  | nil => intro n h; exact h
  | cons p ps ih =>
    intro n h
    rw [List.foldl_cons]
    exact ih _ (ensureOption_find_pres n p.1 p.2 h)

theorem ensureOption_any_mono {q : IvrOption → Bool} (n : Node) (d l : String)
    (h : n.options.any q = true) : (ensureOption n d l).options.any q = true := by
  rw [ensureOption]
  by_cases hp : n.options.any (fun o2 => o2.digit = d && o2.label = l) = true
  · rw [if_pos hp]; exact h
  · rw [if_neg hp, options_setOptions, List.any_append, h, Bool.true_or]

theorem foldl_ensureOption_any_mono {q : IvrOption → Bool} :
    ∀ (ps : List (String × String)) (n : Node), n.options.any q = true →
      ((ps.foldl (fun n p => ensureOption n p.1 p.2) n).options.any q = true) := by
  intro ps
  induction ps with
  | nil => intro n h; exact h
  | cons p ps ih =>
    intro n h
    rw [List.foldl_cons]
    exact ih _ (ensureOption_any_mono n p.1 p.2 h)

theorem upsertChild_options (n c : Node) : (upsertChild n c).options = n.options := by
  rw [upsertChild]
  by_cases h : n.children.any (fun c2 => c2.id = c.id) = true
  · rw [if_pos h, options_setChildren]
  · rw [if_neg h, options_setChildren]

theorem upsertChild_prompt (n c : Node) : (upsertChild n c).promptText = n.promptText := by
  rw [upsertChild]
  by_cases h : n.children.any (fun c2 => c2.id = c.id) = true
  · rw [if_pos h, promptText_setChildren]
  · rw [if_neg h, promptText_setChildren]

theorem upsertChild_any_mono (n c : Node) (y : String)
    (h : n.children.any (fun c2 => c2.id = y) = true) :
    (upsertChild n c).children.any (fun c2 => c2.id = y) = true := by
  rw [upsertChild]
  by_cases hc : n.children.any (fun c2 => c2.id = c.id) = true
  · rw [if_pos hc, children_setChildren, updateLast_id_any (fun x => by cases x <;> rfl)]
    exact h
  · rw [if_neg hc, children_setChildren, List.any_append, h, Bool.true_or]

theorem updateFirst_any_pres {q q2 : α → Bool} {g : α → α}
    (hg : ∀ x, q2 x = true → q2 (g x) = true) :
    ∀ {l : List α}, l.any q2 = true → (updateFirst q g l).any q2 = true := by
  intro l
  induction l with
  | nil => intro h; exact h
  | cons x xs ih =>
    intro h
    rw [List.any_cons] at h
    by_cases hx : q x = true
    · rw [updateFirst, if_pos hx, List.any_cons]
      rcases Bool.or_eq_true_iff.mp h with h1 | h2
      · rw [hg x h1, Bool.true_or]
      · rw [h2, Bool.or_true]
    · rw [updateFirst, if_neg hx, List.any_cons]
      rcases Bool.or_eq_true_iff.mp h with h1 | h2
      · rw [h1, Bool.true_or]
      · rw [ih h2, Bool.or_true]

/-! ### C1 groundwork: persistence of press facts -/

theorem press_id_pres (q : List String) (d : String) :
    ∀ x : Node,
      (linkOptionTarget (ensureMenuNode x (q ++ [d]) none) d (pathId (q ++ [d]))).id = x.id := by
  intro x
  rw [linkOptionTarget_id, ensureMenuNode_id]

theorem opts_id_pres (t : String) :
    ∀ x : Node, ((parseOptions t).foldl (fun n p => ensureOption n p.1 p.2)
      (x.setPrompt (jsTrim t))).id = x.id := by
  intro x
  rw [ensureOption_foldl_id, setPrompt_id]

theorem end_id_pres (q : List String) (v : String) :
    ∀ x : Node, (upsertChild x (createEndNode (joinDash q) (some x.id) v 90)).id = x.id := by
  intro x
  exact upsertChild_id x _

theorem pressFact_passthru {W2 : Node} {p : List String} {d : String} {m m2 : Node}
    {o : IvrOption}
    (hres2 : resolveNode W2 p = some m2) (hpt : PassThru p m m2)
    (hchild : m.children.any (fun c => c.id = pathId (p ++ [d])) = true)
    (hfind : m.options.find? (fun o2 => o2.digit = d) = some o)
    (htgt : o.targetNodeId = some (pathId (p ++ [d]))) : PressFact W2 p d :=
  ⟨m2, o, hres2, hpt.2.2.2.2.1 _ hchild, by rw [hpt.2.1]; exact hfind, htgt⟩

theorem pressFact_step {W : Node} {p : List String} {d : String} (cur : List String)
    (msg : TranscriptMessage) (hnec : segsNE cur) (hnep : segsNE p)
    (h : PressFact W p d) : PressFact (treeStep cur msg W) p d := by
  obtain ⟨m, o, hres, hchild, hfind, htgt⟩ := h
  cases hpe : isPressEvent msg with
  | some d2 =>
    rw [treeStep_press_eq cur W hpe]
    obtain ⟨m2, hres2, hd⟩ := transport_resolveNode (press_id_pres cur d2)
      (fun i x c hni hf => press_find_pres cur d2 x c i hf) hnec hnep hres
    cases hd with
    | inr hpt => exact pressFact_passthru hres2 hpt hchild hfind htgt
    | inl hl =>
      obtain ⟨hpcur, hm2⟩ := hl
      subst hm2
      subst hpcur
      by_cases hd2 : d2 = d
      · subst hd2
        refine ⟨_, { o with targetNodeId := some (pathId (p ++ [d2])) }, hres2, ?_, ?_, rfl⟩
        · rw [linkOptionTarget_children]
          exact ensureMenuNode_children_any m (p ++ [d2]) none
        · rw [linkOptionTarget_options_eq, ensureMenuNode_options]
          exact find?_updateFirst_self
            (fun x hx => by
              rw [decide_eq_true_eq] at hx
              rw [decide_eq_true_eq]
              exact hx) hfind
      · refine ⟨_, o, hres2, ?_, ?_, htgt⟩
        · rw [linkOptionTarget_children]
          exact ensureMenuNode_any_mono m _ _ hchild
        · rw [linkOptionTarget_options_eq, ensureMenuNode_options]
          rw [find?_updateFirst_disj ?h1 ?h2]
          · exact hfind
          case h1 =>
            intro x hx
            rw [decide_eq_true_eq] at hx
            apply decide_eq_false
            rw [hx]
            exact fun he => hd2 he
          case h2 =>
            intro x hx
            rw [decide_eq_true_eq] at hx
            apply decide_eq_false
            rw [show ({ x with targetNodeId := some (pathId (p ++ [d2])) } : IvrOption).digit
              = x.digit from rfl, hx]
            exact fun he => hd2 he
  | none =>
    by_cases hrole : msg.role = "user"
    · by_cases hopts : parseOptions msg.message = []
      · by_cases hcur : cur = []
        · rw [treeStep_end_root_eq cur W hpe hrole hopts hcur]
          exact ⟨m, o, hres, hchild, hfind, htgt⟩
        · rw [treeStep_end_eq cur W hpe hrole hopts hcur]
          obtain ⟨m2, hres2, hd⟩ := transport_resolveNode (end_id_pres cur (jsTrim msg.message))
            (fun i x c hni hf => end_find_pres cur (jsTrim msg.message) x c i hni hf)
            hnec hnep hres
          cases hd with
          | inr hpt => exact pressFact_passthru hres2 hpt hchild hfind htgt
          | inl hl =>
            obtain ⟨hpcur, hm2⟩ := hl
            subst hm2
            refine ⟨_, o, hres2, ?_, ?_, htgt⟩
            · exact upsertChild_any_mono m _ _ hchild
            · rw [upsertChild_options]
              exact hfind
      · rw [treeStep_opts_eq cur W hpe hrole hopts]
        obtain ⟨m2, hres2, hd⟩ := transport_resolveNode (opts_id_pres msg.message)
          (fun i x c hni hf => opts_find_pres msg.message x c i hf) hnec hnep hres
        cases hd with
        | inr hpt => exact pressFact_passthru hres2 hpt hchild hfind htgt
        | inl hl =>
          obtain ⟨hpcur, hm2⟩ := hl
          subst hm2
          refine ⟨_, o, hres2, ?_, ?_, htgt⟩
          · rw [foldl_ensureOption_children, setPrompt_children]
            exact hchild
          · exact foldl_ensureOption_find_pres _ _ (by rw [setPrompt_options]; exact hfind)
    · rw [treeStep_skip_eq cur W hpe hrole]
      exact ⟨m, o, hres, hchild, hfind, htgt⟩

/-! ### C1 groundwork: persistence of menu and terminal facts -/

theorem confidence_setOptions (n : Node) (os : List IvrOption) :
    (n.setOptions os).confidence = n.confidence := by
  cases n <;> rfl

theorem confidence_setConfidence (n : Node) (k : ℤ) :
    (n.setConfidence k).confidence = k := by
  cases n <;> rfl

theorem promptText_setConfidence (n : Node) (k : ℤ) :
    (n.setConfidence k).promptText = n.promptText := by
  cases n <;> rfl

theorem createEndNode_confidence (i : String) (pid : Option String) (t : String) :
    (createEndNode i pid t 90).confidence = 90 := by
  show max 0 (min 100 90) = (90 : ℤ)
  decide

theorem optsFact_passthru {W2 : Node} {p : List String} {v : String}
    {ps : List (String × String)} {m m2 : Node}
    (hres2 : resolveNode W2 p = some m2) (hpt : PassThru p m m2)
    (hprompt : m.promptText = v)
    (hall : ∀ dl ∈ ps, m.options.any (fun o => o.digit = dl.1 && o.label = dl.2) = true) :
    OptsFact W2 p v ps :=
  ⟨m2, hres2, by rw [hpt.2.2.2.1]; exact hprompt,
   fun dl hdl => by rw [hpt.2.1]; exact hall dl hdl⟩

theorem optsFact_step {W : Node} {p : List String} {v : String} {ps : List (String × String)}
    (cur : List String) (msg : TranscriptMessage) (hnec : segsNE cur) (hnep : segsNE p)
    (hcond : writesPromptStep cur msg (Addr.node p) = true → jsTrim msg.message = v)
    (h : OptsFact W p v ps) : OptsFact (treeStep cur msg W) p v ps := by
  obtain ⟨m, hres, hprompt, hall⟩ := h
  cases hpe : isPressEvent msg with
  | some d2 =>
    rw [treeStep_press_eq cur W hpe]
    obtain ⟨m2, hres2, hd⟩ := transport_resolveNode (press_id_pres cur d2)
      (fun i x c hni hf => press_find_pres cur d2 x c i hf) hnec hnep hres
    cases hd with
    | inr hpt => exact optsFact_passthru hres2 hpt hprompt hall
    | inl hl =>
      obtain ⟨hpcur, hm2⟩ := hl
      subst hm2
      refine ⟨_, hres2, ?_, ?_⟩
      · rw [linkOptionTarget_prompt, ensureMenuNode_prompt]
        exact hprompt
      · intro dl hdl
        rw [linkOptionTarget_options_eq, ensureMenuNode_options]
        exact updateFirst_any_pres
          (g := fun o => { o with targetNodeId := some (pathId (cur ++ [d2])) })
          (fun x hx => hx) (hall dl hdl)
  | none =>
    by_cases hrole : msg.role = "user"
    · by_cases hopts : parseOptions msg.message = []
      · by_cases hcur : cur = []
        · rw [treeStep_end_root_eq cur W hpe hrole hopts hcur]
          exact ⟨m, hres, hprompt, hall⟩
        · rw [treeStep_end_eq cur W hpe hrole hopts hcur]
          obtain ⟨m2, hres2, hd⟩ := transport_resolveNode (end_id_pres cur (jsTrim msg.message))
            (fun i x c hni hf => end_find_pres cur (jsTrim msg.message) x c i hni hf)
            hnec hnep hres
          cases hd with
          | inr hpt => exact optsFact_passthru hres2 hpt hprompt hall
          | inl hl =>
            obtain ⟨hpcur, hm2⟩ := hl
            subst hm2
            refine ⟨_, hres2, ?_, ?_⟩
            · rw [upsertChild_prompt]
              exact hprompt
            · intro dl hdl
              rw [upsertChild_options]
              exact hall dl hdl
      · rw [treeStep_opts_eq cur W hpe hrole hopts]
        obtain ⟨m2, hres2, hd⟩ := transport_resolveNode (opts_id_pres msg.message)
          (fun i x c hni hf => opts_find_pres msg.message x c i hf) hnec hnep hres
        cases hd with
        | inr hpt => exact optsFact_passthru hres2 hpt hprompt hall
        | inl hl =>
          obtain ⟨hpcur, hm2⟩ := hl
          subst hm2
          have hw : writesPromptStep cur msg (Addr.node p) = true := by
            rw [writesPromptStep, hpe]
            dsimp only
            rw [if_pos hrole, if_pos hopts]
            rw [hpcur]
            exact decide_eq_true rfl
          have hveq := hcond hw
          refine ⟨_, hres2, ?_, ?_⟩
          · rw [foldl_ensureOption_prompt, promptText_setPrompt]
            exact hveq
          · intro dl hdl
            exact foldl_ensureOption_any_mono _ _
              (by rw [setPrompt_options]; exact hall dl hdl)
    · rw [treeStep_skip_eq cur W hpe hrole]
      exact ⟨m, hres, hprompt, hall⟩

theorem upsertChild_end_merge {m : Node} {p : List String} {c : Node} (v2 : String)
    (hfl : findLast (fun c2 => c2.id = joinDash p) m.children = some c) :
    ∃ c2, findLast (fun c3 => c3.id = joinDash p)
        (upsertChild m (createEndNode (joinDash p) (some m.id) v2 90)).children = some c2 ∧
      90 ≤ c2.confidence ∧ c2.promptText = strOr v2 c.promptText ∧
      c.confidence ≤ c2.confidence := by
  have hany : m.children.any
      (fun c2 => c2.id = (createEndNode (joinDash p) (some m.id) v2 90).id) = true :=
    any_of_findLast hfl
  have hfl2 : findLast
      (fun c2 => c2.id = (createEndNode (joinDash p) (some m.id) v2 90).id) m.children =
      some c := hfl
  rw [upsertChild, if_pos hany, children_setChildren]
  refine ⟨_, findLast_updateLast_self (fun x hx => ?_) hfl2, ?_, ?_, ?_⟩
  · cases x with
    | mk a2 pid2 t2 conf2 os2 cs2 => exact hx
  · cases c with
    | mk a2 pid2 t2 conf2 os2 cs2 =>
      show (90 : ℤ) ≤ max conf2 (max 0 (min 100 90))
      have h90 : (max 0 (min 100 90) : ℤ) = 90 := by decide
      rw [h90]
      exact le_max_right _ _
  · cases c with
    | mk a2 pid2 t2 conf2 os2 cs2 => rfl
  · cases c with
    | mk a2 pid2 t2 conf2 os2 cs2 =>
      show conf2 ≤ max conf2 (max 0 (min 100 90))
      exact le_max_left _ _

theorem endFact_passthru {W2 : Node} {p : List String} {v : String} {m m2 c : Node}
    (hres2 : resolveNode W2 p = some m2) (hpt : PassThru p m m2)
    (hfl : findLast (fun c2 => c2.id = joinDash p) m.children = some c)
    (hconf : 90 ≤ c.confidence) (hpr : v = "" ∨ c.promptText = v) : EndFact W2 p v :=
  ⟨m2, c, hres2, hpt.2.2.2.2.2 _ hfl, hconf, hpr⟩

theorem endFact_step {W : Node} {p : List String} {v : String}
    (cur : List String) (msg : TranscriptMessage) (hnec : segsNE cur) (hnep : segsNE p)
    (hcond : v ≠ "" → writesPromptStep cur msg (Addr.endc p) = true → jsTrim msg.message = v)
    (h : EndFact W p v) : EndFact (treeStep cur msg W) p v := by
  obtain ⟨m, c, hres, hfl, hconf, hpr⟩ := h
  cases hpe : isPressEvent msg with
  | some d2 =>
    rw [treeStep_press_eq cur W hpe]
    obtain ⟨m2, hres2, hd⟩ := transport_resolveNode (press_id_pres cur d2)
      (fun i x c hni hf => press_find_pres cur d2 x c i hf) hnec hnep hres
    cases hd with
    | inr hpt => exact endFact_passthru hres2 hpt hfl hconf hpr
    | inl hl =>
      obtain ⟨hpcur, hm2⟩ := hl
      subst hm2
      subst hpcur
      refine ⟨_, c, hres2, ?_, hconf, hpr⟩
      rw [linkOptionTarget_children]
      exact ensureMenuNode_findLast_end m p d2 hfl
  | none =>
    by_cases hrole : msg.role = "user"
    · by_cases hopts : parseOptions msg.message = []
      · by_cases hcur : cur = []
        · rw [treeStep_end_root_eq cur W hpe hrole hopts hcur]
          exact ⟨m, c, hres, hfl, hconf, hpr⟩
        · rw [treeStep_end_eq cur W hpe hrole hopts hcur]
          obtain ⟨m2, hres2, hd⟩ := transport_resolveNode (end_id_pres cur (jsTrim msg.message))
            (fun i x c2 hni hf => end_find_pres cur (jsTrim msg.message) x c2 i hni hf)
            hnec hnep hres
          cases hd with
          | inr hpt => exact endFact_passthru hres2 hpt hfl hconf hpr
          | inl hl =>
            obtain ⟨hpcur, hm2⟩ := hl
            subst hm2
            subst hpcur
            obtain ⟨c2, hfl2, h90, hpr2, hmon⟩ := upsertChild_end_merge (jsTrim msg.message) hfl
            refine ⟨_, c2, hres2, hfl2, h90, ?_⟩
            by_cases hvv : v = ""
            · exact .inl hvv
            by_cases hv2 : jsTrim msg.message = ""
            · cases hpr with
              | inl hve => exact absurd hve hvv
              | inr hcp =>
                right
                rw [hpr2, hv2]
                show strOr "" c.promptText = v
                rw [strOr, if_pos rfl]
                exact hcp
            · have hw : writesPromptStep p msg (Addr.endc p) = true := by
                rw [writesPromptStep, hpe]
                dsimp only
                rw [if_pos hrole, if_neg (fun hh => hh hopts)]
                simp [hcur, hv2]
              have hveq := hcond hvv hw
              right
              rw [hpr2, strOr_of_ne _ hv2]
              exact hveq
      · rw [treeStep_opts_eq cur W hpe hrole hopts]
        obtain ⟨m2, hres2, hd⟩ := transport_resolveNode (opts_id_pres msg.message)
          (fun i x c2 hni hf => opts_find_pres msg.message x c2 i hf) hnec hnep hres
        cases hd with
        | inr hpt => exact endFact_passthru hres2 hpt hfl hconf hpr
        | inl hl =>
          obtain ⟨hpcur, hm2⟩ := hl
          subst hm2
          refine ⟨_, c, hres2, ?_, hconf, hpr⟩
          rw [foldl_ensureOption_children, setPrompt_children]
          exact hfl
    · rw [treeStep_skip_eq cur W hpe hrole]
      exact ⟨m, c, hres, hfl, hconf, hpr⟩

/-! ### C1 groundwork: run-level persistence -/

theorem find?_of_any {q : α → Bool} :
    ∀ {l : List α}, l.any q = true → ∃ c, l.find? q = some c := by
  intro l
  induction l with
  | nil => intro h; cases h
  | cons x xs ih =>
    intro h
    by_cases hx : q x = true
    · exact ⟨x, List.find?_cons_of_pos _ hx⟩
    · rw [List.any_cons] at h
      rcases Bool.or_eq_true_iff.mp h with h1 | h2
      · exact absurd h1 hx
      · obtain ⟨c, hc⟩ := ih h2
        exact ⟨c, by rw [List.find?_cons_of_neg _ hx]; exact hc⟩

theorem resolveIds_modifyAtIds_self {f : Node → Node} (hgA : ∀ x, (f x).id = x.id) :
    ∀ (is : List String) (n m : Node), resolveIds n is = some m →
      resolveIds (modifyAtIds f n is) is = some (f m) := by
  intro is
  induction is with
  | nil =>
    intro n m h
    have h2 : some n = some m := h
    have h3 : n = m := Option.some.inj h2
    subst h3
    rfl
  | cons i is ih =>
    intro n m h
    rw [resolveIds] at h
    cases hfind : n.children.find? (fun c => c.id = i) with
    | none => rw [hfind] at h; cases h
    | some c =>
      rw [hfind] at h
      rw [modifyAtIds, resolveIds, children_setChildren]
      rw [find?_updateFirst_self (fun x hx => by
        rw [decide_eq_true_eq] at hx
        rw [decide_eq_true_eq, modifyAtIds_id hgA _ x]
        exact hx) hfind]
      exact ih c m h

theorem resolveNode_modifyAt_self {f : Node → Node} (hgA : ∀ x, (f x).id = x.id)
    {W : Node} {p : List String} {m : Node} (h : resolveNode W p = some m) :
    resolveNode (modifyAt f W p) p = some (f m) := by
  rw [resolveNode, pathIds] at h
  rw [modifyAt, resolveNode, pathIds]
  exact resolveIds_modifyAtIds_self hgA _ W m h

theorem treeStep_transport {W : Node} {p : List String} {m : Node} (cur : List String)
    (msg : TranscriptMessage) (hnec : segsNE cur) (hnep : segsNE p)
    (hres : resolveNode W p = some m) :
    ∃ m2, resolveNode (treeStep cur msg W) p = some m2 := by
  cases hpe : isPressEvent msg with
  | some d2 =>
    rw [treeStep_press_eq cur W hpe]
    obtain ⟨m2, hres2, hd⟩ := transport_resolveNode (press_id_pres cur d2)
      (fun i x c hni hf => press_find_pres cur d2 x c i hf) hnec hnep hres
    exact ⟨m2, hres2⟩
  | none =>
    by_cases hrole : msg.role = "user"
    · by_cases hopts : parseOptions msg.message = []
      · by_cases hcur : cur = []
        · rw [treeStep_end_root_eq cur W hpe hrole hopts hcur]
          exact ⟨m, hres⟩
        · rw [treeStep_end_eq cur W hpe hrole hopts hcur]
          obtain ⟨m2, hres2, hd⟩ := transport_resolveNode (end_id_pres cur (jsTrim msg.message))
            (fun i x c hni hf => end_find_pres cur (jsTrim msg.message) x c i hni hf)
            hnec hnep hres
          exact ⟨m2, hres2⟩
      · rw [treeStep_opts_eq cur W hpe hrole hopts]
        obtain ⟨m2, hres2, hd⟩ := transport_resolveNode (opts_id_pres msg.message)
          (fun i x c hni hf => opts_find_pres msg.message x c i hf) hnec hnep hres
        exact ⟨m2, hres2⟩
    · rw [treeStep_skip_eq cur W hpe hrole]
      exact ⟨m, hres⟩

theorem stepMsg_root (s : BuildState) (m : TranscriptMessage) :
    (stepMsg s m).root = treeStep s.curPath m s.root := by
  rw [stepMsg_eq]

theorem stepMsg_curPath (s : BuildState) (m : TranscriptMessage) :
    (stepMsg s m).curPath = (cursorStep (s.curPath, s.stack) m).1 := by
  rw [stepMsg_eq]

theorem stepMsg_stack (s : BuildState) (m : TranscriptMessage) :
    (stepMsg s m).stack = (cursorStep (s.curPath, s.stack) m).2 := by
  rw [stepMsg_eq]

theorem stepMsg_cursor_pair (s : BuildState) (m : TranscriptMessage) :
    ((stepMsg s m).curPath, (stepMsg s m).stack) = cursorStep (s.curPath, s.stack) m := by
  rw [stepMsg_curPath, stepMsg_stack]

theorem segsOK_step {cur : List String} {st : List (List String)} (msg : TranscriptMessage)
    (h : segsOK cur st) :
    segsOK (cursorStep (cur, st) msg).1 (cursorStep (cur, st) msg).2 := by
  obtain ⟨hc, hs⟩ := h
  rw [cursorStep]
  cases hpe : isPressEvent msg with
  | some d =>
    dsimp only
    refine ⟨?_, ?_⟩
    · intro x hx
      rcases List.mem_append.mp hx with h1 | h2
      · exact hc x h1
      · rw [List.mem_singleton] at h2
        subst h2
        exact isPressEvent_ne_empty hpe
    · intro q hq
      rcases List.mem_cons.mp hq with h1 | h2
      · subst h1; exact hc
      · exact hs q h2
  | none =>
    dsimp only
    by_cases hrole : msg.role = "user"
    · rw [if_pos hrole]
      by_cases hopts : parseOptions msg.message ≠ []
      · rw [if_pos hopts]
        exact ⟨hc, hs⟩
      · rw [if_neg hopts]
        cases st with
        | nil => exact ⟨fun x hx => absurd hx (List.not_mem_nil x), fun q hq => absurd hq (List.not_mem_nil q)⟩
        | cons q qs =>
          refine ⟨hs q (List.mem_cons_self _ _), fun r hr => hs r (List.mem_cons_of_mem _ hr)⟩
    · rw [if_neg hrole]
      exact ⟨hc, hs⟩

theorem pathsOK_step {W : Node} {cur : List String} {st : List (List String)}
    (msg : TranscriptMessage) (hok : pathsOK W cur st) (hsok : segsOK cur st) :
    pathsOK (treeStep cur msg W) (cursorStep (cur, st) msg).1 (cursorStep (cur, st) msg).2 := by
  obtain ⟨hcur, hst⟩ := hok
  obtain ⟨hsc, hss⟩ := hsok
  have hpres : ∀ q, segsNE q → (resolveNode W q).isSome = true →
      (resolveNode (treeStep cur msg W) q).isSome = true := by
    intro q hq hqs
    obtain ⟨m, hm⟩ := Option.isSome_iff_exists.mp hqs
    obtain ⟨m2, hm2⟩ := treeStep_transport cur msg hsc hq hm
    rw [hm2]
    rfl
  rw [cursorStep]
  cases hpe : isPressEvent msg with
  | some d =>
    dsimp only
    refine ⟨?_, ?_⟩
    · obtain ⟨m, hm⟩ := Option.isSome_iff_exists.mp hcur
      rw [treeStep_press_eq cur W hpe]
      have hself := resolveNode_modifyAt_self (press_id_pres cur d) hm
      rw [resolveNode_snoc, hself]
      have hany : (linkOptionTarget (ensureMenuNode m (cur ++ [d]) none) d
          (pathId (cur ++ [d]))).children.any (fun c => c.id = pathId (cur ++ [d])) = true := by
        rw [linkOptionTarget_children]
        exact ensureMenuNode_children_any m _ none
      obtain ⟨c, hc⟩ := find?_of_any hany
      show ((linkOptionTarget (ensureMenuNode m (cur ++ [d]) none) d
        (pathId (cur ++ [d]))).children.find? (fun c => c.id = pathId (cur ++ [d]))).isSome = true
      rw [hc]
      rfl
    · intro q hq
      rcases List.mem_cons.mp hq with h1 | h2
      · subst h1
        exact hpres q hsc hcur
      · exact hpres q (hss q h2) (hst q h2)
  | none =>
    dsimp only
    by_cases hrole : msg.role = "user"
    · rw [if_pos hrole]
      by_cases hopts : parseOptions msg.message ≠ []
      · rw [if_pos hopts]
        exact ⟨hpres cur hsc hcur, fun q hq => hpres q (hss q hq) (hst q hq)⟩
      · rw [if_neg hopts]
        cases st with
        | nil =>
          refine ⟨rfl, fun q hq => absurd hq (List.not_mem_nil q)⟩
        | cons q qs =>
          refine ⟨hpres q (hss q (List.mem_cons_self _ _)) (hst q (List.mem_cons_self _ _)),
            fun r hr => hpres r (hss r (List.mem_cons_of_mem _ hr))
              (hst r (List.mem_cons_of_mem _ hr))⟩
    · rw [if_neg hrole]
      exact ⟨hpres cur hsc hcur, fun q hq => hpres q (hss q hq) (hst q hq)⟩

theorem pressFact_run {p : List String} {d : String} :
    ∀ (rest : List TranscriptMessage) (s : BuildState), segsNE p →
      segsOK s.curPath s.stack → PressFact s.root p d →
      PressFact ((rest.foldl stepMsg s).root) p d := by
  intro rest
  induction rest with
  | nil => intro s hp hok h; exact h
  | cons m ms ih =>
    intro s hp hok h
    rw [List.foldl_cons]
    refine ih (stepMsg s m) hp ?_ ?_
    · rw [stepMsg_curPath, stepMsg_stack]
      exact segsOK_step m hok
    · rw [stepMsg_root]
      exact pressFact_step s.curPath m hok.1 hp h

theorem optsFact_run {p : List String} {v : String} {ps : List (String × String)} :
    ∀ (rest : List TranscriptMessage) (s : BuildState), segsNE p →
      segsOK s.curPath s.stack →
      writesAgree (s.curPath, s.stack) rest (Addr.node p) v = true →
      OptsFact s.root p v ps → OptsFact ((rest.foldl stepMsg s).root) p v ps := by
  intro rest
  induction rest with
  | nil => intro s hp hok hwa h; exact h
  | cons m ms ih =>
    intro s hp hok hwa h
    rw [writesAgree] at hwa
    obtain ⟨hw1, hw2⟩ := Bool.and_eq_true_iff.mp hwa
    rw [List.foldl_cons]
    refine ih (stepMsg s m) hp ?_ ?_ ?_
    · rw [stepMsg_curPath, stepMsg_stack]
      exact segsOK_step m hok
    · rw [stepMsg_curPath, stepMsg_stack, Prod.mk.eta]
      exact hw2
    · rw [stepMsg_root]
      refine optsFact_step s.curPath m hok.1 hp ?_ h
      intro hw
      rcases Bool.or_eq_true_iff.mp hw1 with h1 | h2
      · rw [hw] at h1
        cases h1
      · exact of_decide_eq_true h2

theorem endFact_run {p : List String} {v : String} :
    ∀ (rest : List TranscriptMessage) (s : BuildState), segsNE p →
      segsOK s.curPath s.stack →
      (v ≠ "" → writesAgree (s.curPath, s.stack) rest (Addr.endc p) v = true) →
      EndFact s.root p v → EndFact ((rest.foldl stepMsg s).root) p v := by
  intro rest
  induction rest with
  | nil => intro s hp hok hwa h; exact h
  | cons m ms ih =>
    intro s hp hok hwa h
    rw [List.foldl_cons]
    refine ih (stepMsg s m) hp ?_ ?_ ?_
    · rw [stepMsg_curPath, stepMsg_stack]
      exact segsOK_step m hok
    · intro hv
      have hwa2 := hwa hv
      rw [writesAgree] at hwa2
      obtain ⟨hw1, hw2⟩ := Bool.and_eq_true_iff.mp hwa2
      rw [stepMsg_curPath, stepMsg_stack, Prod.mk.eta]
      exact hw2
    · rw [stepMsg_root]
      refine endFact_step s.curPath m hok.1 hp ?_ h
      intro hv hw
      have hwa2 := hwa hv
      rw [writesAgree] at hwa2
      obtain ⟨hw1, hw2⟩ := Bool.and_eq_true_iff.mp hwa2
      rcases Bool.or_eq_true_iff.mp hw1 with h1 | h2
      · rw [hw] at h1
        cases h1
      · exact of_decide_eq_true h2

/-! ### C1 groundwork: establishment and re-run identity of each step -/

theorem ensureOption_ensures (n : Node) (d l : String) :
    (ensureOption n d l).options.any (fun o => o.digit = d && o.label = l) = true := by
  rw [ensureOption]
  by_cases h : n.options.any (fun o => o.digit = d && o.label = l) = true
  · rw [if_pos h]
    exact h
  · rw [if_neg h, options_setOptions, List.any_append]
    simp

theorem foldl_ensureOption_all_present :
    ∀ (ps : List (String × String)) (n : Node) (dl : String × String), dl ∈ ps →
      ((ps.foldl (fun n p => ensureOption n p.1 p.2) n).options.any
        (fun o => o.digit = dl.1 && o.label = dl.2)) = true := by
  intro ps
  induction ps with
  | nil => intro n dl hdl; cases hdl
  | cons p ps ih =>
    intro n dl hdl
    rw [List.foldl_cons]
    rcases List.mem_cons.mp hdl with h1 | h2
    · subst h1
      exact foldl_ensureOption_any_mono _ _ (ensureOption_ensures n dl.1 dl.2)
    · exact ih _ dl h2

theorem foldl_ensureOption_identity :
    ∀ (ps : List (String × String)) (n : Node),
      (∀ dl ∈ ps, n.options.any (fun o => o.digit = dl.1 && o.label = dl.2) = true) →
      ps.foldl (fun n p => ensureOption n p.1 p.2) n = n := by
  intro ps
  induction ps with
  | nil => intro n h; rfl
  | cons p ps ih =>
    intro n h
    rw [List.foldl_cons]
    have hself : ensureOption n p.1 p.2 = n := by
      rw [ensureOption, if_pos (h p (List.mem_cons_self _ _))]
    rw [hself]
    exact ih n (fun dl hdl => h dl (List.mem_cons_of_mem _ hdl))

theorem pressFact_establish {W : Node} {cur : List String} {d : String} {n : Node}
    (hres : resolveNode W cur = some n)
    (hany : n.options.any (fun o => o.digit = d) = true)
    (msg : TranscriptMessage) (hpe : isPressEvent msg = some d) :
    PressFact (treeStep cur msg W) cur d := by
  rw [treeStep_press_eq cur W hpe]
  have hres2 := resolveNode_modifyAt_self (press_id_pres cur d) hres
  obtain ⟨o, ho⟩ := find?_of_any hany
  refine ⟨_, { o with targetNodeId := some (pathId (cur ++ [d])) }, hres2, ?_, ?_, rfl⟩
  · rw [linkOptionTarget_children]
    exact ensureMenuNode_children_any n (cur ++ [d]) none
  · rw [linkOptionTarget_options_eq, ensureMenuNode_options]
    exact find?_updateFirst_self
      (g := fun o => { o with targetNodeId := some (pathId (cur ++ [d])) })
      (fun x hx => hx) ho

theorem optsFact_establish {W : Node} {cur : List String} {n : Node}
    (hres : resolveNode W cur = some n)
    (msg : TranscriptMessage) (hpe : isPressEvent msg = none)
    (hrole : msg.role = "user") (hopts : parseOptions msg.message ≠ []) :
    OptsFact (treeStep cur msg W) cur (jsTrim msg.message) (parseOptions msg.message) := by
  rw [treeStep_opts_eq cur W hpe hrole hopts]
  have hres2 := resolveNode_modifyAt_self (opts_id_pres msg.message) hres
  refine ⟨_, hres2, ?_, ?_⟩
  · rw [foldl_ensureOption_prompt, promptText_setPrompt]
  · intro dl hdl
    exact foldl_ensureOption_all_present _ _ dl hdl

theorem endFact_establish {W : Node} {cur : List String} {n : Node}
    (hres : resolveNode W cur = some n)
    (msg : TranscriptMessage) (hpe : isPressEvent msg = none)
    (hrole : msg.role = "user") (hopts : parseOptions msg.message = [])
    (hcur : cur ≠ []) :
    EndFact (treeStep cur msg W) cur (jsTrim msg.message) := by
  rw [treeStep_end_eq cur W hpe hrole hopts hcur]
  have hres2 := resolveNode_modifyAt_self (end_id_pres cur (jsTrim msg.message)) hres
  by_cases hex : n.children.any
      (fun c2 => c2.id = (createEndNode (joinDash cur) (some n.id) (jsTrim msg.message) 90).id)
        = true
  · have hfl0 : (findLast (fun c2 => c2.id = joinDash cur) n.children).isSome = true := by
      rw [← any_eq_findLast_isSome]
      exact hex
    obtain ⟨c, hc⟩ := Option.isSome_iff_exists.mp hfl0
    obtain ⟨c2, hfl2, h90, hpr2, hmon⟩ := upsertChild_end_merge (jsTrim msg.message) hc
    refine ⟨_, c2, hres2, hfl2, h90, ?_⟩
    by_cases hv : jsTrim msg.message = ""
    · exact .inl hv
    · right
      rw [hpr2, strOr_of_ne _ hv]
  · refine ⟨_, createEndNode (joinDash cur) (some n.id) (jsTrim msg.message) 90, hres2, ?_, ?_, ?_⟩
    · rw [upsertChild, if_neg hex, children_setChildren, findLast_append_single,
        if_pos (by rw [createEndNode_id]; exact decide_eq_true rfl)]
    · rw [createEndNode_confidence]
    · by_cases hv : jsTrim msg.message = ""
      · exact .inl hv
      · exact .inr rfl

theorem press_ident {T : Node} {p : List String} {d : String} {msg : TranscriptMessage}
    (hpe : isPressEvent msg = some d) (h : PressFact T p d) : treeStep p msg T = T := by
  rw [treeStep_press_eq p T hpe]
  apply modifyAt_identity
  intro m2 hm2
  obtain ⟨m, o, hres, hchild, hfind, htgt⟩ := h
  rw [hres] at hm2
  have hm3 : m = m2 := Option.some.inj hm2
  subst hm3
  have hE : ensureMenuNode m (p ++ [d]) none = m := by
    rw [ensureMenuNode.eq_def, if_pos hchild]
  rw [hE, linkOptionTarget]
  have hup : updateFirst (fun o2 => o2.digit = d)
      (fun o2 => { o2 with targetNodeId := some (pathId (p ++ [d])) }) m.options =
      m.options := by
    apply updateFirst_identity
    intro c hc
    rw [hfind] at hc
    have hc2 : o = c := Option.some.inj hc
    subst hc2
    cases o with
    | mk d0 l0 t0 =>
      have ht : t0 = some (pathId (p ++ [d])) := htgt
      rw [ht]
  rw [hup, setOptions_self]

theorem opts_ident {T : Node} {p : List String} {msg : TranscriptMessage}
    (hpe : isPressEvent msg = none) (hrole : msg.role = "user")
    (hopts : parseOptions msg.message ≠ [])
    (h : OptsFact T p (jsTrim msg.message) (parseOptions msg.message)) :
    treeStep p msg T = T := by
  rw [treeStep_opts_eq p T hpe hrole hopts]
  apply modifyAt_identity
  intro m2 hm2
  obtain ⟨m, hres, hprompt, hall⟩ := h
  rw [hres] at hm2
  have hm3 : m = m2 := Option.some.inj hm2
  subst hm3
  rw [setPrompt_self hprompt]
  exact foldl_ensureOption_identity _ m hall

theorem end_ident {T : Node} {p : List String} {msg : TranscriptMessage}
    (hpe : isPressEvent msg = none) (hrole : msg.role = "user")
    (hopts : parseOptions msg.message = []) (hcur : p ≠ [])
    (h : EndFact T p (jsTrim msg.message)) : treeStep p msg T = T := by
  rw [treeStep_end_eq p T hpe hrole hopts hcur]
  apply modifyAt_identity
  intro m2 hm2
  obtain ⟨m, c, hres, hfl, hconf, hpr⟩ := h
  rw [hres] at hm2
  have hm3 : m = m2 := Option.some.inj hm2
  subst hm3
  have hfl2 : findLast (fun c2 => c2.id =
      (createEndNode (joinDash p) (some m.id) (jsTrim msg.message) 90).id) m.children =
      some c := hfl
  have hany : m.children.any (fun c2 => c2.id =
      (createEndNode (joinDash p) (some m.id) (jsTrim msg.message) 90).id) = true :=
    any_of_findLast hfl2
  rw [upsertChild, if_pos hany]
  have hup : updateLast (fun c2 => c2.id =
      (createEndNode (joinDash p) (some m.id) (jsTrim msg.message) 90).id)
      (fun existing =>
        let seen := existing.options.map optKey
        ((existing.setPrompt (strOr
            (createEndNode (joinDash p) (some m.id) (jsTrim msg.message) 90).promptText
            existing.promptText)).setConfidence
          (max existing.confidence
            (createEndNode (joinDash p) (some m.id) (jsTrim msg.message) 90).confidence)).setOptions
          (existing.options ++
            (createEndNode (joinDash p) (some m.id) (jsTrim msg.message) 90).options.filter
              (fun o => !(seen.contains (optKey o)))))
      m.children = m.children := by
    apply updateLast_identity
    intro c2 hc2
    rw [hfl2] at hc2
    have hc3 : c = c2 := Option.some.inj hc2
    subst hc3
    cases c with
    | mk a2 pid2 t2 conf2 os2 cs2 =>
      show Node.mk a2 pid2 (strOr (jsTrim msg.message) t2) (max conf2 (max 0 (min 100 90)))
        (os2 ++ []) cs2 = Node.mk a2 pid2 t2 conf2 os2 cs2
      have h90 : (max 0 (min 100 90) : ℤ) = 90 := by decide
      have hconf2 : (90 : ℤ) ≤ conf2 := hconf
      have hpr2 : strOr (jsTrim msg.message) t2 = t2 := by
        cases hpr with
        | inl hv => rw [hv, strOr, if_pos rfl]
        | inr hcp =>
          have ht2 : t2 = jsTrim msg.message := hcp
          by_cases hv : jsTrim msg.message = ""
          · rw [hv, strOr, if_pos rfl]
          · rw [strOr_of_ne _ hv, ht2]
      rw [List.append_nil, h90, max_eq_left hconf2, hpr2]
  rw [hup, setChildren_self]

/-- **C1, counterexample**: merging is not idempotent in general.  Over a
bare root, the transcript [Pressed Button: 1; Goodbye; For sales, press 1.]
presses `1` before any menu announced an option `1`: the first run creates
the submenu node but has no option to link, and only the re-run links the
freshly announced option `(1, "For sales")` to the submenu, so the second
merge differs from the first. -/
theorem c1_idempotence_counterexample :
    buildGraphDeterministic pressBeforeMenuU
      (some (buildGraphDeterministic pressBeforeMenuU (some plainRoot))) ≠
    buildGraphDeterministic pressBeforeMenuU (some plainRoot) := by
  decide



/-! ### C1 groundwork: update combinators — composition and commutation -/

theorem setChildren_setChildren (n : Node) (a b : List Node) :
    (n.setChildren a).setChildren b = n.setChildren b := by
  cases n <;> rfl

theorem updateFirst_comp {q : α → Bool} {f g : α → α}
    (hg : ∀ x, q x = true → q (g x) = true) :
    ∀ (l : List α), updateFirst q f (updateFirst q g l) = updateFirst q (fun x => f (g x)) l := by
  intro l
  induction l with
  | nil => rfl
  | cons x xs ih =>
    by_cases hx : q x = true
    · rw [updateFirst, if_pos hx, updateFirst, if_pos (hg x hx), updateFirst, if_pos hx]
    · rw [updateFirst, if_neg hx, updateFirst, if_neg hx, updateFirst, if_neg hx, ih]

theorem updateLast_comp {q : α → Bool} {f g : α → α}
    (hg : ∀ x, q x = true → q (g x) = true)
    (hg2 : ∀ x, q x = false → q (g x) = false)
    (hf2 : ∀ x, q x = false → q (f x) = false) :
    ∀ (l : List α), updateLast q f (updateLast q g l) = updateLast q (fun x => f (g x)) l := by
  intro l
  induction l with
  | nil => rfl
  | cons x xs ih =>
    by_cases ha : xs.any q = true
    · have ha2 : (updateLast q g xs).any q = true := by
        obtain ⟨c, hc⟩ := find?_of_any ha
        have hfl : (findLast q xs).isSome = true := by rw [← any_eq_findLast_isSome]; exact ha
        obtain ⟨c0, hc0⟩ := Option.isSome_iff_exists.mp hfl
        have := findLast_updateLast_self hg hc0
        rw [any_eq_findLast_isSome, this]
        rfl
      rw [updateLast, if_pos ha, updateLast, if_pos ha2, updateLast, if_pos ha, ih]
    · rw [updateLast, if_neg ha]
      by_cases hx : q x = true
      · rw [if_pos hx, updateLast, if_neg ha, if_pos (hg x hx), updateLast, if_neg ha, if_pos hx]
      · rw [if_neg hx, updateLast, if_neg ha, if_neg hx, updateLast, if_neg ha, if_neg hx]

theorem updateFirst_swap {q : α → Bool} {f g : α → α}
    (hfq : ∀ x, q x = true → q (f x) = true) (hgq : ∀ x, q x = true → q (g x) = true) :
    ∀ (l : List α), (∀ c, l.find? q = some c → f (g c) = g (f c)) →
      updateFirst q f (updateFirst q g l) = updateFirst q g (updateFirst q f l) := by
  intro l
  induction l with
  | nil => intro h; rfl
  | cons x xs ih =>
    intro h
    by_cases hx : q x = true
    · have hL : updateFirst q f (updateFirst q g (x :: xs)) = f (g x) :: xs := by
        rw [updateFirst, if_pos hx, updateFirst, if_pos (hgq x hx)]
      have hR : updateFirst q g (updateFirst q f (x :: xs)) = g (f x) :: xs := by
        rw [updateFirst, if_pos hx, updateFirst, if_pos (hfq x hx)]
      rw [hL, hR, h x (List.find?_cons_of_pos _ hx)]
    · have hL : updateFirst q f (updateFirst q g (x :: xs)) =
          x :: updateFirst q f (updateFirst q g xs) := by
        rw [updateFirst, if_neg hx, updateFirst, if_neg hx]
      have hR : updateFirst q g (updateFirst q f (x :: xs)) =
          x :: updateFirst q g (updateFirst q f xs) := by
        rw [updateFirst, if_neg hx, updateFirst, if_neg hx]
      rw [hL, hR, ih (fun c hc => h c (by rw [List.find?_cons_of_neg _ hx]; exact hc))]

theorem updateFirst_disjoint_swap {q1 q2 : α → Bool} {f g : α → α}
    (h1 : ∀ x, q1 x = true → q2 x = false) (h2 : ∀ x, q2 x = true → q1 x = false)
    (hf : ∀ x, (q1 (f x) = q1 x) ∧ (q2 (f x) = q2 x))
    (hg : ∀ x, (q1 (g x) = q1 x) ∧ (q2 (g x) = q2 x)) :
    ∀ (l : List α), updateFirst q1 f (updateFirst q2 g l) = updateFirst q2 g (updateFirst q1 f l) := by
  intro l
  induction l with
  | nil => rfl
  | cons x xs ih =>
    by_cases hx1 : q1 x = true
    · have hx2 : q2 x = false := h1 x hx1
      rw [updateFirst, if_neg (by rw [hx2]; exact Bool.false_ne_true),
        updateFirst, if_pos hx1, updateFirst, if_pos hx1,
        updateFirst, if_neg (by rw [(hf x).2, hx2]; exact Bool.false_ne_true)]
    · by_cases hx2 : q2 x = true
      · rw [updateFirst, if_pos hx2, updateFirst, if_neg (by rw [(hg x).1]; exact hx1),
          updateFirst, if_neg hx1, updateFirst, if_pos hx2]
      · rw [updateFirst, if_neg hx2, updateFirst, if_neg hx1, updateFirst, if_neg hx1,
          updateFirst, if_neg hx2, ih]

theorem any_updateFirst_congr {q p2 : α → Bool} {f : α → α}
    (hf : ∀ x, p2 (f x) = p2 x) :
    ∀ (l : List α), (updateFirst q f l).any p2 = l.any p2 := by
  intro l
  induction l with
  | nil => rfl
  | cons x xs ih =>
    by_cases hx : q x = true
    · rw [updateFirst, if_pos hx, List.any_cons, List.any_cons, hf x]
    · rw [updateFirst, if_neg hx, List.any_cons, List.any_cons, ih]

theorem updateFirst_updateLast_swap {q1 q2 : α → Bool} {f g : α → α}
    (h1 : ∀ x, q1 x = true → q2 x = false) (h2 : ∀ x, q2 x = true → q1 x = false)
    (hf : ∀ x, (q1 (f x) = q1 x) ∧ (q2 (f x) = q2 x))
    (hg : ∀ x, (q1 (g x) = q1 x) ∧ (q2 (g x) = q2 x)) :
    ∀ (l : List α), updateFirst q1 f (updateLast q2 g l) = updateLast q2 g (updateFirst q1 f l) := by
  intro l
  induction l with
  | nil => rfl
  | cons x xs ih =>
    have hany : (updateFirst q1 f xs).any q2 = xs.any q2 :=
      any_updateFirst_congr (fun x => (hf x).2) xs
    by_cases ha : xs.any q2 = true
    · by_cases hx1 : q1 x = true
      · have hL : updateFirst q1 f (updateLast q2 g (x :: xs)) = f x :: updateLast q2 g xs := by
          rw [updateLast, if_pos ha, updateFirst, if_pos hx1]
        have hR : updateLast q2 g (updateFirst q1 f (x :: xs)) = f x :: updateLast q2 g xs := by
          rw [updateFirst, if_pos hx1, updateLast, if_pos ha]
        rw [hL, hR]
      · have hL : updateFirst q1 f (updateLast q2 g (x :: xs)) =
            x :: updateFirst q1 f (updateLast q2 g xs) := by
          rw [updateLast, if_pos ha, updateFirst, if_neg hx1]
        have hR : updateLast q2 g (updateFirst q1 f (x :: xs)) =
            x :: updateLast q2 g (updateFirst q1 f xs) := by
          rw [updateFirst, if_neg hx1, updateLast, if_pos (by rw [hany]; exact ha)]
        rw [hL, hR, ih]
    · by_cases hx2 : q2 x = true
      · have hx1 : q1 x = false := h2 x hx2
        have hL : updateFirst q1 f (updateLast q2 g (x :: xs)) =
            g x :: updateFirst q1 f xs := by
          rw [updateLast, if_neg ha, if_pos hx2, updateFirst,
            if_neg (by rw [(hg x).1, hx1]; exact Bool.false_ne_true)]
        have hR : updateLast q2 g (updateFirst q1 f (x :: xs)) =
            g x :: updateFirst q1 f xs := by
          rw [updateFirst, if_neg (by rw [hx1]; exact Bool.false_ne_true), updateLast,
            if_neg (by rw [hany]; exact ha), if_pos hx2]
        rw [hL, hR]
      · by_cases hx1 : q1 x = true
        · have hL : updateFirst q1 f (updateLast q2 g (x :: xs)) = f x :: xs := by
            rw [updateLast, if_neg ha, if_neg hx2, updateFirst, if_pos hx1]
          have hR : updateLast q2 g (updateFirst q1 f (x :: xs)) = f x :: xs := by
            rw [updateFirst, if_pos hx1, updateLast, if_neg ha,
              if_neg (by rw [(hf x).2]; exact hx2)]
          rw [hL, hR]
        · have hL : updateFirst q1 f (updateLast q2 g (x :: xs)) =
              x :: updateFirst q1 f xs := by
            rw [updateLast, if_neg ha, if_neg hx2, updateFirst, if_neg hx1]
          have hR : updateLast q2 g (updateFirst q1 f (x :: xs)) =
              x :: updateFirst q1 f xs := by
            rw [updateFirst, if_neg hx1, updateLast, if_neg (by rw [hany]; exact ha), if_neg hx2]
          rw [hL, hR]

theorem updateFirst_append_nomatch {q : α → Bool} {f : α → α} {x : α}
    (hx : q x = false) :
    ∀ (l : List α), updateFirst q f (l ++ [x]) = updateFirst q f l ++ [x] := by
  intro l
  induction l with
  | nil => simp [updateFirst, hx]
  | cons y ys ih =>
    by_cases hy : q y = true
    · rw [List.cons_append, updateFirst, if_pos hy, updateFirst, if_pos hy, List.cons_append]
    · rw [List.cons_append, updateFirst, if_neg hy, updateFirst, if_neg hy, ih, List.cons_append]

theorem updateFirst_append_of_match {q : α → Bool} {f : α → α} {c : α} :
    ∀ {l : List α}, l.find? q = some c →
      ∀ (t : List α), updateFirst q f (l ++ t) = updateFirst q f l ++ t := by
  intro l
  induction l with
  | nil => intro h; cases h
  | cons y ys ih =>
    intro h t
    by_cases hy : q y = true
    · rw [List.cons_append, updateFirst, if_pos hy, updateFirst, if_pos hy, List.cons_append]
    · rw [List.find?_cons_of_neg _ hy] at h
      rw [List.cons_append, updateFirst, if_neg hy, updateFirst, if_neg hy, ih h t,
        List.cons_append]

theorem updateLast_append_nomatch {q : α → Bool} {g : α → α} {x : α}
    (hx : q x = false) :
    ∀ (l : List α), updateLast q g (l ++ [x]) = updateLast q g l ++ [x] := by
  intro l
  induction l with
  | nil => simp [updateLast, hx]
  | cons y ys ih =>
    have hany : (ys ++ [x]).any q = ys.any q := by
      rw [List.any_append, List.any_cons, List.any_nil, hx]
      cases ys.any q <;> rfl
    by_cases ha : ys.any q = true
    · rw [List.cons_append, updateLast, if_pos (by rw [hany]; exact ha), updateLast, if_pos ha,
        ih, List.cons_append]
    · by_cases hy : q y = true
      · rw [List.cons_append, updateLast, if_neg (by rw [hany]; exact ha), if_pos hy,
          updateLast, if_neg ha, if_pos hy, List.cons_append]
      · rw [List.cons_append, updateLast, if_neg (by rw [hany]; exact ha), if_neg hy,
          updateLast, if_neg ha, if_neg hy, List.cons_append]

theorem updateLast_no_match {q : α → Bool} {g : α → α} :
    ∀ {l : List α}, l.any q = false → updateLast q g l = l := by
  intro l
  induction l with
  | nil => intro h; rfl
  | cons x xs ih =>
    intro h
    rw [List.any_cons] at h
    obtain ⟨hx, ha⟩ := Bool.or_eq_false_iff.mp h
    rw [updateLast, if_neg (by rw [ha]; exact Bool.false_ne_true),
      if_neg (by rw [hx]; exact Bool.false_ne_true)]

theorem updateLast_congr_matched {q : α → Bool} {f g : α → α} :
    ∀ {l : List α}, (∀ c, findLast q l = some c → f c = g c) →
      updateLast q f l = updateLast q g l := by
  intro l
  induction l with
  | nil => intro h; rfl
  | cons x xs ih =>
    intro h
    by_cases ha : xs.any q = true
    · rw [updateLast, if_pos ha, updateLast, if_pos ha,
        ih (fun c hc => h c (by rw [findLast_cons, hc]))]
    · have hnone : findLast q xs = none := by
        cases hfl : findLast q xs with
        | none => rfl
        | some c2 => rw [any_eq_findLast_isSome, hfl] at ha; exact absurd rfl ha
      rw [updateLast, if_neg ha, updateLast, if_neg ha]
      by_cases hx : q x = true
      · rw [if_pos hx, if_pos hx, h x (by rw [findLast_cons, hnone, if_pos hx])]
      · rw [if_neg hx, if_neg hx]

/-! ### C1 groundwork: congruence, composition and self-absorption of rewrites -/

theorem updateFirst_congr_matched {q : α → Bool} {f g : α → α} :
    ∀ {l : List α}, (∀ c, l.find? q = some c → f c = g c) →
      updateFirst q f l = updateFirst q g l := by
  intro l
  induction l with
  | nil => intro h; rfl
  | cons x xs ih =>
    intro h
    by_cases hx : q x = true
    · rw [updateFirst, if_pos hx, updateFirst, if_pos hx, h x (List.find?_cons_of_pos _ hx)]
    · rw [updateFirst, if_neg hx, updateFirst, if_neg hx,
        ih (fun c hc => h c (by rw [List.find?_cons_of_neg _ hx]; exact hc))]

theorem modifyAtIds_congr {f g : Node → Node} :
    ∀ (is : List String) (n : Node), (∀ m, resolveIds n is = some m → f m = g m) →
      modifyAtIds f n is = modifyAtIds g n is := by
  intro is
  induction is with
  | nil => intro n h; exact h n rfl
  | cons i is ih =>
    intro n h
    rw [modifyAtIds, modifyAtIds]
    have hup : updateFirst (fun c => c.id = i) (fun c => modifyAtIds f c is) n.children =
        updateFirst (fun c => c.id = i) (fun c => modifyAtIds g c is) n.children := by
      apply updateFirst_congr_matched
      intro c hc
      apply ih
      intro m hm
      apply h
      rw [resolveIds, hc]
      exact hm
    rw [hup]

theorem modifyAt_congr {f g : Node → Node} {W : Node} {p : List String}
    (h : ∀ m, resolveNode W p = some m → f m = g m) : modifyAt f W p = modifyAt g W p := by
  rw [modifyAt, modifyAt]
  exact modifyAtIds_congr _ _ h

theorem modifyAtIds_comp {f g : Node → Node} (hgid : ∀ x, (g x).id = x.id) :
    ∀ (is : List String) (n : Node),
      modifyAtIds f (modifyAtIds g n is) is = modifyAtIds (fun x => f (g x)) n is := by
  intro is
  induction is with
  | nil => intro n; rfl
  | cons i is ih =>
    intro n
    rw [modifyAtIds, modifyAtIds, modifyAtIds, children_setChildren, setChildren_setChildren]
    rw [updateFirst_comp (fun x hx => by
      rw [decide_eq_true_eq] at hx
      rw [decide_eq_true_eq, modifyAtIds_id hgid _ x]
      exact hx)]
    have hfun : (fun x => modifyAtIds f (modifyAtIds g x is) is) =
        (fun x => modifyAtIds (fun y => f (g y)) x is) := funext (fun x => ih x)
    rw [hfun]

theorem modifyAt_comp {f g : Node → Node} (hgid : ∀ x, (g x).id = x.id)
    (W : Node) (p : List String) :
    modifyAt f (modifyAt g W p) p = modifyAt (fun x => f (g x)) W p := by
  rw [modifyAt, modifyAt, modifyAt]
  exact modifyAtIds_comp hgid _ W

theorem setPromptAt_self {X : Node} {a : Addr} {v : String}
    (h : promptAt X a = some v) : setPromptAt a v X = X := by
  rw [promptAt] at h
  cases a with
  | node p =>
    rw [setPromptAt]
    apply modifyAt_identity
    intro m hm
    rw [resolveAddr, hm] at h
    have hp : m.promptText = v := Option.some.inj h
    exact setPrompt_self hp
  | endc p =>
    rw [setPromptAt]
    apply modifyAt_identity
    intro m hm
    rw [resolveAddr, resolveEnd, hm] at h
    have h2 : Option.map Node.promptText
        (findLast (fun c => c.id = joinDash p) m.children) = some v := h
    cases hfl : findLast (fun c => c.id = joinDash p) m.children with
    | none => rw [hfl] at h2; cases h2
    | some e =>
      rw [hfl] at h2
      have hp : e.promptText = v := Option.some.inj h2
      have hup : updateLast (fun c => c.id = joinDash p) (fun c => c.setPrompt v) m.children =
          m.children := by
        apply updateLast_identity
        intro c hc
        rw [hfl] at hc
        have hce : e = c := Option.some.inj hc
        subst hce
        exact setPrompt_self hp
      rw [hup, setChildren_self]

theorem writesAgree_of_not_writes {a : Addr} {v : String} :
    ∀ (rest : List TranscriptMessage) (cs : List String × List (List String)),
      writesPrompt cs rest a = false → writesAgree cs rest a v = true := by
  intro rest
  induction rest with
  | nil => intro cs h; rfl
  | cons m ms ih =>
    intro cs h
    rw [writesPrompt] at h
    obtain ⟨h1, h2⟩ := Bool.or_eq_false_iff.mp h
    rw [writesAgree, h1]
    rw [ih _ h2]
    rfl

/-! ### C1 groundwork: persistence of the structural halves -/

theorem optsSkel_of_fact {W : Node} {p : List String} {v : String}
    {ps : List (String × String)} (h : OptsFact W p v ps) : OptsSkel W p ps := by
  obtain ⟨m, hres, hprompt, hall⟩ := h
  exact ⟨m, hres, hall⟩

theorem endSkel_of_fact {W : Node} {p : List String} {v : String}
    (h : EndFact W p v) : EndSkel W p := by
  obtain ⟨m, c, hres, hfl, hconf, hpr⟩ := h
  exact ⟨m, c, hres, hfl, hconf⟩

theorem optsSkel_step {W : Node} {p : List String} {ps : List (String × String)}
    (cur : List String) (msg : TranscriptMessage) (hnec : segsNE cur) (hnep : segsNE p)
    (h : OptsSkel W p ps) : OptsSkel (treeStep cur msg W) p ps := by
  obtain ⟨m, hres, hall⟩ := h
  cases hpe : isPressEvent msg with
  | some d2 =>
    rw [treeStep_press_eq cur W hpe]
    obtain ⟨m2, hres2, hd⟩ := transport_resolveNode (press_id_pres cur d2)
      (fun i x c hni hf => press_find_pres cur d2 x c i hf) hnec hnep hres
    cases hd with
    | inr hpt => exact ⟨m2, hres2, fun dl hdl => by rw [hpt.2.1]; exact hall dl hdl⟩
    | inl hl =>
      obtain ⟨hpcur, hm2⟩ := hl
      subst hm2
      refine ⟨_, hres2, fun dl hdl => ?_⟩
      rw [linkOptionTarget_options_eq, ensureMenuNode_options]
      exact updateFirst_any_pres
        (g := fun o => { o with targetNodeId := some (pathId (cur ++ [d2])) })
        (fun x hx => hx) (hall dl hdl)
  | none =>
    by_cases hrole : msg.role = "user"
    · by_cases hopts : parseOptions msg.message = []
      · by_cases hcur : cur = []
        · rw [treeStep_end_root_eq cur W hpe hrole hopts hcur]
          exact ⟨m, hres, hall⟩
        · rw [treeStep_end_eq cur W hpe hrole hopts hcur]
          obtain ⟨m2, hres2, hd⟩ := transport_resolveNode (end_id_pres cur (jsTrim msg.message))
            (fun i x c hni hf => end_find_pres cur (jsTrim msg.message) x c i hni hf)
            hnec hnep hres
          cases hd with
          | inr hpt => exact ⟨m2, hres2, fun dl hdl => by rw [hpt.2.1]; exact hall dl hdl⟩
          | inl hl =>
            obtain ⟨hpcur, hm2⟩ := hl
            subst hm2
            refine ⟨_, hres2, fun dl hdl => ?_⟩
            rw [upsertChild_options]
            exact hall dl hdl
      · rw [treeStep_opts_eq cur W hpe hrole hopts]
        obtain ⟨m2, hres2, hd⟩ := transport_resolveNode (opts_id_pres msg.message)
          (fun i x c hni hf => opts_find_pres msg.message x c i hf) hnec hnep hres
        cases hd with
        | inr hpt => exact ⟨m2, hres2, fun dl hdl => by rw [hpt.2.1]; exact hall dl hdl⟩
        | inl hl =>
          obtain ⟨hpcur, hm2⟩ := hl
          subst hm2
          refine ⟨_, hres2, fun dl hdl => ?_⟩
          exact foldl_ensureOption_any_mono _ _
            (by rw [setPrompt_options]; exact hall dl hdl)
    · rw [treeStep_skip_eq cur W hpe hrole]
      exact ⟨m, hres, hall⟩

theorem endSkel_step {W : Node} {p : List String}
    (cur : List String) (msg : TranscriptMessage) (hnec : segsNE cur) (hnep : segsNE p)
    (h : EndSkel W p) : EndSkel (treeStep cur msg W) p := by
  obtain ⟨m, c, hres, hfl, hconf⟩ := h
  cases hpe : isPressEvent msg with
  | some d2 =>
    rw [treeStep_press_eq cur W hpe]
    obtain ⟨m2, hres2, hd⟩ := transport_resolveNode (press_id_pres cur d2)
      (fun i x c2 hni hf => press_find_pres cur d2 x c2 i hf) hnec hnep hres
    cases hd with
    | inr hpt => exact ⟨m2, c, hres2, hpt.2.2.2.2.2 _ hfl, hconf⟩
    | inl hl =>
      obtain ⟨hpcur, hm2⟩ := hl
      subst hm2
      subst hpcur
      refine ⟨_, c, hres2, ?_, hconf⟩
      rw [linkOptionTarget_children]
      exact ensureMenuNode_findLast_end m p d2 hfl
  | none =>
    by_cases hrole : msg.role = "user"
    · by_cases hopts : parseOptions msg.message = []
      · by_cases hcur : cur = []
        · rw [treeStep_end_root_eq cur W hpe hrole hopts hcur]
          exact ⟨m, c, hres, hfl, hconf⟩
        · rw [treeStep_end_eq cur W hpe hrole hopts hcur]
          obtain ⟨m2, hres2, hd⟩ := transport_resolveNode (end_id_pres cur (jsTrim msg.message))
            (fun i x c2 hni hf => end_find_pres cur (jsTrim msg.message) x c2 i hni hf)
            hnec hnep hres
          cases hd with
          | inr hpt => exact ⟨m2, c, hres2, hpt.2.2.2.2.2 _ hfl, hconf⟩
          | inl hl =>
            obtain ⟨hpcur, hm2⟩ := hl
            subst hm2
            subst hpcur
            obtain ⟨c2, hfl2, h90, hpr2, hmon⟩ := upsertChild_end_merge (jsTrim msg.message) hfl
            exact ⟨_, c2, hres2, hfl2, h90⟩
      · rw [treeStep_opts_eq cur W hpe hrole hopts]
        obtain ⟨m2, hres2, hd⟩ := transport_resolveNode (opts_id_pres msg.message)
          (fun i x c2 hni hf => opts_find_pres msg.message x c2 i hf) hnec hnep hres
        cases hd with
        | inr hpt => exact ⟨m2, c, hres2, hpt.2.2.2.2.2 _ hfl, hconf⟩
        | inl hl =>
          obtain ⟨hpcur, hm2⟩ := hl
          subst hm2
          refine ⟨_, c, hres2, ?_, hconf⟩
          rw [foldl_ensureOption_children, setPrompt_children]
          exact hfl
    · rw [treeStep_skip_eq cur W hpe hrole]
      exact ⟨m, c, hres, hfl, hconf⟩

theorem optsSkel_run {p : List String} {ps : List (String × String)} :
    ∀ (rest : List TranscriptMessage) (s : BuildState), segsNE p →
      segsOK s.curPath s.stack → OptsSkel s.root p ps →
      OptsSkel ((rest.foldl stepMsg s).root) p ps := by
  intro rest
  induction rest with
  | nil => intro s hp hok h; exact h
  | cons m ms ih =>
    intro s hp hok h
    rw [List.foldl_cons]
    refine ih (stepMsg s m) hp ?_ ?_
    · rw [stepMsg_curPath, stepMsg_stack]
      exact segsOK_step m hok
    · rw [stepMsg_root]
      exact optsSkel_step s.curPath m hok.1 hp h

theorem endSkel_run {p : List String} :
    ∀ (rest : List TranscriptMessage) (s : BuildState), segsNE p →
      segsOK s.curPath s.stack → EndSkel s.root p →
      EndSkel ((rest.foldl stepMsg s).root) p := by
  intro rest
  induction rest with
  | nil => intro s hp hok h; exact h
  | cons m ms ih =>
    intro s hp hok h
    rw [List.foldl_cons]
    refine ih (stepMsg s m) hp ?_ ?_
    · rw [stepMsg_curPath, stepMsg_stack]
      exact segsOK_step m hok
    · rw [stepMsg_root]
      exact endSkel_step s.curPath m hok.1 hp h

theorem addrOK_step {X : Node} {a : Addr} (cur : List String) (msg : TranscriptMessage)
    (hnec : segsNE cur) (hnep : segsNE (Addr.path a)) (h : AddrOK X a) :
    AddrOK (treeStep cur msg X) a := by
  cases a with
  | node p =>
    obtain ⟨m, hm⟩ := h
    obtain ⟨m2, hm2⟩ := treeStep_transport cur msg hnec hnep hm
    exact ⟨m2, hm2⟩
  | endc p =>
    exact endSkel_step cur msg hnec hnep h

/-! ### C1 groundwork: prompt writes as `setPromptAt`, and their absorption -/

theorem setPrompt_setPrompt (n : Node) (a b : String) :
    (n.setPrompt a).setPrompt b = n.setPrompt b := by
  cases n <;> rfl

theorem setChildren_id (n : Node) (l : List Node) : (n.setChildren l).id = n.id := by
  cases n <;> rfl

theorem treeStep_opts_write {W : Node} {cur : List String} {msg : TranscriptMessage}
    (hpe : isPressEvent msg = none) (hrole : msg.role = "user")
    (hopts : parseOptions msg.message ≠ [])
    (hsk : OptsSkel W cur (parseOptions msg.message)) :
    treeStep cur msg W = setPromptAt (.node cur) (jsTrim msg.message) W := by
  rw [treeStep_opts_eq cur W hpe hrole hopts, setPromptAt]
  apply modifyAt_congr
  intro m hm
  obtain ⟨m0, hres, hall⟩ := hsk
  rw [hres] at hm
  have hm0 : m0 = m := Option.some.inj hm
  subst hm0
  apply foldl_ensureOption_identity
  intro dl hdl
  rw [setPrompt_options]
  exact hall dl hdl

theorem treeStep_end_write {W : Node} {cur : List String} {msg : TranscriptMessage}
    (hpe : isPressEvent msg = none) (hrole : msg.role = "user")
    (hopts : parseOptions msg.message = []) (hcur : cur ≠ [])
    (hv : jsTrim msg.message ≠ "") (hsk : EndSkel W cur) :
    treeStep cur msg W = setPromptAt (.endc cur) (jsTrim msg.message) W := by
  rw [treeStep_end_eq cur W hpe hrole hopts hcur, setPromptAt]
  apply modifyAt_congr
  intro m hm
  obtain ⟨m0, c0, hres, hfl, hconf⟩ := hsk
  rw [hres] at hm
  have hm0 : m0 = m := Option.some.inj hm
  subst hm0
  have hfl2 : findLast (fun c => c.id =
      (createEndNode (joinDash cur) (some m0.id) (jsTrim msg.message) 90).id) m0.children =
      some c0 := hfl
  have hany := any_of_findLast hfl2
  rw [upsertChild, if_pos hany]
  show m0.setChildren _ = m0.setChildren _
  congr 1
  show updateLast (fun c => c.id =
      (createEndNode (joinDash cur) (some m0.id) (jsTrim msg.message) 90).id) _ m0.children =
    updateLast (fun c => c.id =
      (createEndNode (joinDash cur) (some m0.id) (jsTrim msg.message) 90).id)
      (fun c => c.setPrompt (jsTrim msg.message)) m0.children
  apply updateLast_congr_matched
  intro c hc
  rw [hfl2] at hc
  have hc0 : c0 = c := Option.some.inj hc
  subst hc0
  cases c0 with
  | mk a0 pid0 t0 conf0 os0 cs0 =>
    show Node.mk a0 pid0 (strOr (jsTrim msg.message) t0) (max conf0 (max 0 (min 100 90)))
      (os0 ++ []) cs0 = Node.mk a0 pid0 (jsTrim msg.message) conf0 os0 cs0
    have h90 : (max 0 (min 100 90) : ℤ) = 90 := by decide
    have hconf2 : (90 : ℤ) ≤ conf0 := hconf
    rw [List.append_nil, h90, max_eq_left hconf2, strOr_of_ne _ hv]

theorem opts_absorb {W : Node} {cur : List String} {msg : TranscriptMessage} (v : String)
    (hpe : isPressEvent msg = none) (hrole : msg.role = "user")
    (hopts : parseOptions msg.message ≠ []) :
    treeStep cur msg (setPromptAt (.node cur) v W) = treeStep cur msg W := by
  rw [treeStep_opts_eq cur _ hpe hrole hopts, treeStep_opts_eq cur W hpe hrole hopts,
    setPromptAt, modifyAt_comp (fun x => setPrompt_id x v)]
  have hfun : (fun x : Node => (parseOptions msg.message).foldl
      (fun n p => ensureOption n p.1 p.2)
      ((x.setPrompt v).setPrompt (jsTrim msg.message))) =
      (fun x : Node => (parseOptions msg.message).foldl (fun n p => ensureOption n p.1 p.2)
        (x.setPrompt (jsTrim msg.message))) := by
    funext x
    rw [setPrompt_setPrompt]
  rw [hfun]

theorem upsert_end_absorb (cur : List String) (v0 v : String) (hv0 : v0 ≠ "") (x : Node) :
    upsertChild (x.setChildren (updateLast (fun c => c.id = joinDash cur)
        (fun c => c.setPrompt v) x.children))
      (createEndNode (joinDash cur)
        (some (x.setChildren (updateLast (fun c => c.id = joinDash cur)
          (fun c => c.setPrompt v) x.children)).id) v0 90) =
    upsertChild x (createEndNode (joinDash cur) (some x.id) v0 90) := by
  rw [setChildren_id]
  by_cases hex : x.children.any
      (fun c => c.id = (createEndNode (joinDash cur) (some x.id) v0 90).id) = true
  · have hexL : (x.setChildren (updateLast (fun c => c.id = joinDash cur)
        (fun c => c.setPrompt v) x.children)).children.any
          (fun c => c.id = (createEndNode (joinDash cur) (some x.id) v0 90).id) = true := by
      rw [children_setChildren, updateLast_id_any (fun y => setPrompt_id y v)]
      exact hex
    rw [upsertChild, if_pos hexL, upsertChild, if_pos hex, children_setChildren,
      setChildren_setChildren]
    congr 1
    show updateLast (fun c => c.id = (createEndNode (joinDash cur) (some x.id) v0 90).id) _
        (updateLast (fun c => c.id = (createEndNode (joinDash cur) (some x.id) v0 90).id)
          (fun c => c.setPrompt v) x.children) = _
    rw [updateLast_comp (fun y hy => by
        rw [decide_eq_true_eq] at hy
        rw [decide_eq_true_eq, setPrompt_id]
        exact hy)
      (fun y hy => by
        rw [decide_eq_false_iff_not] at hy ⊢
        rw [setPrompt_id]
        exact hy)
      (fun y hy => by
        rw [decide_eq_false_iff_not] at hy ⊢
        cases y with
        | mk a0 pid0 t0 conf0 os0 cs0 => exact hy)]
    have hfun : (fun y : Node =>
        (((y.setPrompt v).setPrompt
            (strOr (createEndNode (joinDash cur) (some x.id) v0 90).promptText
              (y.setPrompt v).promptText)).setConfidence
          (max (y.setPrompt v).confidence
            (createEndNode (joinDash cur) (some x.id) v0 90).confidence)).setOptions
          ((y.setPrompt v).options ++
            (createEndNode (joinDash cur) (some x.id) v0 90).options.filter
              (fun o => !(((y.setPrompt v).options.map optKey).contains (optKey o))))) =
        (fun y : Node =>
          ((y.setPrompt
              (strOr (createEndNode (joinDash cur) (some x.id) v0 90).promptText
                y.promptText)).setConfidence
            (max y.confidence
              (createEndNode (joinDash cur) (some x.id) v0 90).confidence)).setOptions
            (y.options ++
              (createEndNode (joinDash cur) (some x.id) v0 90).options.filter
                (fun o => !((y.options.map optKey).contains (optKey o))))) := by
      funext y
      cases y with
      | mk a0 pid0 t0 conf0 os0 cs0 =>
        simp only [createEndNode, node_setPrompt_mk, node_setConfidence_mk,
          node_setOptions_mk, node_id_mk, node_parentId_mk, node_promptText_mk,
          node_confidence_mk, node_options_mk, node_children_mk,
          List.filter_nil, List.append_nil]
        rw [strOr_of_ne _ hv0, strOr_of_ne _ hv0]
    exact congrArg (fun G => updateLast
      (fun c => c.id = (createEndNode (joinDash cur) (some x.id) v0 90).id) G x.children) hfun
  · have hnm : updateLast (fun c => c.id = joinDash cur)
        (fun c => c.setPrompt v) x.children = x.children := by
      apply updateLast_no_match
      show x.children.any
        (fun c => c.id = (createEndNode (joinDash cur) (some x.id) v0 90).id) = false
      exact Bool.eq_false_iff.mpr hex
    rw [hnm, setChildren_self]


/-! ### C1 groundwork: pointwise commutation of a step with a pending prompt write -/

theorem strOr_empty (b : String) : strOr "" b = b := by
  rw [strOr, if_pos rfl]

theorem setPrompt_setChildren (n : Node) (L : List Node) (v : String) :
    (n.setChildren L).setPrompt v = (n.setPrompt v).setChildren L := by
  cases n <;> rfl

theorem setOptions_setChildren_comm (n : Node) (os : List IvrOption) (L : List Node) :
    (n.setChildren L).setOptions os = (n.setOptions os).setChildren L := by
  cases n <;> rfl

theorem decide_id_congr {t : String} {y z : Node} (h : z.id = y.id) :
    decide (z.id = t) = decide (y.id = t) := by rw [h]

theorem linkOptionTarget_setPrompt (y : Node) (d tid v : String) :
    linkOptionTarget (y.setPrompt v) d tid = (linkOptionTarget y d tid).setPrompt v := by
  cases y <;> rfl

theorem ensureMenuNode_none_setPrompt (x : Node) (P : List String) (v : String) :
    ensureMenuNode (x.setPrompt v) P none = (ensureMenuNode x P none).setPrompt v := by
  rw [ensureMenuNode.eq_def, ensureMenuNode.eq_def, setPrompt_children]
  by_cases h : x.children.any (fun c => c.id = pathId P) = true
  · rw [if_pos h, if_pos h]
  · rw [if_neg h, if_neg h, setPrompt_id]
    cases x <;> rfl

theorem press_setPrompt_comm (cur : List String) (d tid v : String) (x : Node) :
    linkOptionTarget (ensureMenuNode (x.setPrompt v) (cur ++ [d]) none) d tid =
      (linkOptionTarget (ensureMenuNode x (cur ++ [d]) none) d tid).setPrompt v := by
  rw [ensureMenuNode_none_setPrompt, linkOptionTarget_setPrompt]

theorem ensureMenuNode_none_endc (x : Node) (P pj : List String) (v : String)
    (hne : pathId P ≠ joinDash pj) :
    ensureMenuNode (x.setChildren (updateLast (fun c => c.id = joinDash pj)
        (fun c => c.setPrompt v) x.children)) P none =
    (ensureMenuNode x P none).setChildren
      (updateLast (fun c => c.id = joinDash pj) (fun c => c.setPrompt v)
        (ensureMenuNode x P none).children) := by
  rw [ensureMenuNode.eq_def, ensureMenuNode.eq_def, children_setChildren,
    updateLast_id_any (fun y => setPrompt_id y v)]
  by_cases h : x.children.any (fun c => c.id = pathId P) = true
  · rw [if_pos h, if_pos h]
  · rw [if_neg h, if_neg h, children_setChildren, setChildren_setChildren, setChildren_id,
      setChildren_setChildren]
    congr 1
    rw [updateLast_append_nomatch (by
      show decide ((createMenuNode (pathId P) (some x.id) (Option.getD none "") 95).id =
        joinDash pj) = false
      rw [createMenuNode_id]
      exact decide_eq_false hne)]

theorem press_endc_comm (cur : List String) (d tid v : String) (x : Node)
    (hne : pathId (cur ++ [d]) ≠ joinDash cur) :
    linkOptionTarget (ensureMenuNode (x.setChildren (updateLast
        (fun c => c.id = joinDash cur) (fun c => c.setPrompt v) x.children))
        (cur ++ [d]) none) d tid =
    (linkOptionTarget (ensureMenuNode x (cur ++ [d]) none) d tid).setChildren
      (updateLast (fun c => c.id = joinDash cur) (fun c => c.setPrompt v)
        (linkOptionTarget (ensureMenuNode x (cur ++ [d]) none) d tid).children) := by
  rw [ensureMenuNode_none_endc x (cur ++ [d]) cur v hne, linkOptionTarget_children]
  generalize ensureMenuNode x (cur ++ [d]) none = y
  cases y <;> rfl

theorem ensureOption_setChildren (y : Node) (L : List Node) (d lb : String) :
    ensureOption (y.setChildren L) d lb = (ensureOption y d lb).setChildren L := by
  rw [ensureOption, ensureOption, options_setChildren]
  by_cases h : y.options.any (fun o => o.digit = d && o.label = lb) = true
  · rw [if_pos h, if_pos h]
  · rw [if_neg h, if_neg h]
    cases y <;> rfl

theorem foldl_ensureOption_setChildren :
    ∀ (ps : List (String × String)) (y : Node) (L : List Node),
      ps.foldl (fun n p => ensureOption n p.1 p.2) (y.setChildren L) =
        (ps.foldl (fun n p => ensureOption n p.1 p.2) y).setChildren L := by
  intro ps
  induction ps with
  | nil => intro y L; rfl
  | cons p ps ih =>
    intro y L
    rw [List.foldl_cons, List.foldl_cons, ensureOption_setChildren, ih]

theorem opts_endc_comm (t v : String) (ps : List (String × String)) (pj : List String)
    (x : Node) :
    ps.foldl (fun n p => ensureOption n p.1 p.2)
        ((x.setChildren (updateLast (fun c => c.id = joinDash pj)
          (fun c => c.setPrompt v) x.children)).setPrompt t) =
    (ps.foldl (fun n p => ensureOption n p.1 p.2) (x.setPrompt t)).setChildren
      (updateLast (fun c => c.id = joinDash pj) (fun c => c.setPrompt v)
        (ps.foldl (fun n p => ensureOption n p.1 p.2) (x.setPrompt t)).children) := by
  rw [setPrompt_setChildren, foldl_ensureOption_setChildren,
    foldl_ensureOption_children, setPrompt_children]

theorem upsert_end_setPrompt (cur : List String) (t v : String) (x : Node) :
    upsertChild (x.setPrompt v)
        (createEndNode (joinDash cur) (some (x.setPrompt v).id) t 90) =
      (upsertChild x (createEndNode (joinDash cur) (some x.id) t 90)).setPrompt v := by
  rw [setPrompt_id, upsertChild, upsertChild, setPrompt_children]
  by_cases h : x.children.any
      (fun c => c.id = (createEndNode (joinDash cur) (some x.id) t 90).id) = true
  · rw [if_pos h, if_pos h]
    cases x <;> rfl
  · rw [if_neg h, if_neg h]
    cases x <;> rfl

theorem end_endc_comm (cur : List String) (v : String) (x : Node)
    (hex : x.children.any (fun c => c.id = joinDash cur) = true) :
    upsertChild (x.setChildren (updateLast (fun c => c.id = joinDash cur)
        (fun c => c.setPrompt v) x.children))
      (createEndNode (joinDash cur)
        (some (x.setChildren (updateLast (fun c => c.id = joinDash cur)
          (fun c => c.setPrompt v) x.children)).id) "" 90) =
    (upsertChild x (createEndNode (joinDash cur) (some x.id) "" 90)).setChildren
      (updateLast (fun c => c.id = joinDash cur) (fun c => c.setPrompt v)
        (upsertChild x (createEndNode (joinDash cur) (some x.id) "" 90)).children) := by
  rw [setChildren_id]
  have hexE : x.children.any
      (fun c => c.id = (createEndNode (joinDash cur) (some x.id) "" 90).id) = true := hex
  have hexL : (x.setChildren (updateLast (fun c => c.id = joinDash cur)
      (fun c => c.setPrompt v) x.children)).children.any
        (fun c => c.id = (createEndNode (joinDash cur) (some x.id) "" 90).id) = true := by
    rw [children_setChildren, updateLast_id_any (fun y => setPrompt_id y v)]
    exact hexE
  rw [upsertChild, if_pos hexL, children_setChildren, setChildren_setChildren,
    upsertChild, if_pos hexE, children_setChildren, setChildren_setChildren]
  congr 1
  show updateLast (fun c => c.id = (createEndNode (joinDash cur) (some x.id) "" 90).id) _
      (updateLast (fun c => c.id = (createEndNode (joinDash cur) (some x.id) "" 90).id)
        (fun c => c.setPrompt v) x.children) =
    updateLast (fun c => c.id = (createEndNode (joinDash cur) (some x.id) "" 90).id)
      (fun c => c.setPrompt v)
      (updateLast (fun c => c.id = (createEndNode (joinDash cur) (some x.id) "" 90).id) _
        x.children)
  rw [updateLast_comp (fun y hy => by
      rw [decide_eq_true_eq] at hy
      rw [decide_eq_true_eq, setPrompt_id]
      exact hy)
    (fun y hy => by
      rw [decide_eq_false_iff_not] at hy ⊢
      rw [setPrompt_id]
      exact hy)
    (fun y hy => by
      rw [decide_eq_false_iff_not] at hy ⊢
      cases y with
      | mk a0 pid0 t0 conf0 os0 cs0 => exact hy),
    updateLast_comp (fun y hy => by
      rw [decide_eq_true_eq] at hy ⊢
      cases y with
      | mk a0 pid0 t0 conf0 os0 cs0 => exact hy)
    (fun y hy => by
      rw [decide_eq_false_iff_not] at hy ⊢
      cases y with
      | mk a0 pid0 t0 conf0 os0 cs0 => exact hy)
    (fun y hy => by
      rw [decide_eq_false_iff_not] at hy ⊢
      rw [setPrompt_id]
      exact hy)]
  apply updateLast_congr_matched
  intro c _
  cases c with
  | mk a0 pid0 t0 conf0 os0 cs0 =>
    simp only [createEndNode, node_setPrompt_mk, node_setConfidence_mk,
      node_setOptions_mk, node_id_mk, node_parentId_mk, node_promptText_mk,
      node_confidence_mk, node_options_mk, node_children_mk,
      List.filter_nil, List.append_nil]
    rw [strOr_empty]

theorem end_absorb {W : Node} {cur : List String} {msg : TranscriptMessage} (v : String)
    (hpe : isPressEvent msg = none) (hrole : msg.role = "user")
    (hopts : parseOptions msg.message = []) (hcur : cur ≠ [])
    (hv0 : jsTrim msg.message ≠ "") :
    treeStep cur msg (setPromptAt (.endc cur) v W) = treeStep cur msg W := by
  rw [treeStep_end_eq cur _ hpe hrole hopts hcur, treeStep_end_eq cur W hpe hrole hopts hcur,
    setPromptAt, modifyAt_comp (fun x => setChildren_id x _)]
  have hfun : (fun x : Node => upsertChild (x.setChildren (updateLast
      (fun c => c.id = joinDash cur) (fun c => c.setPrompt v) x.children))
      (createEndNode (joinDash cur)
        (some (x.setChildren (updateLast (fun c => c.id = joinDash cur)
          (fun c => c.setPrompt v) x.children)).id) (jsTrim msg.message) 90)) =
      (fun x : Node => upsertChild x
        (createEndNode (joinDash cur) (some x.id) (jsTrim msg.message) 90)) := by
    funext x
    exact upsert_end_absorb cur (jsTrim msg.message) v hv0 x
  rw [hfun]

/-! ### C1 groundwork: a step passes through a prompt chain descending elsewhere -/

theorem setPrompt_gthru (v : String) (F : Node → Node) (x : Node) (pa : List String)
    (j : String) (js : List String) :
    (modifyAtIds F x (pathIdsAux pa (j :: js))).setPrompt v =
      modifyAtIds F (x.setPrompt v) (pathIdsAux pa (j :: js)) := by
  rw [pathIdsAux, modifyAtIds, modifyAtIds, setPrompt_children, setPrompt_setChildren]

theorem endc_gthru (pj : List String) (v : String) {F : Node → Node}
    (hFid : ∀ y, (F y).id = y.id) (x : Node) (j : String) (js : List String)
    (hne : pathId (pj ++ [j]) ≠ joinDash pj) :
    (modifyAtIds F x (pathIdsAux pj (j :: js))).setChildren
        (updateLast (fun c => c.id = joinDash pj) (fun c => c.setPrompt v)
          (modifyAtIds F x (pathIdsAux pj (j :: js))).children) =
      modifyAtIds F
        (x.setChildren (updateLast (fun c => c.id = joinDash pj)
          (fun c => c.setPrompt v) x.children))
        (pathIdsAux pj (j :: js)) := by
  rw [pathIdsAux, modifyAtIds, modifyAtIds, children_setChildren, setChildren_setChildren,
    children_setChildren, setChildren_setChildren]
  congr 1
  exact (updateFirst_updateLast_swap
    (fun y hy => by
      rw [decide_eq_true_eq] at hy
      rw [decide_eq_false_iff_not]
      rw [hy]
      exact hne)
    (fun y hy => by
      rw [decide_eq_true_eq] at hy
      rw [decide_eq_false_iff_not]
      rw [hy]
      exact fun h2 => hne h2.symm)
    (fun y => ⟨decide_id_congr (modifyAtIds_id hFid _ y),
      decide_id_congr (modifyAtIds_id hFid _ y)⟩)
    (fun y => ⟨decide_id_congr (setPrompt_id y v), decide_id_congr (setPrompt_id y v)⟩)
    x.children).symm

theorem opts_thru (t : String) (ps : List (String × String)) (G : Node → Node)
    (x : Node) (pa : List String) (j : String) (js : List String) :
    ps.foldl (fun n p => ensureOption n p.1 p.2)
        ((modifyAtIds G x (pathIdsAux pa (j :: js))).setPrompt t) =
      modifyAtIds G (ps.foldl (fun n p => ensureOption n p.1 p.2) (x.setPrompt t))
        (pathIdsAux pa (j :: js)) := by
  rw [pathIdsAux, modifyAtIds, modifyAtIds, setPrompt_setChildren,
    foldl_ensureOption_setChildren, foldl_ensureOption_children, setPrompt_children]

theorem ensureMenuNode_none_eq (parent : Node) (path : List String) :
    ensureMenuNode parent path none =
      if parent.children.any (fun c => c.id = pathId path) then parent
      else parent.setChildren (parent.children ++
        [createMenuNode (pathId path) (some parent.id) "" 95]) := by
  rw [ensureMenuNode.eq_def]
  by_cases h : parent.children.any (fun c => c.id = pathId path) = true
  · rw [if_pos h, if_pos h]
  · rw [if_neg h, if_neg h]
    rfl

theorem linkOptionTarget_setChildren (x : Node) (B : List Node) (d v : String) :
    (linkOptionTarget x d v).setChildren B = linkOptionTarget (x.setChildren B) d v := by
  cases x <;> rfl

theorem press_thru (cur : List String) (d : String) {G : Node → Node}
    (hGid : ∀ y, (G y).id = y.id) (j : String) (js : List String)
    (hd0 : d ≠ "") (hj0 : j ≠ "") (x : Node)
    (hres : ∀ hdj : d = j, ∃ m, resolveIds x (pathIdsAux cur (j :: js)) = some m) :
    linkOptionTarget (ensureMenuNode (modifyAtIds G x (pathIdsAux cur (j :: js)))
        (cur ++ [d]) none) d (pathId (cur ++ [d])) =
      modifyAtIds G (linkOptionTarget (ensureMenuNode x (cur ++ [d]) none) d
        (pathId (cur ++ [d]))) (pathIdsAux cur (j :: js)) := by
  rw [pathIdsAux] at hres ⊢
  rw [modifyAtIds, modifyAtIds]
  rw [ensureMenuNode_none_eq, ensureMenuNode_none_eq, children_setChildren,
    updateFirst_id_any (modifyAtIds_id hGid _)]
  by_cases h : x.children.any (fun c => c.id = pathId (cur ++ [d])) = true
  · rw [if_pos h, if_pos h, linkOptionTarget_children, linkOptionTarget_setChildren]
  · rw [if_neg h, if_neg h]
    simp only [children_setChildren, setChildren_setChildren, setChildren_id]
    rw [linkOptionTarget_children]
    simp only [children_setChildren]
    rw [linkOptionTarget_setChildren]
    simp only [setChildren_setChildren]
    by_cases hdj : d = j
    · exfalso
      obtain ⟨m, hm⟩ := hres hdj
      rw [resolveIds] at hm
      subst hdj
      cases hfind : x.children.find? (fun c => c.id = pathId (cur ++ [d])) with
      | none => rw [hfind] at hm; cases hm
      | some c =>
        have hp := List.find?_some hfind
        have hp2 : decide (c.id = pathId (cur ++ [d])) = true := hp
        have hmem : c ∈ x.children := List.mem_of_find?_eq_some hfind
        exact h (List.any_eq_true.mpr ⟨c, hmem, hp2⟩)
    · rw [updateFirst_append_nomatch (by
        show decide ((createMenuNode (pathId (cur ++ [d])) (some x.id) "" 95).id =
          pathId (cur ++ [j])) = false
        rw [createMenuNode_id]
        exact decide_eq_false (pathId_snoc_inj hdj hd0 hj0))]

theorem end_thru (cur : List String) (t : String) {G : Node → Node}
    (hGid : ∀ y, (G y).id = y.id) (j : String) (js : List String) (x : Node) :
    upsertChild (modifyAtIds G x (pathIdsAux cur (j :: js)))
        (createEndNode (joinDash cur)
          (some (modifyAtIds G x (pathIdsAux cur (j :: js))).id) t 90) =
      modifyAtIds G (upsertChild x (createEndNode (joinDash cur) (some x.id) t 90))
        (pathIdsAux cur (j :: js)) := by
  have hne := pathId_snoc_ne_joinDash cur j
  rw [pathIdsAux]
  rw [modifyAtIds, modifyAtIds, setChildren_id, upsertChild, upsertChild,
    children_setChildren, updateFirst_id_any (modifyAtIds_id hGid _)]
  by_cases hex : x.children.any
      (fun c => c.id = (createEndNode (joinDash cur) (some x.id) t 90).id) = true
  · rw [if_pos hex, if_pos hex]
    simp only [children_setChildren, setChildren_setChildren]
    congr 1
    exact (updateFirst_updateLast_swap
      (fun y hy => by
        rw [decide_eq_true_eq] at hy
        rw [decide_eq_false_iff_not]
        show ¬y.id = (createEndNode (joinDash cur) (some x.id) t 90).id
        rw [createEndNode_id, hy]
        exact hne)
      (fun y hy => by
        rw [decide_eq_true_eq] at hy
        rw [decide_eq_false_iff_not]
        rw [createEndNode_id] at hy
        rw [hy]
        exact fun h2 => hne h2.symm)
      (fun y => ⟨decide_id_congr (modifyAtIds_id hGid _ y),
        decide_id_congr (modifyAtIds_id hGid _ y)⟩)
      (fun y => ⟨by
        apply decide_id_congr
        cases y with
        | mk a0 pid0 t0 conf0 os0 cs0 => rfl, by
        apply decide_id_congr
        cases y with
        | mk a0 pid0 t0 conf0 os0 cs0 => rfl⟩)
      x.children).symm
  · rw [if_neg hex, if_neg hex]
    simp only [children_setChildren, setChildren_setChildren]
    rw [updateFirst_append_nomatch (by
      show decide ((createEndNode (joinDash cur) (some x.id) t 90).id =
        pathId (cur ++ [j])) = false
      rw [createEndNode_id]
      exact decide_eq_false (fun h2 => hne h2.symm))]

/-! ### C1 groundwork: generic commutation of two rewrites at different paths -/

theorem modifyAtIds_comm {F G : Node → Node} {cF pa : List String} {P : Node → Prop}
    (hFid : ∀ x, (F x).id = x.id) (hGid : ∀ x, (G x).id = x.id)
    (hFG : cF = pa → ∀ x, P x → F (G x) = G (F x))
    (hFthru : ∀ (j : String) (js : List String) (x : Node),
      cF ++ j :: js = pa → segsNE (j :: js) →
      (∃ m, resolveIds x (pathIdsAux cF (j :: js)) = some m ∧ P m) →
      F (modifyAtIds G x (pathIdsAux cF (j :: js))) =
        modifyAtIds G (F x) (pathIdsAux cF (j :: js)))
    (hGthru : ∀ (j : String) (js : List String) (x : Node),
      pa ++ j :: js = cF → segsNE (j :: js) →
      G (modifyAtIds F x (pathIdsAux pa (j :: js))) =
        modifyAtIds F (G x) (pathIdsAux pa (j :: js))) :
    ∀ (restF : List String) (restG : List String) (pref : List String) (n : Node),
      pref ++ restF = cF → pref ++ restG = pa →
      segsNE restF → segsNE restG →
      (∃ m, resolveIds n (pathIdsAux pref restG) = some m ∧ P m) →
      modifyAtIds F (modifyAtIds G n (pathIdsAux pref restG)) (pathIdsAux pref restF) =
        modifyAtIds G (modifyAtIds F n (pathIdsAux pref restF)) (pathIdsAux pref restG) := by
  intro restF
  induction restF with
  | nil =>
    intro restG pref n hF hG hneF hneG hres
    rw [List.append_nil] at hF
    subst hF
    cases restG with
    | nil =>
      rw [List.append_nil] at hG
      obtain ⟨m, hm, hp⟩ := hres
      have h2 : some n = some m := hm
      have h3 := Option.some.inj h2
      subst h3
      show F (G n) = G (F n)
      exact hFG hG n hp
    | cons j js =>
      exact hFthru j js n hG hneG hres
  | cons d ds ih =>
    intro restG pref n hF hG hneF hneG hres
    cases restG with
    | nil =>
      rw [List.append_nil] at hG
      subst hG
      exact (hGthru d ds n hF hneF).symm
    | cons j js =>
      have hd0 : d ≠ "" := hneF d (List.mem_cons_self _ _)
      have hj0 : j ≠ "" := hneG j (List.mem_cons_self _ _)
      by_cases hdj : d = j
      · subst hdj
        rw [pathIdsAux] at hres
        rw [pathIdsAux, pathIdsAux, modifyAtIds, modifyAtIds, modifyAtIds, modifyAtIds]
        simp only [children_setChildren, setChildren_setChildren]
        congr 1
        refine updateFirst_swap ?_ ?_ n.children ?_
        · exact fun y hy => (decide_id_congr (modifyAtIds_id hFid _ y)).trans hy
        · exact fun y hy => (decide_id_congr (modifyAtIds_id hGid _ y)).trans hy
        · intro c hc
          have hF2 : (pref ++ [d]) ++ ds = cF := by
            rw [List.append_assoc]
            exact hF
          have hG2 : (pref ++ [d]) ++ js = pa := by
            rw [List.append_assoc]
            exact hG
          have hres2 : ∃ m, resolveIds c (pathIdsAux (pref ++ [d]) js) = some m ∧ P m := by
            obtain ⟨m, hm, hp⟩ := hres
            rw [resolveIds, hc] at hm
            exact ⟨m, hm, hp⟩
          exact ih js (pref ++ [d]) c hF2 hG2
            (fun s hs => hneF s (List.mem_cons_of_mem _ hs))
            (fun s hs => hneG s (List.mem_cons_of_mem _ hs)) hres2
      · rw [pathIdsAux, pathIdsAux]
        rw [modifyAtIds, modifyAtIds, modifyAtIds, modifyAtIds]
        simp only [children_setChildren, setChildren_setChildren]
        congr 1
        refine updateFirst_disjoint_swap ?_ ?_ ?_ ?_ n.children
        · intro y hy
          show decide (y.id = pathId (pref ++ [j])) = false
          rw [decide_eq_true_eq] at hy
          rw [decide_eq_false_iff_not, hy]
          exact pathId_snoc_inj hdj hd0 hj0
        · intro y hy
          show decide (y.id = pathId (pref ++ [d])) = false
          rw [decide_eq_true_eq] at hy
          rw [decide_eq_false_iff_not, hy]
          exact fun h2 => pathId_snoc_inj hdj hd0 hj0 h2.symm
        · exact fun y => ⟨decide_id_congr (modifyAtIds_id hFid _ y),
            decide_id_congr (modifyAtIds_id hFid _ y)⟩
        · exact fun y => ⟨decide_id_congr (modifyAtIds_id hGid _ y),
            decide_id_congr (modifyAtIds_id hGid _ y)⟩

theorem modifyAt_comm {F G : Node → Node} {cF pa : List String} {P : Node → Prop} {X : Node}
    (hFid : ∀ x, (F x).id = x.id) (hGid : ∀ x, (G x).id = x.id)
    (hFG : cF = pa → ∀ x, P x → F (G x) = G (F x))
    (hFthru : ∀ (j : String) (js : List String) (x : Node),
      cF ++ j :: js = pa → segsNE (j :: js) →
      (∃ m, resolveIds x (pathIdsAux cF (j :: js)) = some m ∧ P m) →
      F (modifyAtIds G x (pathIdsAux cF (j :: js))) =
        modifyAtIds G (F x) (pathIdsAux cF (j :: js)))
    (hGthru : ∀ (j : String) (js : List String) (x : Node),
      pa ++ j :: js = cF → segsNE (j :: js) →
      G (modifyAtIds F x (pathIdsAux pa (j :: js))) =
        modifyAtIds F (G x) (pathIdsAux pa (j :: js)))
    (hneF : segsNE cF) (hneG : segsNE pa)
    (hres : ∃ m, resolveNode X pa = some m ∧ P m) :
    modifyAt F (modifyAt G X pa) cF = modifyAt G (modifyAt F X cF) pa := by
  rw [modifyAt, modifyAt, modifyAt, modifyAt]
  exact modifyAtIds_comm hFid hGid hFG hFthru hGthru cF pa [] X rfl rfl hneF hneG hres

/-! ### C1 groundwork: a non-writing step commutes with a pending prompt write -/

theorem treeStep_setPromptAt_comm {X : Node} {cur : List String} {msg : TranscriptMessage}
    {a : Addr} {v : String} (hnw : writesPromptStep cur msg a = false)
    (hnec : segsNE cur) (hnea : segsNE (Addr.path a)) (hok : AddrOK X a) :
    treeStep cur msg (setPromptAt a v X) = setPromptAt a v (treeStep cur msg X) := by
  cases hpe : isPressEvent msg with
  | some d =>
    have hd0 : d ≠ "" := isPressEvent_ne_empty hpe
    rw [treeStep_press_eq cur _ hpe, treeStep_press_eq cur X hpe]
    cases a with
    | node pa =>
      have hok2 : ∃ m, resolveNode X pa = some m := hok
      obtain ⟨m, hm⟩ := hok2
      exact modifyAt_comm (P := fun _ => True)
        (press_id_pres cur d) (fun y => setPrompt_id y v)
        (fun heq x _ => press_setPrompt_comm cur d (pathId (cur ++ [d])) v x)
        (fun j js x hpath hnejs hr =>
          press_thru cur d (fun y => setPrompt_id y v) j js hd0
            (hnejs j (List.mem_cons_self _ _)) x
            (fun hdj => hr.imp (fun m2 h2 => h2.1)))
        (fun j js x hpath hnejs => setPrompt_gthru v _ x pa j js)
        hnec hnea ⟨m, hm, trivial⟩
    | endc pa =>
      have hok2 : ∃ m c, resolveNode X pa = some m ∧
          findLast (fun c2 => c2.id = joinDash pa) m.children = some c ∧
          90 ≤ c.confidence := hok
      obtain ⟨m, c, hm, hfl, hconf⟩ := hok2
      exact modifyAt_comm
        (P := fun m2 => ∃ c2, findLast (fun c3 => c3.id = joinDash pa) m2.children = some c2)
        (press_id_pres cur d) (fun y => setChildren_id y _)
        (fun heq x hp => by
          subst heq
          exact press_endc_comm cur d (pathId (cur ++ [d])) v x
            (pathId_snoc_ne_joinDash cur d))
        (fun j js x hpath hnejs hr =>
          press_thru cur d (fun y => setChildren_id y _) j js hd0
            (hnejs j (List.mem_cons_self _ _)) x
            (fun hdj => hr.imp (fun m2 h2 => h2.1)))
        (fun j js x hpath hnejs =>
          endc_gthru pa v (press_id_pres cur d) x j js (pathId_snoc_ne_joinDash pa j))
        hnec hnea ⟨m, hm, c, hfl⟩
  | none =>
    by_cases hrole : msg.role = "user"
    · by_cases hopts : parseOptions msg.message ≠ []
      · have hnw2 : decide (a = Addr.node cur) = false := by
          rw [writesPromptStep.eq_def, hpe] at hnw
          dsimp only at hnw
          rw [if_pos hrole, if_pos hopts] at hnw
          exact hnw
        have hnan := of_decide_eq_false hnw2
        rw [treeStep_opts_eq cur _ hpe hrole hopts, treeStep_opts_eq cur X hpe hrole hopts]
        cases a with
        | node pa =>
          have hne2 : pa ≠ cur := fun h2 => hnan (by rw [h2])
          have hok2 : ∃ m, resolveNode X pa = some m := hok
          obtain ⟨m, hm⟩ := hok2
          exact modifyAt_comm (P := fun _ => True)
            (opts_id_pres msg.message) (fun y => setPrompt_id y v)
            (fun heq x _ => absurd heq.symm hne2)
            (fun j js x hpath hnejs hr =>
              opts_thru (jsTrim msg.message) (parseOptions msg.message) _ x cur j js)
            (fun j js x hpath hnejs => setPrompt_gthru v _ x pa j js)
            hnec hnea ⟨m, hm, trivial⟩
        | endc pa =>
          have hok2 : ∃ m c, resolveNode X pa = some m ∧
              findLast (fun c2 => c2.id = joinDash pa) m.children = some c ∧
              90 ≤ c.confidence := hok
          obtain ⟨m, c, hm, hfl, hconf⟩ := hok2
          exact modifyAt_comm
            (P := fun m2 => ∃ c2, findLast (fun c3 => c3.id = joinDash pa) m2.children =
              some c2)
            (opts_id_pres msg.message) (fun y => setChildren_id y _)
            (fun heq x hp =>
              opts_endc_comm (jsTrim msg.message) v (parseOptions msg.message) pa x)
            (fun j js x hpath hnejs hr =>
              opts_thru (jsTrim msg.message) (parseOptions msg.message) _ x cur j js)
            (fun j js x hpath hnejs =>
              endc_gthru pa v (opts_id_pres msg.message) x j js
                (pathId_snoc_ne_joinDash pa j))
            hnec hnea ⟨m, hm, c, hfl⟩
      · have hopts0 : parseOptions msg.message = [] := not_ne_iff.mp hopts
        by_cases hcur : cur = []
        · rw [treeStep_end_root_eq cur _ hpe hrole hopts0 hcur,
            treeStep_end_root_eq cur X hpe hrole hopts0 hcur]
        · have hnw2 : (decide (a = Addr.endc cur) && !(decide (cur = [])) &&
              !(decide (jsTrim msg.message = ""))) = false := by
            rw [writesPromptStep.eq_def, hpe] at hnw
            dsimp only at hnw
            rw [if_pos hrole, if_neg (fun hh => hh hopts0)] at hnw
            exact hnw
          have hdis : ¬(a = Addr.endc cur) ∨ jsTrim msg.message = "" := by
            rcases Bool.and_eq_false_iff.mp hnw2 with h1 | h2
            · rcases Bool.and_eq_false_iff.mp h1 with h3 | h4
              · exact .inl (of_decide_eq_false h3)
              · exfalso
                have h5 : decide (cur = []) = true := by
                  cases hdec : decide (cur = [])
                  · rw [hdec] at h4; cases h4
                  · rfl
                exact hcur (of_decide_eq_true h5)
            · right
              have h5 : decide (jsTrim msg.message = "") = true := by
                cases hdec : decide (jsTrim msg.message = "")
                · rw [hdec] at h2; cases h2
                · rfl
              exact of_decide_eq_true h5
          rw [treeStep_end_eq cur _ hpe hrole hopts0 hcur,
            treeStep_end_eq cur X hpe hrole hopts0 hcur]
          cases a with
          | node pa =>
            have hok2 : ∃ m, resolveNode X pa = some m := hok
            obtain ⟨m, hm⟩ := hok2
            exact modifyAt_comm (P := fun _ => True)
              (end_id_pres cur (jsTrim msg.message)) (fun y => setPrompt_id y v)
              (fun heq x _ => by
                subst heq
                exact upsert_end_setPrompt cur (jsTrim msg.message) v x)
              (fun j js x hpath hnejs hr =>
                end_thru cur (jsTrim msg.message) (fun y => setPrompt_id y v) j js x)
              (fun j js x hpath hnejs => setPrompt_gthru v _ x pa j js)
              hnec hnea ⟨m, hm, trivial⟩
          | endc pa =>
            have hdis2 : pa ≠ cur ∨ jsTrim msg.message = "" :=
              hdis.imp (fun h1 h2 => h1 (by rw [h2])) id
            have hok2 : ∃ m c, resolveNode X pa = some m ∧
                findLast (fun c2 => c2.id = joinDash pa) m.children = some c ∧
                90 ≤ c.confidence := hok
            obtain ⟨m, c, hm, hfl, hconf⟩ := hok2
            exact modifyAt_comm
              (P := fun m2 => ∃ c2, findLast (fun c3 => c3.id = joinDash pa) m2.children =
                some c2)
              (end_id_pres cur (jsTrim msg.message)) (fun y => setChildren_id y _)
              (fun heq x hp => by
                have htr : jsTrim msg.message = "" := by
                  cases hdis2 with
                  | inl h => exact absurd heq.symm h
                  | inr h => exact h
                subst heq
                rw [htr]
                obtain ⟨c2, hc2⟩ := hp
                exact end_endc_comm cur v x (any_of_findLast hc2))
              (fun j js x hpath hnejs hr =>
                end_thru cur (jsTrim msg.message) (fun y => setChildren_id y _) j js x)
              (fun j js x hpath hnejs =>
                endc_gthru pa v (end_id_pres cur (jsTrim msg.message)) x j js
                  (pathId_snoc_ne_joinDash pa j))
              hnec hnea ⟨m, hm, c, hfl⟩
    · rw [treeStep_skip_eq cur _ hpe hrole, treeStep_skip_eq cur X hpe hrole]

/-! ### C1 groundwork: a pending prompt write is absorbed by the next writer -/

theorem buildState_ext {s t : BuildState} (h1 : s.root = t.root)
    (h2 : s.curPath = t.curPath) (h3 : s.stack = t.stack) : s = t := by
  cases s
  cases t
  dsimp only at h1 h2 h3
  subst h1
  subst h2
  subst h3
  rfl

theorem promptDiff_absorbed {a : Addr} {v : String} :
    ∀ (rest : List TranscriptMessage) (cs : List String × List (List String)) (X : Node),
      writesPrompt cs rest a = true → AddrOK X a → segsOK cs.1 cs.2 →
      segsNE (Addr.path a) →
      (rest.foldl stepMsg ⟨setPromptAt a v X, cs.1, cs.2⟩).root =
        (rest.foldl stepMsg ⟨X, cs.1, cs.2⟩).root := by
  intro rest
  induction rest with
  | nil =>
    intro cs X hw _ _ _
    rw [writesPrompt] at hw
    cases hw
  | cons m ms ih =>
    intro cs X hw hok hsok hnea
    rw [writesPrompt] at hw
    rw [List.foldl_cons, List.foldl_cons]
    by_cases hws : writesPromptStep cs.1 m a = true
    · have habs : treeStep cs.1 m (setPromptAt a v X) = treeStep cs.1 m X := by
        rw [writesPromptStep.eq_def] at hws
        cases hpe : isPressEvent m with
        | some d =>
          rw [hpe] at hws
          exact absurd hws Bool.false_ne_true
        | none =>
          rw [hpe] at hws
          dsimp only at hws
          by_cases hrole : m.role = "user"
          · rw [if_pos hrole] at hws
            by_cases hopts : parseOptions m.message ≠ []
            · rw [if_pos hopts] at hws
              have ha : a = Addr.node cs.1 := of_decide_eq_true hws
              subst ha
              exact opts_absorb v hpe hrole hopts
            · rw [if_neg hopts] at hws
              have hopts0 : parseOptions m.message = [] := not_ne_iff.mp hopts
              obtain ⟨h12, h3⟩ := Bool.and_eq_true_iff.mp hws
              obtain ⟨h1, h2⟩ := Bool.and_eq_true_iff.mp h12
              have ha : a = Addr.endc cs.1 := of_decide_eq_true h1
              have hb2 : decide (cs.1 = []) = false := by
                cases hdec : decide (cs.1 = [])
                · rfl
                · rw [hdec] at h2; cases h2
              have hcur : cs.1 ≠ [] := of_decide_eq_false hb2
              have hb3 : decide (jsTrim m.message = "") = false := by
                cases hdec : decide (jsTrim m.message = "")
                · rfl
                · rw [hdec] at h3; cases h3
              have htrim : jsTrim m.message ≠ "" := of_decide_eq_false hb3
              subst ha
              exact end_absorb v hpe hrole hopts0 hcur htrim
          · rw [if_neg hrole] at hws
            exact absurd hws Bool.false_ne_true
      have hstep : stepMsg ⟨setPromptAt a v X, cs.1, cs.2⟩ m = stepMsg ⟨X, cs.1, cs.2⟩ m := by
        apply buildState_ext
        · rw [stepMsg_root, stepMsg_root]
          exact habs
        · rw [stepMsg_curPath, stepMsg_curPath]
        · rw [stepMsg_stack, stepMsg_stack]
      rw [hstep]
    · have hw2 : writesPrompt (cursorStep cs m) ms a = true := by
        rcases Bool.or_eq_true_iff.mp hw with h1 | h2
        · exact absurd h1 hws
        · exact h2
      have hcomm : treeStep cs.1 m (setPromptAt a v X) =
          setPromptAt a v (treeStep cs.1 m X) :=
        treeStep_setPromptAt_comm (Bool.eq_false_iff.mpr hws) hsok.1 hnea hok
      have hstep1 : stepMsg ⟨setPromptAt a v X, cs.1, cs.2⟩ m =
          ⟨setPromptAt a v (treeStep cs.1 m X), (cursorStep cs m).1, (cursorStep cs m).2⟩ := by
        apply buildState_ext
        · rw [stepMsg_root]
          exact hcomm
        · rw [stepMsg_curPath]
        · rw [stepMsg_stack]
      have hstep2 : stepMsg ⟨X, cs.1, cs.2⟩ m =
          ⟨treeStep cs.1 m X, (cursorStep cs m).1, (cursorStep cs m).2⟩ := by
        apply buildState_ext
        · rw [stepMsg_root]
        · rw [stepMsg_curPath]
        · rw [stepMsg_stack]
      rw [hstep1, hstep2]
      have hsok2 : segsOK (cursorStep cs m).1 (cursorStep cs m).2 := by
        have h := segsOK_step m hsok
        rwa [Prod.mk.eta] at h
      exact ih (cursorStep cs m) (treeStep cs.1 m X) hw2
        (addrOK_step cs.1 m hsok.1 hnea hok) hsok2 hnea

/-! ### C1: re-running a link-stable merge reproduces the merged tree -/

theorem replayFixed :
    ∀ (rest : List TranscriptMessage) (s : BuildState),
      linkStableAux s rest = true → pathsOK s.root s.curPath s.stack →
      segsOK s.curPath s.stack →
      (rest.foldl stepMsg ⟨(rest.foldl stepMsg s).root, s.curPath, s.stack⟩).root =
        (rest.foldl stepMsg s).root := by
  intro rest
  induction rest with
  | nil => intro s _ _ _; rfl
  | cons m ms ih =>
    intro s hls hpok hsok
    rw [linkStableAux] at hls
    obtain ⟨hstab, hls2⟩ := Bool.and_eq_true_iff.mp hls
    rw [List.foldl_cons, List.foldl_cons]
    have hpok2 : pathsOK (stepMsg s m).root (stepMsg s m).curPath (stepMsg s m).stack := by
      rw [stepMsg_root, stepMsg_curPath, stepMsg_stack]
      exact pathsOK_step m hpok hsok
    have hsok2 : segsOK (stepMsg s m).curPath (stepMsg s m).stack := by
      rw [stepMsg_curPath, stepMsg_stack]
      exact segsOK_step m hsok
    have hstep : stepMsg ⟨(ms.foldl stepMsg (stepMsg s m)).root, s.curPath, s.stack⟩ m =
        ⟨treeStep s.curPath m (ms.foldl stepMsg (stepMsg s m)).root,
          (stepMsg s m).curPath, (stepMsg s m).stack⟩ := by
      apply buildState_ext
      · rw [stepMsg_root]
      · rw [stepMsg_curPath, stepMsg_curPath]
      · rw [stepMsg_stack, stepMsg_stack]
    rw [hstep]
    cases hpe : isPressEvent m with
    | some d =>
      rw [hpe] at hstab
      cases hres : resolveNode s.root s.curPath with
      | none =>
        rw [hres] at hstab
        exact absurd hstab Bool.false_ne_true
      | some n =>
        rw [hres] at hstab
        have hany : n.options.any (fun o => o.digit = d) = true := hstab
        have hfact : PressFact (stepMsg s m).root s.curPath d := by
          rw [stepMsg_root]
          exact pressFact_establish hres hany m hpe
        have hrun : PressFact (ms.foldl stepMsg (stepMsg s m)).root s.curPath d :=
          pressFact_run ms (stepMsg s m) hsok.1 hsok2 hfact
        rw [press_ident hpe hrun]
        exact ih (stepMsg s m) hls2 hpok2 hsok2
    | none =>
      by_cases hrole : m.role = "user"
      · by_cases hopts : parseOptions m.message ≠ []
        · obtain ⟨n, hres⟩ := Option.isSome_iff_exists.mp hpok.1
          have hfact : OptsFact (stepMsg s m).root s.curPath (jsTrim m.message)
              (parseOptions m.message) := by
            rw [stepMsg_root]
            exact optsFact_establish hres m hpe hrole hopts
          by_cases hwp : writesPrompt ((stepMsg s m).curPath, (stepMsg s m).stack) ms
              (Addr.node s.curPath) = true
          · have hskel : OptsSkel (ms.foldl stepMsg (stepMsg s m)).root s.curPath
                (parseOptions m.message) :=
              optsSkel_run ms (stepMsg s m) hsok.1 hsok2 (optsSkel_of_fact hfact)
            rw [treeStep_opts_write hpe hrole hopts hskel]
            have hok2 : AddrOK (ms.foldl stepMsg (stepMsg s m)).root
                (Addr.node s.curPath) := by
              obtain ⟨m2, hm2, _⟩ := hskel
              exact ⟨m2, hm2⟩
            exact (promptDiff_absorbed ms ((stepMsg s m).curPath, (stepMsg s m).stack) _
              hwp hok2 hsok2 hsok.1).trans (ih (stepMsg s m) hls2 hpok2 hsok2)
          · have hwa : writesAgree ((stepMsg s m).curPath, (stepMsg s m).stack) ms
                (Addr.node s.curPath) (jsTrim m.message) = true :=
              writesAgree_of_not_writes ms _ (Bool.eq_false_iff.mpr hwp)
            have hrun := optsFact_run ms (stepMsg s m) hsok.1 hsok2 hwa hfact
            rw [opts_ident hpe hrole hopts hrun]
            exact ih (stepMsg s m) hls2 hpok2 hsok2
        · have hopts0 : parseOptions m.message = [] := not_ne_iff.mp hopts
          by_cases hcur : s.curPath = []
          · rw [treeStep_end_root_eq s.curPath _ hpe hrole hopts0 hcur]
            exact ih (stepMsg s m) hls2 hpok2 hsok2
          · obtain ⟨n, hres⟩ := Option.isSome_iff_exists.mp hpok.1
            have hfact : EndFact (stepMsg s m).root s.curPath (jsTrim m.message) := by
              rw [stepMsg_root]
              exact endFact_establish hres m hpe hrole hopts0 hcur
            by_cases hv : jsTrim m.message = ""
            · have hrun := endFact_run ms (stepMsg s m) hsok.1 hsok2
                (fun hne => absurd hv hne) hfact
              rw [end_ident hpe hrole hopts0 hcur hrun]
              exact ih (stepMsg s m) hls2 hpok2 hsok2
            · by_cases hwp : writesPrompt ((stepMsg s m).curPath, (stepMsg s m).stack) ms
                  (Addr.endc s.curPath) = true
              · have hskel : EndSkel (ms.foldl stepMsg (stepMsg s m)).root s.curPath :=
                  endSkel_run ms (stepMsg s m) hsok.1 hsok2 (endSkel_of_fact hfact)
                rw [treeStep_end_write hpe hrole hopts0 hcur hv hskel]
                exact (promptDiff_absorbed ms ((stepMsg s m).curPath, (stepMsg s m).stack) _
                  hwp hskel hsok2 hsok.1).trans (ih (stepMsg s m) hls2 hpok2 hsok2)
              · have hwa := writesAgree_of_not_writes (v := jsTrim m.message) ms
                  ((stepMsg s m).curPath, (stepMsg s m).stack) (Bool.eq_false_iff.mpr hwp)
                have hrun := endFact_run ms (stepMsg s m) hsok.1 hsok2 (fun _ => hwa) hfact
                rw [end_ident hpe hrole hopts0 hcur hrun]
                exact ih (stepMsg s m) hls2 hpok2 hsok2
      · rw [treeStep_skip_eq s.curPath _ hpe hrole]
        exact ih (stepMsg s m) hls2 hpok2 hsok2

/-- **C1** (corrected): merging a transcript into its own deterministic merge
result is *not* the identity in general — `c1_idempotence_counterexample`
presses a digit before any menu message announced an option with that digit,
so only the re-run links the later-announced option to the submenu.  The
amended claim: whenever the run is *link-stable* — every press event finds,
at press time, an option carrying the pressed digit on the node the cursor
stands on, so the link write already happens during the first run — re-running
`buildGraphDeterministic` over the already-merged tree reproduces that tree
exactly. -/
theorem c1_merge_idempotent_of_stable (T : Node) (U : List TranscriptMessage)
    (hls : linkStable T U = true) :
    buildGraphDeterministic U (some (buildGraphDeterministic U (some T))) =
      buildGraphDeterministic U (some T) := by
  show (U.foldl stepMsg ⟨(U.foldl stepMsg ⟨T, [], []⟩).root, [], []⟩).root =
    (U.foldl stepMsg ⟨T, [], []⟩).root
  exact replayFixed U ⟨T, [], []⟩ hls
    ⟨rfl, fun p hp => absurd hp (List.not_mem_nil p)⟩
    ⟨fun x hx => absurd hx (List.not_mem_nil x), fun p hp => absurd hp (List.not_mem_nil p)⟩

/-- Witness for C1: a concrete link-stable transcript over a bare root, on
which the merge is verifiably idempotent via `c1_merge_idempotent_of_stable`. -/
theorem c1_merge_idempotent_witness :
    linkStable plainRoot linkStableU = true ∧
    buildGraphDeterministic linkStableU
        (some (buildGraphDeterministic linkStableU (some plainRoot))) =
      buildGraphDeterministic linkStableU (some plainRoot) :=
  ⟨by decide, c1_merge_idempotent_of_stable plainRoot linkStableU (by decide)⟩
